import Mathlib

/-!
# KDSoap value model and XML writer

A shallow embedding of `src/KDSoapClient/KDSoapValue.cpp`: the value tree
(`KDSoapValue`, `KDSoapValueList`), the text and type serialisation of variants
(`variantToTextValue`, `variantToXMLType`) and the element writer
(`writeElement`, `writeElementContents`, `writeChildren`, `toXml`).

Qt classes used by the source are modelled as follows.

* `QString` is `String`; `QByteArray` is `Bytes`, a list of bytes.
* `QVariant` is the inductive `QVariant` below, one constructor per runtime kind the
  source switches on.  `QVariant::isNull` follows Qt 6: only the invalid variant is null.
* `QXmlStreamWriter` is the list of `XmlEvent`s written so far; every writer function
  returns the events it appends.
* Machine integers are `Int`/`Nat`; conversions between widths wrap explicitly.
-/

namespace KDSoap

/-! ## Qt scalar helpers -/

/-- Byte arrays (`QByteArray`). -/
abbrev Bytes := List (Fin 256)

/-- Reinterpretation of an integer as a signed 64-bit `qlonglong`. -/
def wrapS64 (n : Int) : Int :=
  let m := n % (2 ^ 64 : Int)
  if m < (2 ^ 63 : Int) then m else m - (2 ^ 64 : Int)

/-- Reinterpretation of an integer as an unsigned 64-bit `qulonglong`. -/
def wrapU64 (n : Int) : Nat :=
  (n % (2 ^ 64 : Int)).toNat

/-- The character of a decimal or hexadecimal digit (lowercase), as Qt prints it. -/
def digitChar (d : Nat) : Char :=
  if d < 10 then Char.ofNat (48 + d) else Char.ofNat (87 + d)

/-- Decimal digits of a natural number, most significant first; `0` gives `['0']`. -/
def natDigits (n : Nat) : List Char :=
  if n = 0 then ['0'] else ((Nat.digits 10 n).reverse.map digitChar)

/-- `QString::number(qulonglong)`: decimal text of an unsigned integer. -/
def numberU (n : Nat) : String :=
  String.mk (natDigits n)

/-- `QString::number(qlonglong)`: decimal text of a signed integer. -/
def number (n : Int) : String :=
  if n < 0 then String.mk ('-' :: natDigits n.natAbs) else String.mk (natDigits n.natAbs)

/-- Numeric value of a decimal digit character, if it is one. -/
def charDigit (c : Char) : Option Nat :=
  if 48 ≤ c.toNat ∧ c.toNat ≤ 57 then some (c.toNat - 48) else none

/-- Reads a non-empty run of decimal digits, most significant first. -/
def parseNat (cs : List Char) : Option Nat :=
  if cs = [] then none
  else cs.foldl (fun acc c => acc.bind (fun a => (charDigit c).map (fun d => 10 * a + d))) (some 0)

/-- Reads a decimal integer: an optional leading `-` followed by decimal digits. -/
def parseDecimal (s : String) : Option Int :=
  match s.data with
  | '-' :: cs => Option.map (fun (n : Nat) => - (n : Int)) (parseNat cs)
  | cs => Option.map (fun (n : Nat) => (n : Int)) (parseNat cs)

/-- Whether a character is one of the ten decimal digits. -/
def isDecimalDigit (c : Char) : Bool := decide (48 ≤ c.toNat ∧ c.toNat ≤ 57)

/-- Canonical decimal text of a natural number: a non-empty run of decimal digits with no
leading zero, except for the single digit `0`. -/
def canonicalNat (cs : List Char) : Bool :=
  !cs.isEmpty && cs.all isDecimalDigit && (cs.head? != some '0' || cs == ['0'])

/-- Canonical decimal text of an integer: a canonical natural number, or `-` followed by
a canonical non-zero natural number. -/
def canonicalDecimal (cs : List Char) : Bool :=
  match cs with
  | '-' :: ds => canonicalNat ds && ds != ['0']
  | ds => canonicalNat ds

/-- Zero-padded decimal text of `n` on (at least) `w` characters. -/
def padNat (w n : Nat) : List Char :=
  let ds := natDigits n
  List.replicate (w - ds.length) '0' ++ ds

/-- `QByteArray::toHex`: two lowercase hexadecimal digits per byte. -/
def toHex (b : Bytes) : List Char :=
  b.flatMap (fun x => [digitChar (x.val / 16), digitChar (x.val % 16)])

/-- The Base64 alphabet character of a 6-bit group. -/
def base64Char (n : Nat) : Char :=
  if n < 26 then Char.ofNat (65 + n)
  else if n < 52 then Char.ofNat (71 + n)
  else if n < 62 then Char.ofNat (n - 4)
  else if n = 62 then '+' else '/'

/-- `QByteArray::toBase64`: standard alphabet, padded with `=`. -/
def toBase64 : Bytes → List Char
  | [] => []
  | [a] =>
    [base64Char (a.val / 4), base64Char (a.val % 4 * 16), '=', '=']
  | [a, b] =>
    [base64Char (a.val / 4), base64Char (a.val % 4 * 16 + b.val / 16),
     base64Char (b.val % 16 * 4), '=']
  | a :: b :: c :: rest =>
    base64Char (a.val / 4) :: base64Char (a.val % 4 * 16 + b.val / 16) ::
    base64Char (b.val % 16 * 4 + c.val / 64) :: base64Char (c.val % 64) :: toBase64 rest

/-- `QString::fromLatin1` on the bytes of a Latin-1 character list. -/
def fromLatin1 (cs : List Char) : String := String.mk cs

/-! ## QVariant -/

/-- Runtime kinds of `QVariant` distinguished by the source (`QMetaType` ids). -/
inductive QVariant
  /-- `QMetaType::UnknownType`: the invalid (null) variant. -/
  | invalid
  /-- `QMetaType::QChar`. -/
  | qchar (c : Char)
  /-- `QMetaType::QString`. -/
  | qstring (s : String)
  /-- `QMetaType::QUrl`, held as the text `QUrl::toString` gives. -/
  | qurl (s : String)
  /-- `QMetaType::QByteArray`. -/
  | qbytearray (b : Bytes)
  /-- `QMetaType::Int`: 32-bit signed integer. -/
  | int (n : Int)
  /-- `QMetaType::LongLong`: 64-bit signed integer. -/
  | longlong (n : Int)
  /-- `QMetaType::UInt`: 32-bit unsigned integer. -/
  | uint (n : Nat)
  /-- `QMetaType::ULongLong`: 64-bit unsigned integer. -/
  | ulonglong (n : Nat)
  /-- `QMetaType::Bool`. -/
  | bool (b : Bool)
  /-- `QMetaType::Float`, held as the text `QVariant::toString` gives. -/
  | float (text : String)
  /-- `QMetaType::Double`, held as the text `QVariant::toString` gives. -/
  | double (text : String)
  /-- `QMetaType::QTime`: hour, minute, second, millisecond. -/
  | qtime (h m s ms : Nat)
  /-- `QMetaType::QDate`: year, month, day. -/
  | qdate (y m d : Nat)
  /-- `QMetaType::QDateTime`, held as the text `KDDateTime(dt).toDateString()` gives. -/
  | qdatetime (text : String)
  /-- The user type `KDDateTime`, held as the text `toDateString()` gives. -/
  | kddatetime (text : String)
  /-- Any other kind: its type name and the text `QVariant::toString` gives. -/
  | other (typeName text : String)
deriving DecidableEq, Repr

/-- `QVariant::isNull`: only the invalid variant is null. -/
def QVariant.isNull : QVariant → Bool
  | .invalid => true
  | _ => false

/-- `QVariant::toLongLong` on the integer kinds (the only kinds the source applies it to);
the stored number is reinterpreted as a signed 64-bit integer. -/
def QVariant.toLongLong : QVariant → Int
  | .int n => wrapS64 n
  | .longlong n => wrapS64 n
  | .uint n => wrapS64 n
  | .ulonglong n => wrapS64 n
  | _ => 0

/-- `QVariant::toULongLong` on the integer kinds; the stored number is reinterpreted as an
unsigned 64-bit integer. -/
def QVariant.toULongLong : QVariant → Nat
  | .int n => wrapU64 n
  | .longlong n => wrapU64 n
  | .uint n => wrapU64 n
  | .ulonglong n => wrapU64 n
  | _ => 0

/-- `QTime::isValid`. -/
def validTime (h m s ms : Nat) : Bool :=
  decide (h < 24) && decide (m < 60) && decide (s < 60) && decide (ms < 1000)

/-- `QTime::toString`: `HH:mm:ss`, followed by `.zzz` when `withMs`; empty for an invalid time. -/
def timeToString (withMs : Bool) (h m s ms : Nat) : String :=
  if validTime h m s ms then
    String.mk (padNat 2 h ++ [':'] ++ padNat 2 m ++ [':'] ++ padNat 2 s ++
      (if withMs then '.' :: padNat 3 ms else []))
  else ""

/-- Number of days of month `m` in year `y` (Gregorian). -/
def daysInMonth (y m : Nat) : Nat :=
  if m = 2 then (if (y % 4 = 0 ∧ y % 100 ≠ 0) ∨ y % 400 = 0 then 29 else 28)
  else if m = 4 ∨ m = 6 ∨ m = 9 ∨ m = 11 then 30
  else if 1 ≤ m ∧ m ≤ 12 then 31 else 0

/-- `QDate::toString(Qt::ISODate)`: `yyyy-MM-dd` for a valid date with a year in
`0..9999`, empty otherwise. -/
def dateToString (y m d : Nat) : String :=
  if y ≤ 9999 ∧ 1 ≤ d ∧ d ≤ daysInMonth y m then
    String.mk (padNat 4 y ++ ['-'] ++ padNat 2 m ++ ['-'] ++ padNat 2 d)
  else ""

/-- Whether a byte is a UTF-8 continuation byte (`10xxxxxx`). -/
def isContinuation (b : Fin 256) : Bool := decide (128 ≤ b.val ∧ b.val < 192)

/-- Decodes the UTF-8 sequence made of the lead byte `b` and the first bytes of `rest`:
the character and the number of continuation bytes used, or nothing when the sequence is
invalid (a stray continuation byte, an overlong form, a surrogate, a value above U+10FFFF
or a sequence cut short). -/
def utf8Sequence (b : Fin 256) (rest : Bytes) : Option (Char × Nat) :=
  if b.val < 128 then some (Char.ofNat b.val, 0)
  else if 194 ≤ b.val ∧ b.val < 224 then
    match rest with
    | c1 :: _ =>
      if isContinuation c1 then some (Char.ofNat ((b.val - 192) * 64 + (c1.val - 128)), 1)
      else none
    | _ => none
  else if 224 ≤ b.val ∧ b.val < 240 then
    match rest with
    | c1 :: c2 :: _ =>
      let cp := (b.val - 224) * 4096 + (c1.val - 128) * 64 + (c2.val - 128)
      if isContinuation c1 && isContinuation c2 && decide (2048 ≤ cp)
          && !decide (55296 ≤ cp ∧ cp < 57344) then
        some (Char.ofNat cp, 2)
      else none
    | _ => none
  else if 240 ≤ b.val ∧ b.val < 245 then
    match rest with
    | c1 :: c2 :: c3 :: _ =>
      let cp := (b.val - 240) * 262144 + (c1.val - 128) * 4096 + (c2.val - 128) * 64
        + (c3.val - 128)
      if isContinuation c1 && isContinuation c2 && isContinuation c3
          && decide (65536 ≤ cp ∧ cp ≤ 1114111) then
        some (Char.ofNat cp, 3)
      else none
    | _ => none
  else none

/-- The decoding loop of `QString::fromUtf8`: each valid sequence gives its character,
each byte that starts no valid sequence gives U+FFFD and decoding resumes at the next
byte. -/
def fromUtf8Loop : Bytes → List Char
  | [] => []
  | b :: rest =>
    match utf8Sequence b rest with
    | some (c, n) => c :: fromUtf8Loop (rest.drop n)
    | none => Char.ofNat 65533 :: fromUtf8Loop rest
termination_by l => l.length
decreasing_by
  all_goals simp_wf
  all_goals omega

/-- `QString::fromUtf8`: a leading byte order mark is skipped, the rest is decoded; a
character outside the basic plane, which `QString` holds as a surrogate pair, is one
character here. -/
def fromUtf8 (b : Bytes) : String :=
  String.mk (fromUtf8Loop (if b.take 3 = [239, 187, 191] then b.drop 3 else b))

/-- `QVariant::toString` on the kinds the source applies it to; a byte array is decoded
as UTF-8. -/
def QVariant.toString : QVariant → String
  | .qchar c => String.mk [c]
  | .qstring s => s
  | .qurl s => s
  | .bool b => if b then "true" else "false"
  | .float t => t
  | .double t => t
  | .other _ t => t
  | .int n => number (wrapS64 n)
  | .longlong n => number (wrapS64 n)
  | .uint n => number (wrapS64 n)
  | .ulonglong n => numberU (wrapU64 n)
  | .qbytearray b => fromUtf8 b
  | .qtime h m s ms => timeToString true h m s ms
  | .qdate y m d => dateToString y m d
  | .qdatetime t => t
  | .kddatetime t => t
  | .invalid => ""

/-! ## Namespaces -/

/-- `KDSoapNamespaceManager::xmlSchema1999()`. -/
def xmlSchema1999 : String := "http://www.w3.org/1999/XMLSchema"

/-- `KDSoapNamespaceManager::xmlSchema2001()`. -/
def xmlSchema2001 : String := "http://www.w3.org/2001/XMLSchema"

/-- `KDSoapNamespaceManager::xmlSchemaInstance2001()`, the namespace bound to `xsi`. -/
def xmlSchemaInstance2001 : String := "http://www.w3.org/2001/XMLSchema-instance"

/-- `KDSoapNamespaceManager::soapEncoding()`, the namespace bound to `soap-enc`. -/
def soapEncoding : String := "http://schemas.xmlsoap.org/soap/encoding/"

/-- `KDSoapNamespacePrefixes` (declared outside this source file): the standard namespace
declarations it writes, as `(uri, prefix)` pairs, and its `resolve(ns, localName)`
function giving the prefixed name of a type. -/
structure KDSoapNamespacePrefixes where
  standardNamespaces : List (String × String)
  resolve : String → String → String

/-! ## Serialisation of variants -/

/-- `variantToTextValue(value, typeNs, type)`. -/
def variantToTextValue (value : QVariant) (typeNs type : String) : String :=
  match value with
  | .qchar _ => value.toString
  | .qstring _ => value.toString
  | .qurl s => s
  | .qbytearray data =>
    if (typeNs = xmlSchema1999 ∨ typeNs = xmlSchema2001) ∧ type = "hexBinary" then
      fromLatin1 (toHex data)
    else
      fromLatin1 (toBase64 data)
  | .int _ => number value.toLongLong
  | .longlong _ => number value.toLongLong
  | .uint _ => number value.toLongLong
  | .ulonglong _ => numberU value.toULongLong
  | .bool _ => value.toString
  | .float _ => value.toString
  | .double _ => value.toString
  | .qtime h m s ms =>
    if validTime h m s ms ∧ ms = 0 then timeToString false h m s ms
    else timeToString true h m s ms
  | .qdate y m d => dateToString y m d
  | .qdatetime t => t
  | .invalid => ""
  | .kddatetime t => t
  | .other _ _ => value.toString

/-- `variantToXMLType(value)`. -/
def variantToXMLType (value : QVariant) : String :=
  match value with
  | .qchar _ => "xsd:string"
  | .qstring _ => "xsd:string"
  | .qurl _ => "xsd:string"
  | .qbytearray _ => "xsd:base64Binary"
  | .int _ => "xsd:int"
  | .longlong _ => "xsd:int"
  | .uint _ => "xsd:int"
  | .ulonglong _ => "xsd:unsignedInt"
  | .bool _ => "xsd:boolean"
  | .float _ => "xsd:float"
  | .double _ => "xsd:double"
  | .qtime _ _ _ _ => "xsd:time"
  | .qdate _ _ _ => "xsd:date"
  | .qdatetime _ => "xsd:dateTime"
  | .kddatetime _ => "xsd:dateTime"
  | .invalid => ""
  | .other _ _ => ""

/-- The variant `value` is of an integer kind and holds the integer `n`, within the range
of its machine type: 32-bit signed for `Int`, 64-bit signed for `LongLong`, 32-bit unsigned
for `UInt`, 64-bit unsigned for `ULongLong`. -/
def holdsInteger (value : QVariant) (n : Int) : Bool :=
  match value with
  | .int k => decide (k = n ∧ -2147483648 ≤ k ∧ k ≤ 2147483647)
  | .longlong k => decide (k = n ∧ -9223372036854775808 ≤ k ∧ k ≤ 9223372036854775807)
  | .uint k => decide ((k : Int) = n ∧ k ≤ 4294967295)
  | .ulonglong k => decide ((k : Int) = n ∧ k ≤ 18446744073709551615)
  | _ => false

/-- The type table as the specification words it: signed integers give `xsd:int`,
unsigned integers (32- or 64-bit) give `xsd:unsignedInt`. -/
def claimedXMLType (value : QVariant) : String :=
  match value with
  | .qchar _ => "xsd:string"
  | .qstring _ => "xsd:string"
  | .qurl _ => "xsd:string"
  | .qbytearray _ => "xsd:base64Binary"
  | .int _ => "xsd:int"
  | .longlong _ => "xsd:int"
  | .uint _ => "xsd:unsignedInt"
  | .ulonglong _ => "xsd:unsignedInt"
  | .bool _ => "xsd:boolean"
  | .float _ => "xsd:float"
  | .double _ => "xsd:double"
  | .qtime _ _ _ _ => "xsd:time"
  | .qdate _ _ _ => "xsd:date"
  | .qdatetime _ => "xsd:dateTime"
  | .kddatetime _ => "xsd:dateTime"
  | .invalid => ""
  | .other _ _ => ""

/-! ## The value tree -/

/-- `QXmlStreamNamespaceDeclaration`: a prefix bound to a namespace URI. -/
structure QXmlStreamNamespaceDeclaration where
  pfx : String
  namespaceUri : String
deriving DecidableEq, Repr

mutual
/-- `KDSoapValue` (its `Private` data): the fields in declaration order. -/
inductive KDSoapValue
  | mk (m_name : String) (m_nameNamespace : String) (m_value : QVariant)
       (m_typeNamespace : String) (m_typeName : String) (m_childValues : KDSoapValueList)
       (m_qualified : Bool) (m_nillable : Bool)
       (m_environmentNamespaceDeclarations : List QXmlStreamNamespaceDeclaration)
       (m_localNamespaceDeclarations : List QXmlStreamNamespaceDeclaration)
/-- `KDSoapValueList`: the list of child values, the attributes and the array type
`(namespace, localName)`. -/
inductive KDSoapValueList
  | mk (items : List KDSoapValue) (m_attributes : List KDSoapValue)
       (m_arrayType : String × String)
end

namespace KDSoapValueList

/-- The child elements, in list order (the `QList<KDSoapValue>` base). -/
def items : KDSoapValueList → List KDSoapValue
  | .mk i _ _ => i

/-- `KDSoapValueList::attributes()`. -/
def attributes : KDSoapValueList → List KDSoapValue
  | .mk _ a _ => a

/-- `KDSoapValueList::arrayTypeNs()`. -/
def arrayTypeNs : KDSoapValueList → String
  | .mk _ _ t => t.1

/-- `KDSoapValueList::arrayType()`. -/
def arrayType : KDSoapValueList → String
  | .mk _ _ t => t.2

/-- `QList::isEmpty()` on the child elements. -/
def isEmpty (l : KDSoapValueList) : Bool := l.items.isEmpty

/-- `QList::count()` on the child elements. -/
def count (l : KDSoapValueList) : Nat := l.items.length

/-- The default-constructed list: no element, no attribute, no array type. -/
def empty : KDSoapValueList := .mk [] [] ("", "")

end KDSoapValueList

namespace KDSoapValue

/-- `KDSoapValue::name()`. -/
def name : KDSoapValue → String
  | .mk n _ _ _ _ _ _ _ _ _ => n

/-- `KDSoapValue::namespaceUri()`. -/
def namespaceUri : KDSoapValue → String
  | .mk _ ns _ _ _ _ _ _ _ _ => ns

/-- `KDSoapValue::value()`. -/
def value : KDSoapValue → QVariant
  | .mk _ _ v _ _ _ _ _ _ _ => v

/-- `KDSoapValue::typeNs()`. -/
def typeNs : KDSoapValue → String
  | .mk _ _ _ t _ _ _ _ _ _ => t

/-- `KDSoapValue::type()`. -/
def type : KDSoapValue → String
  | .mk _ _ _ _ t _ _ _ _ _ => t

/-- `KDSoapValue::childValues()`. -/
def childValues : KDSoapValue → KDSoapValueList
  | .mk _ _ _ _ _ c _ _ _ _ => c

/-- `KDSoapValue::isQualified()`. -/
def isQualified : KDSoapValue → Bool
  | .mk _ _ _ _ _ _ q _ _ _ => q

/-- The `m_nillable` flag set by `setNillable`. -/
def nillable : KDSoapValue → Bool
  | .mk _ _ _ _ _ _ _ n _ _ => n

/-- `KDSoapValue::environmentNamespaceDeclarations()`. -/
def environmentNamespaceDeclarations : KDSoapValue → List QXmlStreamNamespaceDeclaration
  | .mk _ _ _ _ _ _ _ _ e _ => e

/-- `KDSoapValue::namespaceDeclarations()`. -/
def namespaceDeclarations : KDSoapValue → List QXmlStreamNamespaceDeclaration
  | .mk _ _ _ _ _ _ _ _ _ l => l

/-- `KDSoapValue::KDSoapValue()`: the default-constructed value. -/
def default : KDSoapValue :=
  .mk "" "" .invalid "" "" KDSoapValueList.empty false false [] []

/-- `KDSoapValue::KDSoapValue(n, v, typeNameSpace, typeName)`. -/
def ofVariant (n : String) (v : QVariant) (typeNameSpace typeName : String) : KDSoapValue :=
  .mk n "" v typeNameSpace typeName KDSoapValueList.empty false false [] []

/-- `KDSoapValue::KDSoapValue(n, children, typeNameSpace, typeName)`. -/
def ofChildren (n : String) (children : KDSoapValueList) (typeNameSpace typeName : String) :
    KDSoapValue :=
  .mk n "" .invalid typeNameSpace typeName children false false [] []

/-- `KDSoapValue::isNil()`. -/
def isNil (v : KDSoapValue) : Bool :=
  v.value.isNull && v.childValues.isEmpty && v.childValues.attributes.isEmpty

/-- `KDSoapValue::isNull()`. -/
def isNull (v : KDSoapValue) : Bool :=
  v.name.isEmpty && v.isNil

end KDSoapValue

/-! ## The XML writer -/

/-- What `QXmlStreamWriter` is asked to write, one event per call. -/
inductive XmlEvent
  /-- `writeStartDocument()`. -/
  | StartDocument
  /-- `writeEndDocument()`. -/
  | EndDocument
  /-- `writeNamespace(namespaceUri, prefix)`. -/
  | Namespace (namespaceUri pfx : String)
  /-- `writeStartElement(namespaceUri, name)`. -/
  | StartElementNs (namespaceUri name : String)
  /-- `writeStartElement(qualifiedName)`. -/
  | StartElement (name : String)
  /-- `writeEndElement()`. -/
  | EndElement
  /-- `writeAttribute(namespaceUri, name, value)`. -/
  | AttributeNs (namespaceUri name value : String)
  /-- `writeAttribute(qualifiedName, value)`. -/
  | Attribute (name value : String)
  /-- `writeCharacters(text)`. -/
  | Characters (text : String)
deriving DecidableEq, Repr

/-- `KDSoapValue::Use`. -/
inductive Use
  | LiteralUse
  | EncodedUse
deriving DecidableEq, Repr

/-- The attribute loop of `writeChildren`: one attribute event per entry of the attribute
list, in order. -/
def writeAttributes (forceQualified : Bool) (attributes : List KDSoapValue) : List XmlEvent :=
  attributes.map (fun attr =>
    let attributeNamespace := attr.namespaceUri
    if attr.isQualified || forceQualified then
      XmlEvent.AttributeNs attributeNamespace attr.name
        (variantToTextValue attr.value attr.typeNs attr.type)
    else
      XmlEvent.Attribute attr.name (variantToTextValue attr.value attr.typeNs attr.type))

/-- The condition of the `Q_ASSERT` at the head of `writeElement`. -/
def KDSoapValue.nameAssertion (v : KDSoapValue) : Bool := !v.name.isEmpty

/-- The start-element call of `writeElement` (source lines 284-297): `forceQualified` is
raised when the element namespace is non-empty and differs from the message namespace;
a qualified or forced element is started in its own namespace, or in the message
namespace when it has none; any other element is started by name only. -/
def KDSoapValue.startElement (messageNamespace : String) (forceQualified : Bool)
    (v : KDSoapValue) : XmlEvent :=
  let forceQualified :=
    if !v.namespaceUri.isEmpty && v.namespaceUri != messageNamespace then true
    else forceQualified
  if v.isQualified || forceQualified then
    let ns := if v.namespaceUri.isEmpty then messageNamespace else v.namespaceUri
    XmlEvent.StartElementNs ns v.name
  else
    XmlEvent.StartElement v.name

/-- The `xsi:type` text chosen by `writeElementContents` under encoded use (source lines
317-323): the resolved type name when a type is set, else the type inferred from the
runtime kind of a non-null variant. -/
def KDSoapValue.encodedType (namespacePrefixes : KDSoapNamespacePrefixes) (v : KDSoapValue) :
    String :=
  let type := if !v.type.isEmpty then namespacePrefixes.resolve v.typeNs v.type else ""
  if type.isEmpty && !v.value.isNull then variantToXMLType v.value else type

/-- What `writeElementContents` writes before it calls `writeChildren` (source lines
307-335): the local namespace declarations, `xsi:nil`, and under encoded use `xsi:type`
and `soap-enc:arrayType`. -/
def KDSoapValue.writeOwnAttributes (namespacePrefixes : KDSoapNamespacePrefixes) (use : Use)
    (v : KDSoapValue) : List XmlEvent :=
  v.namespaceDeclarations.map (fun decl => XmlEvent.Namespace decl.namespaceUri decl.pfx)
  ++ (if v.isNil && v.nillable then
        [XmlEvent.AttributeNs xmlSchemaInstance2001 "nil" "true"]
      else [])
  ++ (if use = Use.EncodedUse then
        let type := v.encodedType namespacePrefixes
        (if !type.isEmpty then [XmlEvent.AttributeNs xmlSchemaInstance2001 "type" type]
         else [])
        ++
        (let list := v.childValues
         let isArray := !list.arrayType.isEmpty
         if isArray then
           [XmlEvent.AttributeNs soapEncoding "arrayType"
             (namespacePrefixes.resolve list.arrayTypeNs list.arrayType ++ "["
               ++ numberU list.count ++ "]")]
         else [])
      else [])

/-- What `writeElementContents` writes after `writeChildren` (source lines 338-343): the
text of a non-null variant, unless that text is empty. -/
def KDSoapValue.writeText (v : KDSoapValue) : List XmlEvent :=
  let value := v.value
  if !value.isNull then
    let txt := variantToTextValue value v.typeNs v.type
    if !txt.isEmpty then [XmlEvent.Characters txt] else []
  else []

mutual
/-- `KDSoapValue::writeElement`.  The `Q_ASSERT` on the name is a no-op in release builds
and writes nothing; its condition is `nameAssertion`. -/
def KDSoapValue.writeElement (namespacePrefixes : KDSoapNamespacePrefixes) (use : Use)
    (messageNamespace : String) (forceQualified : Bool) (v : KDSoapValue) : List XmlEvent :=
  [v.startElement messageNamespace forceQualified]
  ++ KDSoapValue.writeElementContents namespacePrefixes use messageNamespace v
  ++ [XmlEvent.EndElement]
termination_by (sizeOf v, 2)
decreasing_by all_goals (apply Prod.Lex.right; decide)
/-- `KDSoapValue::writeElementContents`. -/
def KDSoapValue.writeElementContents (namespacePrefixes : KDSoapNamespacePrefixes) (use : Use)
    (messageNamespace : String) (v : KDSoapValue) : List XmlEvent :=
  v.writeOwnAttributes namespacePrefixes use
  ++ KDSoapValue.writeChildren namespacePrefixes use messageNamespace false v
  ++ v.writeText
termination_by (sizeOf v, 1)
decreasing_by all_goals (apply Prod.Lex.right; decide)
/-- `KDSoapValue::writeChildren`: the attributes, then the child elements. -/
def KDSoapValue.writeChildren (namespacePrefixes : KDSoapNamespacePrefixes) (use : Use)
    (messageNamespace : String) (forceQualified : Bool) (v : KDSoapValue) : List XmlEvent :=
  let args := v.childValues
  writeAttributes forceQualified args.attributes
  ++ writeElements namespacePrefixes use messageNamespace forceQualified args.items
termination_by (sizeOf v, 0)
decreasing_by
  apply Prod.Lex.left
  cases v with
  | mk n ns val tns t c q nl e l =>
    cases c with
    | mk i a r => simp [KDSoapValue.childValues, KDSoapValueList.items]; omega
/-- The element loop of `writeChildren`: `writeElement` on each child, in list order. -/
def writeElements (namespacePrefixes : KDSoapNamespacePrefixes) (use : Use)
    (messageNamespace : String) (forceQualified : Bool) (l : List KDSoapValue) :
    List XmlEvent :=
  match l with
  | [] => []
  | element :: rest =>
    KDSoapValue.writeElement namespacePrefixes use messageNamespace forceQualified element
    ++ writeElements namespacePrefixes use messageNamespace forceQualified rest
termination_by (sizeOf l, 0)
decreasing_by
  · apply Prod.Lex.left; simp; omega
  · apply Prod.Lex.left; simp
end

/-- `KDSoapValue::toXml`: the document start, the standard namespaces, the element
(written with `forceQualified = false`) and the document end. -/
def KDSoapValue.toXml (namespacePrefixes : KDSoapNamespacePrefixes) (use : Use)
    (messageNamespace : String) (v : KDSoapValue) : List XmlEvent :=
  [XmlEvent.StartDocument]
  ++ namespacePrefixes.standardNamespaces.map (fun d => XmlEvent.Namespace d.1 d.2)
  ++ v.writeElement namespacePrefixes use messageNamespace false
  ++ [XmlEvent.EndDocument]


/-! ## Reading the written events -/

/-- Whether an event belongs inside a start tag: a namespace declaration or an attribute. -/
def XmlEvent.isAttribute : XmlEvent → Bool
  | .Namespace _ _ => true
  | .AttributeNs _ _ _ => true
  | .Attribute _ _ => true
  | _ => false

/-- The attributes an element carries, given the events written after its start tag: the
leading run of namespace declarations and attributes, up to the first child element, text
or end tag. -/
def elementAttributes (contents : List XmlEvent) : List XmlEvent :=
  contents.takeWhile XmlEvent.isAttribute

mutual
/-- The element nodes of a value tree: the value itself, then the elements of its child
list, depth first (attributes are not elements). -/
def KDSoapValue.elements : KDSoapValue → List KDSoapValue
  | .mk n ns val tns t c q nl e l => KDSoapValue.mk n ns val tns t c q nl e l :: c.elements
/-- The element nodes below a child list. -/
def KDSoapValueList.elements : KDSoapValueList → List KDSoapValue
  | .mk items _ _ => elementsOf items
/-- The element nodes of a list of values. -/
def elementsOf : List KDSoapValue → List KDSoapValue
  | [] => []
  | x :: xs => x.elements ++ elementsOf xs
end

/-- Name prefixes used in the examples: `xsd` for XML Schema, the prefix `n1` for anything
else. -/
def examplePrefixes : KDSoapNamespacePrefixes where
  standardNamespaces := [(xmlSchema2001, "xsd"), (xmlSchemaInstance2001, "xsi"),
    (soapEncoding, "soap-enc")]
  resolve := fun ns localName =>
    (if ns = xmlSchema2001 then "xsd:" else "n1:") ++ localName

/-- An attribute entry: a value with a name, a namespace, a text and the qualified flag. -/
def exampleAttribute (ns name text : String) (qualified : Bool) : KDSoapValue :=
  .mk name ns (.qstring text) "" "" KDSoapValueList.empty qualified false [] []

/-- An element `<a>1</a>` holding the integer 1, with the given attribute list. -/
def exampleElement (attributes : List KDSoapValue) : KDSoapValue :=
  .mk "a" "" (.int 1) "" "" (.mk [] attributes ("", "")) false false [] []

/-- A parent element with one attribute and one child element `<a>1</a>`. -/
def exampleParent (attr : KDSoapValue) : KDSoapValue :=
  .mk "list" "" .invalid xmlSchema2001 "anyType" (.mk [exampleElement []] [attr] ("", ""))
    false false [] []

/-! ## Decoding binary text -/

/-- `QString::toLatin1`: one byte per character, `?` for a character outside Latin-1. -/
def toLatin1 (s : String) : Bytes :=
  s.data.map (fun c => if h : c.toNat < 256 then (⟨c.toNat, h⟩ : Fin 256) else ⟨63, by decide⟩)

/-- `QString::toUtf8`: the UTF-8 bytes of the characters. -/
def toUtf8 (s : String) : Bytes :=
  s.data.flatMap (fun c => (String.utf8EncodeChar c).map (fun u => Fin.ofNat u.toNat))

/-- Value of a hexadecimal digit byte, either case (`QtMiscUtils::fromHex`); `none` for
any other byte. -/
def hexValue (ch : Nat) : Option Nat :=
  if 48 ≤ ch ∧ ch ≤ 57 then some (ch - 48)
  else if 65 ≤ ch ∧ ch ≤ 70 then some (ch - 55)
  else if 97 ≤ ch ∧ ch ≤ 102 then some (ch - 87)
  else none

/-- The loop of `QByteArray::fromHex` on the digit values read from the last to the first:
a low digit, then the high digit of the same byte; the bytes come out last first. -/
def fromHexLoop : List Nat → Bytes
  | [] => []
  | [lo] => [Fin.ofNat lo]
  | lo :: hi :: rest => Fin.ofNat (hi * 16 + lo) :: fromHexLoop rest

/-- `QByteArray::fromHex`: bytes that are no hexadecimal digit are skipped, the digits
are paired from the end of the input. -/
def fromHex (hexEncoded : Bytes) : Bytes :=
  (fromHexLoop ((hexEncoded.filterMap (fun ch => hexValue ch.val)).reverse)).reverse

/-- Value of a Base64 alphabet byte; `none` for any other byte (padding included). -/
def base64Value (ch : Nat) : Option Nat :=
  if 65 ≤ ch ∧ ch ≤ 90 then some (ch - 65)
  else if 97 ≤ ch ∧ ch ≤ 122 then some (ch - 97 + 26)
  else if 48 ≤ ch ∧ ch ≤ 57 then some (ch - 48 + 52)
  else if ch = 43 then some 62
  else if ch = 47 then some 63
  else none

/-- The loop of `QByteArray::fromBase64`: `buf` accumulates 6 bits per alphabet byte
(a 32-bit unsigned register), and a byte is output whenever 8 bits are available. -/
def fromBase64Loop : List Nat → Nat → Nat → Bytes
  | [], _, _ => []
  | ch :: rest, buf, nbits =>
    match base64Value ch with
    | none => fromBase64Loop rest buf nbits
    | some d =>
      let buf := (buf * 64 + d) % 4294967296
      let nbits := nbits + 6
      if 8 ≤ nbits then
        Fin.ofNat (buf / 2 ^ (nbits - 8)) ::
          fromBase64Loop rest (buf % 2 ^ (nbits - 8)) (nbits - 8)
      else fromBase64Loop rest buf nbits

/-- `QByteArray::fromBase64`. -/
def fromBase64 (base64 : Bytes) : Bytes :=
  fromBase64Loop (base64.map (fun ch => ch.val)) 0 0

/-- Whether a character is a lowercase hexadecimal digit. -/
def isLowerHexDigit (c : Char) : Bool :=
  decide ((48 ≤ c.toNat ∧ c.toNat ≤ 57) ∨ (97 ≤ c.toNat ∧ c.toNat ≤ 102))

/-- The bytes of an ASCII text, as `QByteArray("...")` holds them. -/
def asciiBytes (s : String) : Bytes := toLatin1 s

/-! ## Splitting and looking up values -/

/-- The loop of `QString::split(sep, Qt::SkipEmptyParts)`, generalised to a separator
predicate: `cur` holds the characters of the current part, last first; a part is closed at
each separator and at the end of the text, and an empty part is skipped. -/
def splitLoop (isSep : Char → Bool) : List Char → List Char → List String
  | [], cur => if cur.isEmpty then [] else [String.mk cur.reverse]
  | c :: cs, cur =>
    if isSep c then
      if cur.isEmpty then splitLoop isSep cs []
      else String.mk cur.reverse :: splitLoop isSep cs []
    else splitLoop isSep cs (c :: cur)

/-- `QString::split(sep, Qt::SkipEmptyParts)` for a one-character separator. -/
def splitSkipEmpty (sep : Char) (s : String) : List String :=
  splitLoop (fun c => c == sep) s.data []

/-- The tokens of a whitespace-separated list, as the specification words it: maximal runs
of characters other than space, tab, carriage return and line feed. -/
def whitespaceTokens (s : String) : List String :=
  splitLoop Char.isWhitespace s.data []

/-- `KDSoapValue::setValue`. -/
def KDSoapValue.setValue (v : KDSoapValue) (value : QVariant) : KDSoapValue :=
  match v with
  | .mk n ns _ tns t c q nl e l => .mk n ns value tns t c q nl e l

/-- `KDSoapValue::setNamespaceUri`. -/
def KDSoapValue.setNamespaceUri (v : KDSoapValue) (ns : String) : KDSoapValue :=
  match v with
  | .mk n _ val tns t c q nl e l => .mk n ns val tns t c q nl e l

/-- `QList::append` (`operator<<`) on the child elements of a value list. -/
def KDSoapValueList.append (l : KDSoapValueList) (v : KDSoapValue) : KDSoapValueList :=
  match l with
  | .mk items attrs arr => .mk (items ++ [v]) attrs arr

/-- `KDSoapValue::split`: one copy of the value per space-separated part of its text,
with the part as its value. -/
def KDSoapValue.split (v : KDSoapValue) : KDSoapValueList :=
  let list := splitSkipEmpty ' ' v.value.toString
  list.foldl (fun valueList part => valueList.append (v.setValue (.qstring part)))
    KDSoapValueList.empty

/-- The loop of `KDSoapValueList::child`: the first value with the given name, or a
default-constructed value. -/
def childLoop (name : String) : List KDSoapValue → KDSoapValue
  | [] => KDSoapValue.default
  | val :: rest => if val.name = name then val else childLoop name rest

/-- `KDSoapValueList::child`. -/
def KDSoapValueList.child (l : KDSoapValueList) (name : String) : KDSoapValue :=
  childLoop name l.items

/-- `KDSoapValueList::addArgument`. -/
def KDSoapValueList.addArgument (l : KDSoapValueList) (argumentName : String)
    (argumentValue : QVariant) (typeNameSpace typeName : String) : KDSoapValueList :=
  l.append (KDSoapValue.ofVariant argumentName argumentValue typeNameSpace typeName)

/-- A list value for the examples: name `numbers`, typed, holding the given text. -/
def exampleList (text : String) : KDSoapValue :=
  KDSoapValue.ofVariant "numbers" (.qstring text) xmlSchema2001 "NMTOKENS"

/-! ## The server object of the test suite

`CountryServerObject` (`unittests/serverlib/test_serverlib.cpp`) with the parts of the
classes it derives from or uses that are declared outside the two source files. -/

/-- Modelled from the spec: `KDSoapAuthentication`, the credentials of a request: a user
name and a password. -/
structure KDSoapAuthentication where
  user : String
  password : String
deriving DecidableEq, Repr

/-- Modelled from the spec: `KDSoapMessage`, a value whose children are the method
arguments and whose name is the method name, with a fault flag. -/
structure KDSoapMessage where
  value : KDSoapValue
  m_isFault : Bool

namespace KDSoapMessage

/-- The default-constructed message. -/
def default : KDSoapMessage := ⟨KDSoapValue.default, false⟩

/-- `KDSoapValue::name()` on a message. -/
def name (msg : KDSoapMessage) : String := msg.value.name

/-- `KDSoapValue::childValues()` on a message. -/
def childValues (msg : KDSoapMessage) : KDSoapValueList := msg.value.childValues

/-- `KDSoapMessage::isFault()`. -/
def isFault (msg : KDSoapMessage) : Bool := msg.m_isFault

/-- `KDSoapMessage::setFault(bool)`. -/
def setFault (msg : KDSoapMessage) (fault : Bool) : KDSoapMessage :=
  { msg with m_isFault := fault }

/-- `KDSoapValue::setValue` on a message. -/
def setValue (msg : KDSoapMessage) (value : QVariant) : KDSoapMessage :=
  { msg with value := msg.value.setValue value }

/-- `childValues().append(value)` on a message. -/
def appendChild (msg : KDSoapMessage) (child : KDSoapValue) : KDSoapMessage :=
  match msg.value with
  | .mk n ns v tns t c q nl e l =>
    { msg with value := .mk n ns v tns t (c.append child) q nl e l }

/-- Modelled from the spec: `KDSoapMessage::addArgument(name, value)`, which appends one
argument to the children of the message (`KDSoapValueList::addArgument` with no type). -/
def addArgument (msg : KDSoapMessage) (argumentName : String) (argumentValue : QVariant) :
    KDSoapMessage :=
  match msg.value with
  | .mk n ns v tns t c q nl e l =>
    { msg with value := .mk n ns v tns t (c.addArgument argumentName argumentValue "" "") q nl e l }

end KDSoapMessage

/-- Modelled from the spec: `KDSoapHeaders::header(name)`, the first header message with
the given name, or a default-constructed message. -/
def headerLoop (name : String) : List KDSoapMessage → KDSoapMessage
  | [] => KDSoapMessage.default
  | header :: rest => if header.name = name then header else headerLoop name rest

/-- Modelled from the spec: the fault of a request context, as `setFault(faultCode,
faultString, faultActor, detail)` records it. -/
structure Fault where
  faultCode : String
  faultString : String
  faultActor : String
  detail : String
deriving DecidableEq, Repr

/-- The state of a `CountryServerObject`: its own members, and the per-request context
kept by `KDSoapServerObjectInterface`. -/
structure CountryServerObject where
  m_requireAuth : Bool
  m_useRawXML : Bool
  m_rawXMLValid : Bool
  m_assembledXML : Bytes
  /-- Modelled from the spec: the fault of the request context, if one was set. -/
  m_fault : Option Fault
  /-- Modelled from the spec: the response namespace override. -/
  m_responseNamespace : String
  /-- Modelled from the spec: the SOAP action of the request, `soapAction()`. -/
  m_soapAction : String
  /-- Modelled from the spec: the SOAP headers of the request, `requestHeaders()`. -/
  m_requestHeaders : List KDSoapMessage
  /-- Modelled from the spec: the SOAP headers of the response. -/
  m_responseHeaders : List KDSoapMessage

/-- The constant `myWsdlNamespace`. -/
def myWsdlNamespace : String := "http://www.kdab.com/xml/MyWsdl/"

namespace CountryServerObject

/-- `CountryServerObject(auth, rawXML)`, with an empty request context. -/
def new (auth rawXML : Bool) : CountryServerObject :=
  { m_requireAuth := auth, m_useRawXML := rawXML, m_rawXMLValid := false,
    m_assembledXML := [], m_fault := none, m_responseNamespace := "",
    m_soapAction := "", m_requestHeaders := [], m_responseHeaders := [] }

/-- Modelled from the spec: `KDSoapServerObjectInterface::setFault`. -/
def setFault (self : CountryServerObject) (faultCode faultString faultActor detail : String) :
    CountryServerObject :=
  { self with m_fault := some ⟨faultCode, faultString, faultActor, detail⟩ }

/-- Modelled from the spec: `KDSoapServerObjectInterface::hasFault`. -/
def hasFault (self : CountryServerObject) : Bool := self.m_fault.isSome

/-- Modelled from the spec: `KDSoapServerObjectInterface::setResponseNamespace`. -/
def setResponseNamespace (self : CountryServerObject) (ns : String) : CountryServerObject :=
  { self with m_responseNamespace := ns }

/-- Modelled from the spec: `KDSoapServerObjectInterface::setResponseHeaders`. -/
def setResponseHeaders (self : CountryServerObject) (headers : List KDSoapMessage) :
    CountryServerObject :=
  { self with m_responseHeaders := headers }

/-- Modelled from the spec: `KDSoapServerObjectInterface::processRequest`, the fallback
for a method the object does not know: the fault `Server.MethodNotFound` with the string
`<method> not found`. -/
def processRequestDefault (self : CountryServerObject) (request : KDSoapMessage) :
    CountryServerObject :=
  self.setFault "Server.MethodNotFound" (request.name ++ " not found") "" ""

/-- `CountryServerObject::validateAuthentication`. -/
def validateAuthentication (self : CountryServerObject) (auth : KDSoapAuthentication)
    (path : String) : Bool :=
  if !self.m_requireAuth then true
  else if (path = "/" ∨ path = "/path/to/file_download.txt") ∧ auth.user = "kdab" then
    decide (auth.password = "pass42")
  else false

/-- `CountryServerObject::getEmployeeCountry` (the 100 ms sleep for the name `Slow` has no
effect on the result). -/
def getEmployeeCountry (self : CountryServerObject) (employeeName : String) :
    CountryServerObject × String :=
  if employeeName.isEmpty then
    (self.setFault "Client.Data" "Empty employee name" "CountryServerObject"
      "Employee name must not be empty", "")
  else
    (self, employeeName ++ " France")

/-- `CountryServerObject::getStuff`.  The returned double is carried as its text, given by
`stuffText` from the three arguments (floating-point arithmetic is not modelled); with a
SOAP action other than `MySoapAction` the result is `0`. -/
def getStuff (stuffText : QVariant → QVariant → QVariant → String) (self : CountryServerObject)
    (foo bar dateTime : QVariant) : CountryServerObject × QVariant :=
  if self.m_soapAction ≠ "MySoapAction" then (self, .double "0")
  else
    let header1 := (headerLoop "header1" self.m_requestHeaders).value.value.toString
    let self :=
      if header1 = "headerValue" then
        let header2Value :=
          (KDSoapValue.ofVariant "header2" (.qstring "responseHeader") "" "").setNamespaceUri
            "http://foo"
        let header2 := KDSoapMessage.default.appendChild header2Value
        self.setResponseHeaders [header2]
      else self
    (self, .double (stuffText foo bar dateTime))

/-- `QVariant::toByteArray`: the bytes of a byte array, the UTF-8 bytes of any text. -/
def variantToByteArray (v : QVariant) : Bytes :=
  match v with
  | .qbytearray b => b
  | _ => toUtf8 v.toString

/-- `CountryServerObject::hexBinaryTest`. -/
def hexBinaryTest (self : CountryServerObject) (input1 input2 : Bytes) : Bytes :=
  if self.m_soapAction ≠ "ActionHex" then [] else input1 ++ input2

/-- `CountryServerObject::processRequest`: the new state of the server object and the
response. -/
def processRequest (stuffText : QVariant → QVariant → QVariant → String)
    (self : CountryServerObject) (request response : KDSoapMessage) (soapAction : String) :
    CountryServerObject × KDSoapMessage :=
  let self := self.setResponseNamespace myWsdlNamespace
  let method := toLatin1 request.name
  if method = asciiBytes "getEmployeeCountry" then
    if soapAction ≠ "http://www.kdab.com/xml/MyWsdl/getEmployeeCountry" then
      (self.setFault "Server.UnknownSoapAction" "Unknown soap action" ""
        (String.mk (soapAction.data.takeWhile (fun c => c ≠ Char.ofNat 0))), response)
    else
      let employeeName := (request.childValues.child "employeeName").value.toString
      let (self, ret) := self.getEmployeeCountry employeeName
      if !self.hasFault then
        (self, (response.setValue (.qstring "getEmployeeCountryResponse")).addArgument
          "employeeCountry" (.qstring ret))
      else (self, response)
  else if method = asciiBytes "getStuff" then
    let values := request.childValues
    let valueFoo := values.child "foo"
    let valueBar := values.child "bar"
    let valueDateTime := values.child "dateTime"
    if valueFoo.isNull || valueBar.isNull || valueDateTime.isNull then
      let response := response.setFault true
      let response := response.addArgument "faultcode" (.qstring "Server.RequiredArgumentMissing")
      let argNames : List String := []
      let argNames := if valueFoo.isNull then argNames ++ ["foo"] else argNames
      let argNames := if valueBar.isNull then argNames ++ ["bar"] else argNames
      let argNames := if valueDateTime.isNull then argNames ++ ["dateTime"] else argNames
      (self, response.addArgument "faultstring" (.qstring (String.intercalate "," argNames)))
    else
      let (self, ret) := self.getStuff stuffText valueFoo.value valueBar.value valueDateTime.value
      if !self.hasFault then (self, response.setValue ret) else (self, response)
  else if method = asciiBytes "hexBinaryTest" then
    let values := request.childValues
    let input1 := fromBase64 (variantToByteArray (values.child "a").value)
    let input2 := fromHex (variantToByteArray (values.child "b").value)
    let hex := self.hexBinaryTest input1 input2
    if !self.hasFault then (self, response.setValue (.qbytearray hex)) else (self, response)
  else
    (self.processRequestDefault request, response)

end CountryServerObject

/-- A request message for the examples: a method name and its arguments. -/
def exampleRequest (method : String) (arguments : List KDSoapValue) : KDSoapMessage :=
  ⟨.mk method "" .invalid "" "" (.mk arguments [] ("", "")) false false [] [], false⟩

/-- Whether an argument is absent from a list of children: no element has the name. -/
def isAbsent (l : KDSoapValueList) (name : String) : Bool :=
  l.items.all (fun y => y.name != name)

/-! ## The raw-XML handler of the test suite -/

/-- `KDSoapClientInterface::SoapVersion`. -/
inductive SoapVersion
  | SOAP1_1
  | SOAP1_2
deriving DecidableEq, Repr

/-- The constant `s_longEmployeeName`. -/
def s_longEmployeeName : Bytes :=
  asciiBytes "This is a long string in order to test chunking in this test"

/-- `rawCountryMessage(employeeName, soapVersion)`: the request envelope. -/
def rawCountryMessage (employeeName : Bytes) (soapVersion : SoapVersion) : Bytes :=
  match soapVersion with
  | .SOAP1_1 =>
    asciiBytes ("<?xml version=\"1.0\" encoding=\"UTF-8\"?><soap:Envelope xmlns:soap=\"http://schemas.xmlsoap.org/soap/envelope/\" "
      ++ "xmlns:soap-enc=\"http://schemas.xmlsoap.org/soap/encoding/\" xmlns:xsd=\"http://www.w3.org/2001/XMLSchema\" "
      ++ "xmlns:xsi=\"http://www.w3.org/2001/XMLSchema-instance\"><soap:Body><n1:getEmployeeCountry "
      ++ "xmlns:n1=\"http://www.kdab.com/xml/MyWsdl/\"><employeeName>")
    ++ employeeName
    ++ asciiBytes "</employeeName></n1:getEmployeeCountry></soap:Body></soap:Envelope>"
  | .SOAP1_2 =>
    asciiBytes ("<?xml version=\"1.0\" encoding=\"UTF-8\"?><soap:Envelope xmlns:soap=\"http://www.w3.org/2003/05/soap-envelope\" "
      ++ "xmlns:soap-enc=\"http://www.w3.org/2003/05/soap-encoding\" xmlns:xsd=\"http://www.w3.org/2001/XMLSchema\" "
      ++ "xmlns:xsi=\"http://www.w3.org/2001/XMLSchema-instance\"><soap:Body><n1:getEmployeeCountry "
      ++ "xmlns:n1=\"http://www.kdab.com/xml/MyWsdl/\"><employeeName>")
    ++ employeeName
    ++ asciiBytes "</employeeName></n1:getEmployeeCountry></soap:Body></soap:Envelope>"

/-- `expectedCountryResponse(employeeName, soapVersion)`: the response envelope. -/
def expectedCountryResponse (employeeName : Bytes) (soapVersion : SoapVersion) : Bytes :=
  match soapVersion with
  | .SOAP1_1 =>
    asciiBytes ("<?xml version=\"1.0\" encoding=\"UTF-8\"?><soap:Envelope xmlns:soap=\"http://schemas.xmlsoap.org/soap/envelope/\" "
      ++ "xmlns:xsd=\"http://www.w3.org/2001/XMLSchema\" xmlns:xsi=\"http://www.w3.org/2001/XMLSchema-instance\" "
      ++ "xmlns:soap-enc=\"http://schemas.xmlsoap.org/soap/encoding/\"><soap:Body><n1:getEmployeeCountry "
      ++ "xmlns:n1=\"http://www.kdab.com/xml/MyWsdl/\"><employeeCountry>")
    ++ employeeName
    ++ asciiBytes " France</employeeCountry>getEmployeeCountryResponse</n1:getEmployeeCountry></soap:Body></soap:Envelope>\n"
  | .SOAP1_2 =>
    asciiBytes ("<?xml version=\"1.0\" encoding=\"UTF-8\"?><soap:Envelope xmlns:soap=\"http://www.w3.org/2003/05/soap-envelope\" "
      ++ "xmlns:soap-enc=\"http://www.w3.org/2003/05/soap-encoding\" xmlns:xsd=\"http://www.w3.org/2001/XMLSchema\" "
      ++ "xmlns:xsi=\"http://www.w3.org/2001/XMLSchema-instance\"><soap:Body><n1:getEmployeeCountry "
      ++ "xmlns:n1=\"http://www.kdab.com/xml/MyWsdl/\"><employeeCountry>")
    ++ employeeName
    ++ asciiBytes " France</employeeCountry>getEmployeeCountryResponse</n1:getEmployeeCountry></soap:Body></soap:Envelope>\n"

/-- Modelled from the spec: the full response a raw-XML handler supplies at the end of a
request, through `writeXML(reply)` or `writeHTTP(reply)`. -/
inductive RawReply
  | writeXML (reply : Bytes)
  | writeHTTP (reply : Bytes)
deriving DecidableEq, Repr

/-- `QMap::contains` on the HTTP headers, held as `(name, value)` pairs. -/
def headersContain (httpHeaders : List (String × String)) (key : String) : Bool :=
  httpHeaders.any (fun h => h.1 == key)

namespace CountryServerObject

/-- `CountryServerObject::newRequest`: the new state and whether the request is accepted. -/
def newRequest (self : CountryServerObject) (requestType : String)
    (httpHeaders : List (String × String)) : CountryServerObject × Bool :=
  if self.m_useRawXML && requestType == "POST" then
    if !headersContain httpHeaders "content-type" || !headersContain httpHeaders "soapaction" then
      ({ self with m_rawXMLValid := false }, true)
    else
      ({ self with m_rawXMLValid := true }, true)
  else (self, false)

/-- The condition of the `Q_ASSERT` in `processXML`. -/
def processXMLAssertion (self : CountryServerObject) : Bool := self.m_useRawXML

/-- `CountryServerObject::processXML` (the `Q_ASSERT` is a no-op in release builds). -/
def processXML (self : CountryServerObject) (xmlChunk : Bytes) : CountryServerObject :=
  let self := if !self.m_useRawXML then { self with m_rawXMLValid := false } else self
  { self with m_assembledXML := self.m_assembledXML ++ xmlChunk }

/-- `CountryServerObject::endRequest`: the new state and the response written. -/
def endRequest (self : CountryServerObject) : CountryServerObject × RawReply :=
  let self :=
    if self.m_assembledXML ≠ rawCountryMessage s_longEmployeeName SoapVersion.SOAP1_1 then
      { self with m_rawXMLValid := false }
    else self
  let reply :=
    if self.m_rawXMLValid then
      RawReply.writeXML (expectedCountryResponse s_longEmployeeName SoapVersion.SOAP1_1)
    else
      RawReply.writeHTTP (asciiBytes "HTTP/1.1 400 Bad Request\r\nContent-Length: 0\r\n\r\n")
  ({ self with m_assembledXML := [] }, reply)

end CountryServerObject

/-- The response value of the `getEmployeeCountry` call of the test suite: the method
element in the service namespace, holding the text `getEmployeeCountryResponse` and the
child `employeeCountry`. -/
def exampleResponse : KDSoapValue :=
  .mk "getEmployeeCountry" myWsdlNamespace (.qstring "getEmployeeCountryResponse") "" ""
    (.mk [KDSoapValue.ofVariant "employeeCountry" (.qstring "David Ä Faure France") "" ""] []
      ("", ""))
    false false [] []

/-! ## Nesting of the written events -/

/-- Whether an event opens an element. -/
def XmlEvent.isStart : XmlEvent → Bool
  | .StartElementNs _ _ => true
  | .StartElement _ => true
  | _ => false

/-- Whether an event closes an element. -/
def XmlEvent.isEnd : XmlEvent → Bool
  | .EndElement => true
  | _ => false

/-- Whether an event is a text node. -/
def XmlEvent.isCharacters : XmlEvent → Bool
  | .Characters _ => true
  | _ => false

/-- Scan of an event sequence at nesting depth `d`: every end tag closes an open element
and no element is left open at the end. -/
def balancedFrom : Nat → List XmlEvent → Bool
  | d, [] => d == 0
  | d, e :: es =>
    if e.isStart then balancedFrom (d + 1) es
    else if e.isEnd then
      match d with
      | 0 => false
      | d' + 1 => balancedFrom d' es
    else balancedFrom d es

/-- A balanced event sequence: start and end tags match like brackets. -/
def balanced (events : List XmlEvent) : Bool := balancedFrom 0 events

/-- The events of a sequence that lie at nesting depth 0 when the scan starts at depth
`d`, start and end tags left out: what lies inside a child element is skipped. -/
def ownEventsFrom : Nat → List XmlEvent → List XmlEvent
  | _, [] => []
  | d, e :: es =>
    if e.isStart then ownEventsFrom (d + 1) es
    else if e.isEnd then ownEventsFrom (d - 1) es
    else if d = 0 then e :: ownEventsFrom d es
    else ownEventsFrom d es

/-- The events written for an element itself, given the events written after its start
tag: attributes and text nodes outside every child element. -/
def ownEvents (contents : List XmlEvent) : List XmlEvent := ownEventsFrom 0 contents

mutual
/-- Whether every `Q_ASSERT(!name().isEmpty())` met while `writeElement` writes the value
holds: the one on the value, then, through `writeElementContents` and `writeChildren`, the
ones on its child elements (attributes are not written by `writeElement`). -/
def KDSoapValue.writeElementAsserts : KDSoapValue → Bool
  | .mk n _ _ _ _ c _ _ _ _ => !n.isEmpty && c.writeChildrenAsserts
/-- The assertions met in the element loop of `writeChildren`. -/
def KDSoapValueList.writeChildrenAsserts : KDSoapValueList → Bool
  | .mk items _ _ => writeElementsAssert items
/-- The assertions met on a list of child elements. -/
def writeElementsAssert : List KDSoapValue → Bool
  | [] => true
  | x :: xs => x.writeElementAsserts && writeElementsAssert xs
end

/-- `KDSoapValue::setQualified`. -/
def KDSoapValue.setQualified (v : KDSoapValue) (qualified : Bool) : KDSoapValue :=
  match v with
  | .mk n ns val tns t c _ nl e l => .mk n ns val tns t c qualified nl e l

/-- The number of maximal runs of characters that are no separator; `inRun` tells whether
the character before the list belongs to a run. -/
def countRunsFrom (isSep : Char → Bool) : Bool → List Char → Nat
  | _, [] => 0
  | inRun, c :: cs =>
    if isSep c then countRunsFrom isSep false cs
    else (if inRun then 0 else 1) + countRunsFrom isSep true cs

/-- The number of maximal runs of non-space characters of a text. -/
def countRuns (s : String) : Nat := countRunsFrom (fun c => c == ' ') false s.data

/-- Whether a number lies in the value space of an xsd integer type: 32-bit signed for
`xsd:int`, 32-bit unsigned for `xsd:unsignedInt`. -/
def inValueSpace (xsdType : String) (n : Int) : Bool :=
  if xsdType = "xsd:int" then decide (-2147483648 ≤ n ∧ n ≤ 2147483647)
  else if xsdType = "xsd:unsignedInt" then decide (0 ≤ n ∧ n ≤ 4294967295)
  else false

/-- The assertions met during `toXml`: those of its one `writeElement` call, on the value
itself. -/
def KDSoapValue.toXmlAsserts (v : KDSoapValue) : Bool := v.writeElementAsserts

/-! ## The chunked request of the test suite -/

/-- `QByteArray::mid(pos, len)`: at most `len` bytes from position `pos` on. -/
def mid (b : Bytes) (pos len : Nat) : Bytes := (b.drop pos).take len

/-- `QByteArray::number(n, 16)`: the lower-case hexadecimal digits of `n`, most
significant first; `0` gives `0`. -/
def numberHex (n : Nat) : Bytes :=
  asciiBytes (String.mk (if n = 0 then ['0'] else (Nat.digits 16 n).reverse.map digitChar))

/-- The line end `"\r\n"`. -/
def crlf : Bytes := asciiBytes "\r\n"

/-- The largest value of an `int`. -/
def intMax : Nat := 2147483647

/-- The inner loop of `testChunkedTransferEncoding`:
`for (int i = 0; i < messagePart.size(); i += fragmentSize) socket.write(messagePart.mid(i, fragmentSize))`.
The result lists the writes in order; there is no result when the fuel runs out or when
`i += fragmentSize` leaves the range of `int`. -/
def fragmentLoop (messagePart : Bytes) (fragmentSize : Nat) : Nat → Nat → Option (List Bytes)
  | 0, _ => none
  | fuel + 1, i =>
    if i < messagePart.length then
      if i + fragmentSize ≤ intMax then
        (fragmentLoop messagePart fragmentSize fuel (i + fragmentSize)).map
          (fun rest => mid messagePart i fragmentSize :: rest)
      else none
    else some []

/-- The chunking loop of `testChunkedTransferEncoding`:
`for (int pos = 0; pos < message.size(); pos += chunkSize)`, each round framing
`message.mid(pos, chunkSize)` and writing the frame in fragments of `chunkSize / 5` bytes.
`innerFuel` is the fuel given to each run of the inner loop; there is no result when a
fuel runs out or when `pos += chunkSize` leaves the range of `int`. -/
def chunkLoop (message : Bytes) (chunkSize innerFuel : Nat) : Nat → Nat → Option (List Bytes)
  | 0, _ => none
  | fuel + 1, pos =>
    if pos < message.length then
      let thisChunk := mid message pos chunkSize
      let messagePart := numberHex thisChunk.length ++ crlf ++ thisChunk ++ crlf
      let fragmentSize := chunkSize / 5
      match fragmentLoop messagePart fragmentSize innerFuel 0 with
      | none => none
      | some fragments =>
        if pos + chunkSize ≤ intMax then
          (chunkLoop message chunkSize innerFuel fuel (pos + chunkSize)).map
            (fun rest => fragments ++ rest)
        else none
    else some []

/-- The trailer fields the test sends after the last chunk: `Ignore: me` or none. -/
def testTrailers (withTrailers : Bool) : Bytes :=
  if withTrailers then asciiBytes "Ignore: me\r\n" else []

/-- The writes of `testChunkedTransferEncoding` to the socket after the headers: those of
the chunking loop, then the final chunk with or without trailers. -/
def testChunkedTransferEncoding (fuel : Nat) (message : Bytes) (chunkSize : Nat)
    (withTrailers : Bool) : Option (List Bytes) :=
  (chunkLoop message chunkSize fuel fuel 0).map (fun writes =>
    writes ++ [if withTrailers then asciiBytes "0\r\nIgnore: me\r\n\r\n"
               else asciiBytes "0\r\n\r\n"])

/-- Reads a non-empty run of hexadecimal digits, most significant first. -/
def readHex (b : Bytes) : Option Nat :=
  if b = [] then none
  else b.foldl (fun acc x => acc.bind (fun a => (hexValue x.val).map (fun d => 16 * a + d)))
    (some 0)

/-- The HTTP chunked encoding of a list of chunks, as the specification words it: for
each chunk its size in hexadecimal, CRLF, the data, CRLF; then the terminal zero-size
chunk, followed by the trailer fields and the closing CRLF. -/
def chunkedEncoding (chunks : List Bytes) (trailers : Bytes) : Bytes :=
  chunks.flatMap (fun c => numberHex c.length ++ crlf ++ c ++ crlf)
  ++ (asciiBytes "0" ++ crlf ++ trailers ++ crlf)

/-! ## Names of attributes and namespaces of start tags -/

/-- Whether a qualified name is a prefix, a colon and the local name `localName`. -/
def hasLocalName (qualifiedName localName : String) : Bool :=
  (':' :: localName.data).isSuffixOf qualifiedName.data

/-- Whether an event is an attribute that reads as `localName` in the namespace `ns`:
written with that namespace and local name, or written under a name made of a prefix, a
colon and that local name (whatever the prefix is bound to). -/
def XmlEvent.isAttributeNamed (ns localName : String) : XmlEvent → Bool
  | .AttributeNs n l _ => (n == ns && l == localName) || hasLocalName l localName
  | .Attribute q _ => hasLocalName q localName
  | _ => false

/-- Whether an entry of an attribute list is named `localName` in the namespace `ns`: a
qualified entry with that namespace and name, or an entry whose name is a prefix, a colon
and that local name. -/
def KDSoapValue.isAttributeNamed (ns localName : String) (a : KDSoapValue) : Bool :=
  (a.isQualified && a.namespaceUri == ns && a.name == localName)
    || hasLocalName a.name localName

/-- Whether a start tag puts the element in a namespace: `writeStartElement(namespaceUri,
name)` with a non-empty namespace, for which `QXmlStreamWriter` writes the prefix bound to
the namespace; with an empty namespace, as with `writeStartElement(name)`, the element is
written by its name only. -/
def XmlEvent.isNamespacedStart : XmlEvent → Bool
  | .StartElementNs ns _ => !ns.isEmpty
  | _ => false

/-! ## Unfolding lemmas for the writer -/

theorem writeElement_eq (np : KDSoapNamespacePrefixes) (use : Use) (m : String) (fq : Bool)
    (v : KDSoapValue) :
    v.writeElement np use m fq =
      [v.startElement m fq] ++ v.writeElementContents np use m ++ [XmlEvent.EndElement] := by
  rw [KDSoapValue.writeElement]

theorem writeElementContents_eq (np : KDSoapNamespacePrefixes) (use : Use) (m : String)
    (v : KDSoapValue) :
    v.writeElementContents np use m =
      v.writeOwnAttributes np use ++ v.writeChildren np use m false ++ v.writeText := by
  rw [KDSoapValue.writeElementContents]

theorem writeChildren_eq (np : KDSoapNamespacePrefixes) (use : Use) (m : String) (fq : Bool)
    (v : KDSoapValue) :
    v.writeChildren np use m fq =
      writeAttributes fq v.childValues.attributes
      ++ writeElements np use m fq v.childValues.items := by
  rw [KDSoapValue.writeChildren]

theorem writeElements_nil (np : KDSoapNamespacePrefixes) (use : Use) (m : String) (fq : Bool) :
    writeElements np use m fq [] = [] := by
  rw [writeElements]

theorem writeElements_cons (np : KDSoapNamespacePrefixes) (use : Use) (m : String) (fq : Bool)
    (x : KDSoapValue) (xs : List KDSoapValue) :
    writeElements np use m fq (x :: xs) =
      x.writeElement np use m fq ++ writeElements np use m fq xs := by
  rw [writeElements]

theorem writeElements_eq_flatMap (np : KDSoapNamespacePrefixes) (use : Use) (m : String)
    (fq : Bool) (l : List KDSoapValue) :
    writeElements np use m fq l = l.flatMap (fun x => x.writeElement np use m fq) := by
  induction l with
  | nil => simp [writeElements_nil]
  | cons x xs ih => simp [writeElements_cons, ih]

/-! ## The attributes an element carries -/

theorem takeWhile_append_stop {α : Type} (p : α → Bool) (A B : List α)
    (hA : ∀ a ∈ A, p a = true) (hB : ∀ b, B.head? = some b → p b = false) :
    (A ++ B).takeWhile p = A := by
  induction A with
  | nil =>
    cases B with
    | nil => rfl
    | cons b bs => simp [List.takeWhile, hB b rfl]
  | cons a as ih =>
    have ha : p a = true := hA a (List.mem_cons_self _ _)
    rw [List.cons_append, List.takeWhile_cons, ha, if_pos rfl,
      ih (fun x hx => hA x (List.mem_cons_of_mem _ hx))]

theorem isAttribute_of_mem_writeOwnAttributes (np : KDSoapNamespacePrefixes) (use : Use)
    (v : KDSoapValue) (e : XmlEvent) (he : e ∈ v.writeOwnAttributes np use) :
    e.isAttribute = true := by
  simp only [KDSoapValue.writeOwnAttributes, List.mem_append, List.mem_map] at he
  rcases he with (⟨d, _, rfl⟩ | he) | he
  · rfl
  · split at he
    · simp only [List.mem_singleton] at he; subst he; rfl
    · simp at he
  · split at he
    · simp only [List.mem_append] at he
      rcases he with he | he
      · split at he
        · simp only [List.mem_singleton] at he; subst he; rfl
        · simp at he
      · split at he
        · simp only [List.mem_singleton] at he; subst he; rfl
        · simp at he
    · simp at he

theorem isAttribute_of_mem_writeAttributes (fq : Bool) (l : List KDSoapValue) (e : XmlEvent)
    (he : e ∈ writeAttributes fq l) : e.isAttribute = true := by
  simp only [writeAttributes, List.mem_map] at he
  obtain ⟨a, _, rfl⟩ := he
  split <;> rfl

theorem startElement_not_isAttribute (m : String) (fq : Bool) (v : KDSoapValue) :
    (v.startElement m fq).isAttribute = false := by
  unfold KDSoapValue.startElement
  simp only
  split <;> split <;> rfl

theorem head_children_text (np : KDSoapNamespacePrefixes) (use : Use) (m : String)
    (fq : Bool) (v : KDSoapValue) (b : XmlEvent)
    (hb : (writeElements np use m fq v.childValues.items ++ v.writeText).head? = some b) :
    b.isAttribute = false := by
  cases hi : v.childValues.items with
  | nil =>
    rw [hi, writeElements_nil, List.nil_append] at hb
    unfold KDSoapValue.writeText at hb
    simp only at hb
    split at hb
    · split at hb
      · simp only [List.head?_cons, Option.some.injEq] at hb; subst hb; rfl
      · simp at hb
    · simp at hb
  | cons x xs =>
    rw [hi, writeElements_cons, writeElement_eq] at hb
    simp only [List.singleton_append, List.cons_append, List.head?_cons,
      Option.some.injEq] at hb
    subst hb
    exact startElement_not_isAttribute m fq x

theorem elementAttributes_writeElementContents (np : KDSoapNamespacePrefixes) (use : Use)
    (m : String) (v : KDSoapValue) :
    elementAttributes (v.writeElementContents np use m) =
      v.writeOwnAttributes np use ++ writeAttributes false v.childValues.attributes := by
  rw [writeElementContents_eq, writeChildren_eq]
  unfold elementAttributes
  have h : v.writeOwnAttributes np use
        ++ (writeAttributes false v.childValues.attributes
          ++ writeElements np use m false v.childValues.items) ++ v.writeText
      = (v.writeOwnAttributes np use ++ writeAttributes false v.childValues.attributes)
        ++ (writeElements np use m false v.childValues.items ++ v.writeText) := by
    simp only [List.append_assoc]
  rw [h]
  apply takeWhile_append_stop
  · intro a ha
    rcases List.mem_append.mp ha with ha | ha
    · exact isAttribute_of_mem_writeOwnAttributes np use v a ha
    · exact isAttribute_of_mem_writeAttributes false _ a ha
  · intro b hb
    exact head_children_text np use m false v b hb

theorem mem_writeAttributes_iff (l : List KDSoapValue) (ns n t : String) :
    XmlEvent.AttributeNs ns n t ∈ writeAttributes false l ↔
      ∃ a ∈ l, a.isQualified = true ∧ a.namespaceUri = ns ∧ a.name = n ∧
        variantToTextValue a.value a.typeNs a.type = t := by
  simp only [writeAttributes, List.mem_map, Bool.or_false]
  constructor
  · rintro ⟨a, ha, he⟩
    refine ⟨a, ha, ?_⟩
    split at he
    · rename_i hq
      simp only [XmlEvent.AttributeNs.injEq] at he
      exact ⟨hq, he.1, he.2.1, he.2.2⟩
    · simp at he
  · rintro ⟨a, ha, hq, rfl, rfl, rfl⟩
    exact ⟨a, ha, by simp [hq]⟩

theorem mem_writeOwnAttributes_iff (np : KDSoapNamespacePrefixes) (use : Use)
    (v : KDSoapValue) (ns n t : String) :
    XmlEvent.AttributeNs ns n t ∈ v.writeOwnAttributes np use ↔
      (ns = xmlSchemaInstance2001 ∧ n = "nil" ∧ t = "true" ∧
        v.isNil = true ∧ v.nillable = true) ∨
      (use = Use.EncodedUse ∧ (v.encodedType np).isEmpty = false ∧
        ns = xmlSchemaInstance2001 ∧ n = "type" ∧ t = v.encodedType np) ∨
      (use = Use.EncodedUse ∧ v.childValues.arrayType.isEmpty = false ∧
        ns = soapEncoding ∧ n = "arrayType" ∧
        t = np.resolve v.childValues.arrayTypeNs v.childValues.arrayType ++ "["
          ++ numberU v.childValues.count ++ "]") := by
  unfold KDSoapValue.writeOwnAttributes
  by_cases h1 : (v.isNil && v.nillable) = true <;> by_cases h2 : use = Use.EncodedUse <;>
    by_cases h3 : (v.encodedType np).isEmpty = true <;>
    by_cases h4 : v.childValues.arrayType.isEmpty = true <;>
    simp [h1, h2, h3, h4] <;> simp_all

theorem isEmpty_eq_decide (s : String) : s.isEmpty = decide (s = "") := by
  by_cases h : s = ""
  · subst h; decide
  · cases hb : s.isEmpty with
    | false => simp [h]
    | true => exact absurd ((String.isEmpty_iff s).mp hb) h

theorem isNil_iff_aux (v : KDSoapValue) :
    v.isNil = true ↔
      v.value.isNull = true ∧ v.childValues.items = [] ∧ v.childValues.attributes = [] := by
  simp [KDSoapValue.isNil, KDSoapValueList.isEmpty, List.isEmpty_iff, and_assoc]

/-! ## Induction over the value tree -/

theorem sizeOf_lt_of_mem_items (v c : KDSoapValue) (hc : c ∈ v.childValues.items) :
    sizeOf c < sizeOf v := by
  have h1 := List.sizeOf_lt_of_mem hc
  have h2 : sizeOf v.childValues.items < sizeOf v := by
    cases v with
    | mk n ns val tns t c q nl e l =>
      cases c with
      | mk i a r => simp [KDSoapValue.childValues, KDSoapValueList.items]; omega
  omega

theorem KDSoapValue.induct (P : KDSoapValue → Prop)
    (h : ∀ v, (∀ c ∈ v.childValues.items, P c) → P v) : ∀ v, P v := by
  have key : ∀ (n : Nat) (v : KDSoapValue), sizeOf v = n → P v := by
    intro n
    induction n using Nat.strong_induction_on with
    | _ n ih =>
      intro v hn
      apply h
      intro c hc
      exact ih (sizeOf c) (by subst hn; exact sizeOf_lt_of_mem_items v c hc) c rfl
  exact fun v => key (sizeOf v) v rfl

theorem elements_eq (v : KDSoapValue) : v.elements = v :: elementsOf v.childValues.items := by
  cases v with
  | mk n ns val tns t c q nl e l =>
    cases c with
    | mk i a r => simp [KDSoapValue.elements, KDSoapValueList.elements,
        KDSoapValue.childValues, KDSoapValueList.items]

theorem mem_elementsOf (l : List KDSoapValue) (w : KDSoapValue) :
    w ∈ elementsOf l ↔ ∃ c ∈ l, w ∈ c.elements := by
  induction l with
  | nil => simp [elementsOf]
  | cons x xs ih => simp [elementsOf, ih]

theorem infix_flatMap_of_mem {α β : Type} (f : α → List β) (l : List α) (c : α)
    (hc : c ∈ l) : f c <:+: l.flatMap f := by
  obtain ⟨s, t, rfl⟩ := List.append_of_mem hc
  refine ⟨s.flatMap f, t.flatMap f, ?_⟩
  simp [List.flatMap_append, List.flatMap_cons]

theorem writeElement_infix_of_mem_elements (np : KDSoapNamespacePrefixes) (use : Use)
    (m : String) (v : KDSoapValue) :
    ∀ (fq : Bool) (w : KDSoapValue), w ∈ v.elements →
      ∃ fq', w.writeElement np use m fq' <:+: v.writeElement np use m fq := by
  induction v using KDSoapValue.induct with
  | h v ih =>
    intro fq w hw
    rw [elements_eq, List.mem_cons] at hw
    rcases hw with rfl | hw
    · exact ⟨fq, List.infix_refl _⟩
    · obtain ⟨c, hc, hwc⟩ := (mem_elementsOf _ w).mp hw
      obtain ⟨fq', hin⟩ := ih c hc false w hwc
      refine ⟨fq', hin.trans ?_⟩
      have h1 : c.writeElement np use m false <:+:
          writeElements np use m false v.childValues.items := by
        rw [writeElements_eq_flatMap]
        exact infix_flatMap_of_mem _ _ c hc
      obtain ⟨s, t, hst⟩ := h1
      rw [writeElement_eq np use m fq v, writeElementContents_eq, writeChildren_eq, ← hst]
      refine ⟨[v.startElement m fq] ++ v.writeOwnAttributes np use
        ++ writeAttributes false v.childValues.attributes ++ s,
        t ++ v.writeText ++ [XmlEvent.EndElement], ?_⟩
      simp only [List.append_assoc]

/-! ## Decimal text -/

theorem charDigit_digitChar (d : Nat) (h : d < 10) : charDigit (digitChar d) = some d := by
  interval_cases d <;> decide

theorem isDecimalDigit_digitChar (d : Nat) (h : d < 10) : isDecimalDigit (digitChar d) = true := by
  interval_cases d <;> decide

theorem digitChar_eq_zero (d : Nat) (h : d < 10) (h0 : digitChar d = '0') : d = 0 := by
  interval_cases d <;> first | rfl | (exact absurd h0 (by decide))

theorem digitChar_ne_minus (d : Nat) (h : d < 10) : digitChar d ≠ '-' := by
  interval_cases d <;> decide

theorem parse_fold (ds : List Nat) (h : ∀ d ∈ ds, d < 10) :
    (ds.reverse.map digitChar).foldl
      (fun acc c => acc.bind (fun a => (charDigit c).map (fun d => 10 * a + d))) (some 0)
      = some (Nat.ofDigits 10 ds) := by
  induction ds with
  | nil => simp
  | cons d ds ih =>
    have hd : d < 10 := h d (List.mem_cons_self _ _)
    have ht : ∀ x ∈ ds, x < 10 := fun x hx => h x (List.mem_cons_of_mem _ hx)
    simp only [List.reverse_cons, List.map_append, List.foldl_append, ih ht, List.map_cons,
      List.map_nil, List.foldl_cons, List.foldl_nil, Option.some_bind, charDigit_digitChar d hd,
      Option.map_some', Nat.ofDigits_cons]
    congr 1
    ring

theorem natDigits_ne_nil (n : Nat) : natDigits n ≠ [] := by
  unfold natDigits
  split
  · simp
  · rename_i h
    simp [Nat.digits_ne_nil_iff_ne_zero, h]

theorem parseNat_natDigits (n : Nat) : parseNat (natDigits n) = some n := by
  unfold parseNat
  rw [if_neg (natDigits_ne_nil n)]
  unfold natDigits
  split
  · rename_i h; subst h; decide
  · rw [parse_fold _ (fun d hd => Nat.digits_lt_base (by norm_num) hd), Nat.ofDigits_digits]

theorem natDigits_head_ne_minus (n : Nat) : (natDigits n).head? ≠ some '-' := by
  unfold natDigits
  split
  · decide
  · rename_i h
    intro hh
    rw [List.head?_eq_some_iff] at hh
    obtain ⟨tl, htl⟩ := hh
    have : '-' ∈ (Nat.digits 10 n).reverse.map digitChar := by rw [htl]; simp
    simp only [List.mem_map, List.mem_reverse] at this
    obtain ⟨d, hd, he⟩ := this
    exact digitChar_ne_minus d (Nat.digits_lt_base (by norm_num) hd) he

theorem canonicalNat_natDigits (n : Nat) : canonicalNat (natDigits n) = true := by
  unfold canonicalNat
  have hne := natDigits_ne_nil n
  simp only [Bool.and_eq_true, Bool.not_eq_true', List.isEmpty_eq_false_iff_exists_mem,
    Bool.or_eq_true, List.all_eq_true]
  refine ⟨⟨?_, ?_⟩, ?_⟩
  · cases h : natDigits n with
    | nil => exact absurd h hne
    | cons a l => exact ⟨a, List.mem_cons_self _ _⟩
  · intro c hc
    unfold natDigits at hc
    split at hc
    · simp at hc; subst hc; decide
    · simp only [List.mem_map, List.mem_reverse] at hc
      obtain ⟨d, hd, rfl⟩ := hc
      exact isDecimalDigit_digitChar d (Nat.digits_lt_base (by norm_num) hd)
  · by_cases h0 : n = 0
    · right; subst h0; decide
    · left
      simp only [natDigits, if_neg h0, bne_iff_ne, ne_eq]
      intro hh
      rw [List.head?_eq_some_iff] at hh
      obtain ⟨tl, htl⟩ := hh
      have hrev := congrArg List.reverse htl
      rw [← List.map_reverse, List.reverse_reverse] at hrev
      have hnn : Nat.digits 10 n ≠ [] := by simp [Nat.digits_ne_nil_iff_ne_zero, h0]
      have hlast := Nat.getLast_digit_ne_zero 10 h0
      have hmem : (Nat.digits 10 n).getLast hnn ∈ Nat.digits 10 n := List.getLast_mem _
      have hlt := Nat.digits_lt_base (by norm_num : 1 < 10) hmem
      have : ((Nat.digits 10 n).map digitChar).getLast (by simpa using hnn) = '0' := by
        simp only [hrev]
        simp
      rw [List.getLast_map] at this
      exact hlast (digitChar_eq_zero _ hlt this)

theorem natDigits_eq_zero (n : Nat) (h : natDigits n = ['0']) : n = 0 := by
  have h1 := parseNat_natDigits n
  rw [h] at h1
  have h2 : parseNat ['0'] = some 0 := by decide
  rw [h2] at h1
  exact (Option.some.inj h1).symm

theorem parseDecimal_number (n : Int) : parseDecimal (number n) = some n := by
  unfold number
  split
  · rename_i h
    simp only [parseDecimal, parseNat_natDigits, Option.map_some']
    rw [Int.ofNat_natAbs_of_nonpos (le_of_lt h), neg_neg]
  · rename_i h
    have hne := natDigits_head_ne_minus n.natAbs
    unfold parseDecimal
    split
    · rename_i cs heq
      simp only at heq
      rw [heq] at hne
      exact absurd rfl hne
    · simp only [parseNat_natDigits, Option.map_some']
      rw [Int.natAbs_of_nonneg (not_lt.mp h)]

theorem canonicalDecimal_natDigits (n : Nat) : canonicalDecimal (natDigits n) = true := by
  have hne := natDigits_head_ne_minus n
  unfold canonicalDecimal
  split
  · rename_i ds heq
    rw [heq] at hne
    exact absurd rfl hne
  · exact canonicalNat_natDigits n

theorem canonicalDecimal_number (n : Int) : canonicalDecimal (number n).data = true := by
  unfold number
  split
  · rename_i h
    have h0 : natDigits n.natAbs ≠ ['0'] := fun hh => by
      have := natDigits_eq_zero _ hh
      omega
    simp [canonicalDecimal, canonicalNat_natDigits, h0]
  · exact canonicalDecimal_natDigits _

theorem wrapS64_of_range (n : Int) (h1 : -9223372036854775808 ≤ n)
    (h2 : n ≤ 9223372036854775807) : wrapS64 n = n := by
  unfold wrapS64
  simp only
  split <;> omega

theorem wrapU64_of_range (k : Nat) (h : k ≤ 18446744073709551615) : wrapU64 (k : Int) = k := by
  unfold wrapU64
  omega

/-! ## Claims on the value model -/

/-- C1: a value is nil exactly when its variant is null, its child list has no element
and its child list has no attribute. -/
theorem isNil_iff (v : KDSoapValue) :
    v.isNil = true ↔
      v.value.isNull = true ∧ v.childValues.items = [] ∧ v.childValues.attributes = [] := by
  simp [KDSoapValue.isNil, KDSoapValueList.isEmpty, List.isEmpty_iff, and_assoc]

/-- C2: a value is null exactly when its name is empty and it is nil; the
default-constructed value is null, and no value with a non-empty name is null. -/
theorem isNull_iff (v : KDSoapValue) :
    (v.isNull = true ↔ v.name = "" ∧ v.isNil = true) ∧
      KDSoapValue.default.isNull = true ∧
      ¬ (v.name ≠ "" ∧ v.isNull = true) := by
  have h : v.isNull = true ↔ v.name = "" ∧ v.isNil = true := by
    simp [KDSoapValue.isNull, String.isEmpty_iff]
  refine ⟨h, by decide, ?_⟩
  rintro ⟨h1, h2⟩
  exact h1 (h.mp h2).1

/-! ## Claims on the serialisation of variants -/

/-- C6 (counterexample): a 32-bit unsigned integer is given the type `xsd:int` by
`variantToXMLType`, not `xsd:unsignedInt` as the type table of the specification says. -/
theorem variantToXMLType_uint_counterexample :
    variantToXMLType (.uint 7) = "xsd:int" ∧
      variantToXMLType (.uint 7) ≠ claimedXMLType (.uint 7) := by
  decide

/-- C6 (amended): the type inferred by `variantToXMLType` from the runtime kind is
`xsd:string` for strings, characters and URLs, `xsd:base64Binary` for byte arrays,
`xsd:int` for signed integers (32- or 64-bit) and for 32-bit unsigned integers,
`xsd:unsignedInt` for 64-bit unsigned integers, `xsd:boolean` for booleans, `xsd:float`
and `xsd:double` for float32 and float64, `xsd:time`, `xsd:date` and `xsd:dateTime` for
times, dates and date-times; it agrees with the specified table on every kind but `UInt`. -/
theorem variantToXMLType_table :
    (∀ c, variantToXMLType (.qchar c) = "xsd:string") ∧
    (∀ s, variantToXMLType (.qstring s) = "xsd:string") ∧
    (∀ s, variantToXMLType (.qurl s) = "xsd:string") ∧
    (∀ b, variantToXMLType (.qbytearray b) = "xsd:base64Binary") ∧
    (∀ n, variantToXMLType (.int n) = "xsd:int") ∧
    (∀ n, variantToXMLType (.longlong n) = "xsd:int") ∧
    (∀ n, variantToXMLType (.uint n) = "xsd:int") ∧
    (∀ n, variantToXMLType (.ulonglong n) = "xsd:unsignedInt") ∧
    (∀ b, variantToXMLType (.bool b) = "xsd:boolean") ∧
    (∀ t, variantToXMLType (.float t) = "xsd:float") ∧
    (∀ t, variantToXMLType (.double t) = "xsd:double") ∧
    (∀ h m s ms, variantToXMLType (.qtime h m s ms) = "xsd:time") ∧
    (∀ y m d, variantToXMLType (.qdate y m d) = "xsd:date") ∧
    (∀ t, variantToXMLType (.qdatetime t) = "xsd:dateTime") ∧
    (∀ value, (∀ n, value ≠ .uint n) → variantToXMLType value = claimedXMLType value) := by
  refine ⟨fun _ => rfl, fun _ => rfl, fun _ => rfl, fun _ => rfl, fun _ => rfl, fun _ => rfl,
    fun _ => rfl, fun _ => rfl, fun _ => rfl, fun _ => rfl, fun _ => rfl, fun _ _ _ _ => rfl,
    fun _ _ _ => rfl, fun _ => rfl, ?_⟩
  intro value h
  cases value <;> first | rfl | exact absurd rfl (h _)

/-- C9: for a variant of kind `Int`, `UInt`, `LongLong` or `ULongLong` holding the integer
`n` within the range of its machine type, `variantToTextValue` returns the canonical
decimal text of `n` (a leading `-` for negatives, no leading zero), and reading that text
as a decimal integer gives back `n`. -/
theorem variantToTextValue_integer (value : QVariant) (n : Int) (typeNs type : String)
    (h : holdsInteger value n = true) :
    parseDecimal (variantToTextValue value typeNs type) = some n ∧
      canonicalDecimal (variantToTextValue value typeNs type).data = true := by
  cases value with
  | int k =>
    simp only [holdsInteger, decide_eq_true_eq] at h
    obtain ⟨rfl, h1, h2⟩ := h
    simp only [variantToTextValue, QVariant.toLongLong]
    rw [wrapS64_of_range _ (by omega) (by omega)]
    exact ⟨parseDecimal_number _, canonicalDecimal_number _⟩
  | longlong k =>
    simp only [holdsInteger, decide_eq_true_eq] at h
    obtain ⟨rfl, h1, h2⟩ := h
    simp only [variantToTextValue, QVariant.toLongLong]
    rw [wrapS64_of_range _ h1 h2]
    exact ⟨parseDecimal_number _, canonicalDecimal_number _⟩
  | uint k =>
    simp only [holdsInteger, decide_eq_true_eq] at h
    obtain ⟨rfl, h1⟩ := h
    simp only [variantToTextValue, QVariant.toLongLong]
    rw [wrapS64_of_range _ (by omega) (by omega)]
    exact ⟨parseDecimal_number _, canonicalDecimal_number _⟩
  | ulonglong k =>
    simp only [holdsInteger, decide_eq_true_eq] at h
    obtain ⟨rfl, h1⟩ := h
    simp only [variantToTextValue, QVariant.toULongLong]
    rw [wrapU64_of_range _ h1]
    have hk : ¬ ((k : Int) < 0) := by omega
    have hn : numberU k = number (k : Int) := by
      simp [numberU, number, hk]
    rw [hn]
    exact ⟨parseDecimal_number _, canonicalDecimal_number _⟩
  | _ => simp [holdsInteger] at h

/-- C9 (witness): the 64-bit integer `-42` is written as a canonical decimal text that
reads back as `-42`. -/
theorem variantToTextValue_integer_witness :
    holdsInteger (.longlong (-42)) (-42) = true ∧
      parseDecimal (variantToTextValue (.longlong (-42)) "" "") = some (-42) ∧
      canonicalDecimal (variantToTextValue (.longlong (-42)) "" "").data = true :=
  ⟨by decide, variantToTextValue_integer (.longlong (-42)) (-42) "" "" (by decide)⟩

/-- C10: for every boolean and every type annotation, `variantToTextValue` returns exactly
`true` for true and `false` for false. -/
theorem variantToTextValue_bool (b : Bool) (typeNs type : String) :
    variantToTextValue (.bool b) typeNs type = (if b then "true" else "false") ∧
      variantToTextValue (.bool true) typeNs type = "true" ∧
      variantToTextValue (.bool false) typeNs type = "false" :=
  ⟨rfl, rfl, rfl⟩

/-! ## Claims on the element writer -/

/-- C5 (counterexample): under encoded use, an element with no type set and a null value
(an empty structure) is written without any `xsi:type` attribute. -/
theorem writeElement_encoded_type_counterexample :
    ¬ ∃ t, XmlEvent.AttributeNs xmlSchemaInstance2001 "type" t ∈
      elementAttributes
        ((KDSoapValue.ofChildren "a" KDSoapValueList.empty "" "").writeElementContents
          examplePrefixes Use.EncodedUse "") := by
  rintro ⟨t, ht⟩
  rw [elementAttributes_writeElementContents, List.mem_append, mem_writeOwnAttributes_iff,
    mem_writeAttributes_iff] at ht
  rcases ht with (⟨_, h, _⟩ | ⟨_, h, _⟩ | ⟨_, _, h, _⟩) | ⟨a, ha, _⟩
  · exact absurd h (by decide)
  · exact absurd h (by decide)
  · exact absurd h (by decide)
  · simp [KDSoapValue.ofChildren, KDSoapValue.childValues, KDSoapValueList.attributes,
      KDSoapValueList.empty] at ha

/-- C5 (amended): under encoded use, each element written by `writeElement` (the root and
every descendant element of the tree) whose type name is set and resolves to a non-empty
name, or whose value is non-null of a kind `variantToXMLType` knows, carries an `xsi:type`
attribute with a non-empty value. -/
theorem writeElement_encoded_type (np : KDSoapNamespacePrefixes) (m : String) (fq : Bool)
    (v w : KDSoapValue) (hw : w ∈ v.elements)
    (ht : (w.type ≠ "" ∧ np.resolve w.typeNs w.type ≠ "") ∨
      (w.value.isNull = false ∧ variantToXMLType w.value ≠ "")) :
    ∃ fq' t, t ≠ "" ∧
      w.writeElement np Use.EncodedUse m fq' <:+: v.writeElement np Use.EncodedUse m fq ∧
      XmlEvent.AttributeNs xmlSchemaInstance2001 "type" t ∈
        elementAttributes (w.writeElementContents np Use.EncodedUse m) := by
  obtain ⟨fq', hin⟩ := writeElement_infix_of_mem_elements np Use.EncodedUse m v fq w hw
  have hne : w.encodedType np ≠ "" := by
    unfold KDSoapValue.encodedType
    simp only [isEmpty_eq_decide]
    by_cases h1 : w.type = ""
    · rcases ht with ⟨h, _⟩ | ⟨h2, h3⟩
      · exact absurd h1 h
      · simp [h1, h2, h3]
    · by_cases h4 : np.resolve w.typeNs w.type = ""
      · rcases ht with ⟨_, h⟩ | ⟨h2, h3⟩
        · exact absurd h4 h
        · simp [h1, h4, h2, h3]
      · simp [h1, h4]
  refine ⟨fq', w.encodedType np, hne, hin, ?_⟩
  rw [elementAttributes_writeElementContents, List.mem_append, mem_writeOwnAttributes_iff]
  refine Or.inl (Or.inr (Or.inl ⟨rfl, ?_, rfl, rfl, rfl⟩))
  rw [isEmpty_eq_decide]
  simp [hne]

/-- C5 (witness): in a typed parent with one integer child, the child element is written
inside the parent's output and carries an `xsi:type` attribute. -/
theorem writeElement_encoded_type_witness :
    ∃ fq' t, t ≠ "" ∧
      (exampleElement []).writeElement examplePrefixes Use.EncodedUse "" fq' <:+:
        (exampleParent (exampleAttribute "" "id" "7" false)).writeElement
          examplePrefixes Use.EncodedUse "" false ∧
      XmlEvent.AttributeNs xmlSchemaInstance2001 "type" t ∈
        elementAttributes
          ((exampleElement []).writeElementContents examplePrefixes Use.EncodedUse "") :=
  writeElement_encoded_type examplePrefixes "" false
    (exampleParent (exampleAttribute "" "id" "7" false)) (exampleElement [])
    (by simp [exampleParent, exampleElement, KDSoapValue.elements, KDSoapValueList.elements,
      elementsOf])
    (Or.inr ⟨by decide, by decide⟩)

/-! ## Binary text -/

theorem hexValue_digitChar (d : Nat) (h : d < 16) :
    (digitChar d).toNat < 256 ∧ hexValue (digitChar d).toNat = some d ∧
      isLowerHexDigit (digitChar d) = true := by
  interval_cases d <;> decide

theorem toLatin1_fromLatin1_map (cs : List Char) (h : ∀ c ∈ cs, c.toNat < 256) :
    (toLatin1 (fromLatin1 cs)).map (fun ch => ch.val) = cs.map Char.toNat := by
  unfold toLatin1 fromLatin1
  simp only [List.map_map]
  apply List.map_congr_left
  intro c hc
  simp [h c hc]

theorem fromHexLoop_pairs (l : Bytes) :
    fromHexLoop (l.flatMap (fun x => [x.val % 16, x.val / 16])) = l := by
  induction l with
  | nil => rfl
  | cons x xs ih =>
    simp only [List.flatMap_cons, List.cons_append, List.nil_append, fromHexLoop, ih]
    congr 1
    apply Fin.ext
    simp only [Fin.ofNat]
    have := x.isLt
    omega

theorem toHex_toNat_lt (b : Bytes) : ∀ c ∈ toHex b, c.toNat < 256 := by
  intro c hc
  simp only [toHex, List.mem_flatMap, List.mem_cons, List.mem_singleton, List.not_mem_nil,
    or_false] at hc
  obtain ⟨x, _, rfl | rfl⟩ := hc
  · exact (hexValue_digitChar _ (by have := x.isLt; omega)).1
  · exact (hexValue_digitChar _ (by have := x.isLt; omega)).1

theorem filterMap_hexValue_toHex (b : Bytes) :
    ((toHex b).map Char.toNat).filterMap hexValue
      = b.flatMap (fun x => [x.val / 16, x.val % 16]) := by
  unfold toHex
  induction b with
  | nil => rfl
  | cons x xs ih =>
    have hx := x.isLt
    simp only [List.flatMap_cons, List.cons_append, List.nil_append, List.map_cons,
      List.filterMap_cons, (hexValue_digitChar (x.val / 16) (by omega)).2.1,
      (hexValue_digitChar (x.val % 16) (by omega)).2.1]
    rw [ih]

theorem fromHex_toHex (b : Bytes) : fromHex (toLatin1 (fromLatin1 (toHex b))) = b := by
  have h1 : (toLatin1 (fromLatin1 (toHex b))).filterMap (fun ch => hexValue ch.val)
      = b.flatMap (fun x => [x.val / 16, x.val % 16]) := by
    have h2 : (toLatin1 (fromLatin1 (toHex b))).filterMap (fun ch => hexValue ch.val)
        = ((toLatin1 (fromLatin1 (toHex b))).map (fun ch => ch.val)).filterMap hexValue := by
      rw [List.filterMap_map]; rfl
    rw [h2, toLatin1_fromLatin1_map _ (toHex_toNat_lt b), filterMap_hexValue_toHex]
  unfold fromHex
  rw [h1, List.reverse_flatMap]
  have h3 : (List.reverse ∘ fun (x : Fin 256) => [x.val / 16, x.val % 16])
      = fun (x : Fin 256) => [x.val % 16, x.val / 16] := by
    funext x; rfl
  rw [h3, fromHexLoop_pairs, List.reverse_reverse]

theorem base64Value_base64Char (n : Nat) (h : n < 64) :
    (base64Char n).toNat < 256 ∧ base64Value (base64Char n).toNat = some n := by
  interval_cases n <;> decide

theorem fromBase64Loop_pad (rest : List Nat) (buf nbits : Nat) :
    fromBase64Loop (61 :: rest) buf nbits = fromBase64Loop rest buf nbits := by
  rw [fromBase64Loop]
  rfl

theorem fromBase64Loop_toBase64 (b : Bytes) :
    fromBase64Loop ((toBase64 b).map Char.toNat) 0 0 = b := by
  induction b using toBase64.induct with
  | case1 => rfl
  | case2 a =>
    have ha := a.isLt
    have e1 : '='.toNat = 61 := by decide
    simp only [toBase64, List.map_cons, List.map_nil, fromBase64Loop,
      (base64Value_base64Char (a.val / 4) (by omega)).2,
      (base64Value_base64Char (a.val % 4 * 16) (by omega)).2, e1, fromBase64Loop_pad]
    simp only [Nat.zero_mul, Nat.zero_add, Nat.reduceLeDiff, Nat.reduceAdd, Nat.reduceSub,
      Nat.reducePow, if_false, if_true, Nat.le_refl]
    congr 1
    apply Fin.ext
    simp only [Fin.ofNat]
    omega
  | case3 a b =>
    have ha := a.isLt
    have hb := b.isLt
    have e1 : '='.toNat = 61 := by decide
    simp only [toBase64, List.map_cons, List.map_nil, fromBase64Loop,
      (base64Value_base64Char (a.val / 4) (by omega)).2,
      (base64Value_base64Char (a.val % 4 * 16 + b.val / 16) (by omega)).2,
      (base64Value_base64Char (b.val % 16 * 4) (by omega)).2, e1, fromBase64Loop_pad]
    simp only [Nat.zero_mul, Nat.zero_add, Nat.reduceLeDiff, Nat.reduceAdd, Nat.reduceSub,
      Nat.reducePow, if_false, if_true, Nat.le_refl]
    congr 1
    · apply Fin.ext
      simp only [Fin.ofNat]
      omega
    · congr 1
      apply Fin.ext
      simp only [Fin.ofNat]
      omega
  | case4 a b c rest ih =>
    have ha := a.isLt
    have hb := b.isLt
    have hc := c.isLt
    simp only [toBase64, List.map_cons, fromBase64Loop,
      (base64Value_base64Char (a.val / 4) (by omega)).2,
      (base64Value_base64Char (a.val % 4 * 16 + b.val / 16) (by omega)).2,
      (base64Value_base64Char (b.val % 16 * 4 + c.val / 64) (by omega)).2,
      (base64Value_base64Char (c.val % 64) (by omega)).2]
    simp only [Nat.zero_mul, Nat.zero_add, Nat.reduceLeDiff, Nat.reduceAdd, Nat.reduceSub,
      Nat.reducePow, if_false, if_true, Nat.le_refl]
    rw [Nat.mod_one, ih]
    congr 1
    · apply Fin.ext
      simp only [Fin.ofNat]
      omega
    · congr 1
      · apply Fin.ext
        simp only [Fin.ofNat]
        omega
      · congr 1
        apply Fin.ext
        simp only [Fin.ofNat]
        omega

theorem fromBase64_toBase64 (b : Bytes) :
    fromBase64 (toLatin1 (fromLatin1 (toBase64 b))) = b := by
  have hlt : ∀ c ∈ toBase64 b, c.toNat < 256 := by
    induction b using toBase64.induct with
    | case1 => simp [toBase64]
    | case2 a =>
      have ha := a.isLt
      intro c hc
      simp only [toBase64, List.mem_cons, List.mem_singleton, List.not_mem_nil, or_false] at hc
      rcases hc with rfl | rfl | rfl | rfl
      · exact (base64Value_base64Char _ (by omega)).1
      · exact (base64Value_base64Char _ (by omega)).1
      · decide
      · decide
    | case3 a b =>
      have ha := a.isLt
      have hb := b.isLt
      intro c hc
      simp only [toBase64, List.mem_cons, List.mem_singleton, List.not_mem_nil, or_false] at hc
      rcases hc with rfl | rfl | rfl | rfl
      · exact (base64Value_base64Char _ (by omega)).1
      · exact (base64Value_base64Char _ (by omega)).1
      · exact (base64Value_base64Char _ (by omega)).1
      · decide
    | case4 a b c rest ih =>
      have ha := a.isLt
      have hb := b.isLt
      have hc := c.isLt
      intro x hx
      simp only [toBase64, List.mem_cons] at hx
      rcases hx with rfl | rfl | rfl | rfl | hx
      · exact (base64Value_base64Char _ (by omega)).1
      · exact (base64Value_base64Char _ (by omega)).1
      · exact (base64Value_base64Char _ (by omega)).1
      · exact (base64Value_base64Char _ (by omega)).1
      · exact ih x hx
  unfold fromBase64
  rw [toLatin1_fromLatin1_map _ hlt, fromBase64Loop_toBase64]

theorem toHex_length (b : Bytes) : (toHex b).length = 2 * b.length := by
  unfold toHex
  induction b with
  | nil => rfl
  | cons x xs ih =>
    simp only [List.flatMap_cons, List.length_append, List.length_cons, List.length_nil, ih]
    omega

theorem toHex_isLowerHexDigit (b : Bytes) : ∀ c ∈ toHex b, isLowerHexDigit c = true := by
  intro c hc
  simp only [toHex, List.mem_flatMap, List.mem_cons, List.mem_singleton, List.not_mem_nil,
    or_false] at hc
  obtain ⟨x, _, rfl | rfl⟩ := hc
  · exact (hexValue_digitChar _ (by have := x.isLt; omega)).2.2
  · exact (hexValue_digitChar _ (by have := x.isLt; omega)).2.2

theorem variantToTextValue_qbytearray (b : Bytes) (typeNs type : String) :
    variantToTextValue (.qbytearray b) typeNs type =
      if (typeNs = xmlSchema1999 ∨ typeNs = xmlSchema2001) ∧ type = "hexBinary" then
        fromLatin1 (toHex b)
      else fromLatin1 (toBase64 b) := rfl

/-! ## Claims on binary values -/

/-- C11: for every byte-array value, `variantToTextValue` returns the hexadecimal encoding
of the bytes when the type name is `hexBinary` in the XML Schema 1999 or 2001 namespace,
and the Base64 encoding of the bytes in every other case (any other type name, any other
namespace, or no type). -/
theorem variantToTextValue_binary (b : Bytes) (typeNs type : String) :
    (((typeNs = xmlSchema1999 ∨ typeNs = xmlSchema2001) ∧ type = "hexBinary") →
      variantToTextValue (.qbytearray b) typeNs type = fromLatin1 (toHex b)) ∧
    (¬ ((typeNs = xmlSchema1999 ∨ typeNs = xmlSchema2001) ∧ type = "hexBinary") →
      variantToTextValue (.qbytearray b) typeNs type = fromLatin1 (toBase64 b)) ∧
    variantToTextValue (.qbytearray b) "" "" = fromLatin1 (toBase64 b) ∧
    variantToTextValue (.qbytearray (asciiBytes "Soap")) xmlSchema2001 "hexBinary"
      = "536f6170" ∧
    variantToTextValue (.qbytearray (asciiBytes "KD")) xmlSchema2001 "base64Binary"
      = "S0Q=" := by
  refine ⟨?_, ?_, ?_, by decide, by decide⟩
  · intro h
    rw [variantToTextValue_qbytearray, if_pos h]
  · intro h
    rw [variantToTextValue_qbytearray, if_neg h]
  · rw [variantToTextValue_qbytearray, if_neg (by decide)]

/-- C12: hex round trip.  For every byte array `b`, the text that `variantToTextValue`
produces for `b` typed as xsd `hexBinary` decodes back to `b` with `fromHex`, has exactly
`2 * length b` characters, and all of them are lowercase hexadecimal digits; the bytes of
`Soap` give `536f6170`. -/
theorem hexBinary_round_trip (b : Bytes) :
    fromHex (toLatin1 (variantToTextValue (.qbytearray b) xmlSchema2001 "hexBinary")) = b ∧
    fromHex (toLatin1 (variantToTextValue (.qbytearray b) xmlSchema1999 "hexBinary")) = b ∧
    (variantToTextValue (.qbytearray b) xmlSchema2001 "hexBinary").data.length
      = 2 * b.length ∧
    (variantToTextValue (.qbytearray b) xmlSchema2001 "hexBinary").data.all isLowerHexDigit
      = true ∧
    variantToTextValue (.qbytearray (asciiBytes "Soap")) xmlSchema2001 "hexBinary"
      = "536f6170" := by
  have e1 : variantToTextValue (.qbytearray b) xmlSchema2001 "hexBinary"
      = fromLatin1 (toHex b) := by
    rw [variantToTextValue_qbytearray, if_pos (by decide)]
  have e2 : variantToTextValue (.qbytearray b) xmlSchema1999 "hexBinary"
      = fromLatin1 (toHex b) := by
    rw [variantToTextValue_qbytearray, if_pos (by decide)]
  rw [e1, e2]
  refine ⟨fromHex_toHex b, fromHex_toHex b, toHex_length b, ?_, by decide⟩
  rw [List.all_eq_true]
  exact toHex_isLowerHexDigit b

/-- C13: Base64 round trip.  For every byte array `b`, the text that `variantToTextValue`
produces for `b` typed as xsd `base64Binary`, or with no type, decodes back to `b` with
`fromBase64`; the bytes of `KD` give `S0Q=` and those of `KDSoap` give `S0RTb2Fw`. -/
theorem base64Binary_round_trip (b : Bytes) :
    fromBase64 (toLatin1 (variantToTextValue (.qbytearray b) xmlSchema2001 "base64Binary"))
      = b ∧
    fromBase64 (toLatin1 (variantToTextValue (.qbytearray b) "" "")) = b ∧
    variantToTextValue (.qbytearray (asciiBytes "KD")) xmlSchema2001 "base64Binary"
      = "S0Q=" ∧
    variantToTextValue (.qbytearray (asciiBytes "KDSoap")) "" "" = "S0RTb2Fw" := by
  have e1 : variantToTextValue (.qbytearray b) xmlSchema2001 "base64Binary"
      = fromLatin1 (toBase64 b) := by
    rw [variantToTextValue_qbytearray, if_neg (by decide)]
  have e2 : variantToTextValue (.qbytearray b) "" "" = fromLatin1 (toBase64 b) := by
    rw [variantToTextValue_qbytearray, if_neg (by decide)]
  rw [e1, e2]
  exact ⟨fromBase64_toBase64 b, fromBase64_toBase64 b, by decide, by decide⟩

/-! ## Splitting and looking up values -/

theorem splitLoop_congr (p q : Char → Bool) (cs : List Char)
    (h : ∀ c ∈ cs, p c = q c) : ∀ cur, splitLoop p cs cur = splitLoop q cs cur := by
  induction cs with
  | nil => intro cur; rfl
  | cons c cs ih =>
    intro cur
    have hc : p c = q c := h c (List.mem_cons_self _ _)
    have ih' := ih (fun x hx => h x (List.mem_cons_of_mem _ hx))
    simp only [splitLoop, hc, ih']

theorem items_foldl_append (f : String → KDSoapValue) (parts : List String) :
    ∀ l : KDSoapValueList,
      (parts.foldl (fun valueList part => valueList.append (f part)) l).items
        = l.items ++ parts.map f := by
  induction parts with
  | nil => intro l; simp
  | cons p ps ih =>
    intro l
    rw [List.foldl_cons, ih]
    cases l with
    | mk i a r => simp [KDSoapValueList.append, KDSoapValueList.items]

theorem split_items (v : KDSoapValue) :
    v.split.items = (splitSkipEmpty ' ' v.value.toString).map
      (fun part => v.setValue (.qstring part)) := by
  unfold KDSoapValue.split
  simp only
  rw [items_foldl_append]
  rfl

theorem setValue_fields (v : KDSoapValue) (value : QVariant) :
    (v.setValue value).value = value ∧ (v.setValue value).name = v.name ∧
      (v.setValue value).typeNs = v.typeNs ∧ (v.setValue value).type = v.type := by
  cases v
  exact ⟨rfl, rfl, rfl, rfl⟩

theorem childLoop_eq_find (name : String) (l : List KDSoapValue) :
    childLoop name l = (l.find? (fun val => decide (val.name = name))).getD
      KDSoapValue.default := by
  induction l with
  | nil => rfl
  | cons x xs ih =>
    by_cases h : x.name = name
    · simp [childLoop, h]
    · simp [childLoop, h, ih]

theorem childLoop_of_not_mem (name : String) (l : List KDSoapValue)
    (h : ∀ y ∈ l, y.name ≠ name) : childLoop name l = KDSoapValue.default := by
  induction l with
  | nil => rfl
  | cons x xs ih =>
    have hx : x.name ≠ name := h x (List.mem_cons_self _ _)
    simp only [childLoop, if_neg hx]
    exact ih (fun y hy => h y (List.mem_cons_of_mem _ hy))

theorem childLoop_first (name : String) (pre post : List KDSoapValue) (x : KDSoapValue)
    (hx : x.name = name) (hpre : ∀ y ∈ pre, y.name ≠ name) :
    childLoop name (pre ++ x :: post) = x := by
  induction pre with
  | nil => simp [childLoop, hx]
  | cons p ps ih =>
    have hp : p.name ≠ name := hpre p (List.mem_cons_self _ _)
    simp only [List.cons_append, childLoop, if_neg hp]
    exact ih (fun y hy => hpre y (List.mem_cons_of_mem _ hy))

theorem childLoop_name (name : String) (l : List KDSoapValue)
    (h : ∃ y ∈ l, y.name = name) : (childLoop name l).name = name ∧ childLoop name l ∈ l := by
  induction l with
  | nil => simp at h
  | cons x xs ih =>
    by_cases hx : x.name = name
    · simp [childLoop, hx]
    · simp only [childLoop, if_neg hx]
      obtain ⟨y, hy, hn⟩ := h
      rcases List.mem_cons.mp hy with rfl | hy'
      · exact absurd hn hx
      · have := ih ⟨y, hy', hn⟩
        exact ⟨this.1, List.mem_cons_of_mem _ this.2⟩

theorem isNull_childLoop_iff (items : List KDSoapValue) (name : String) (hname : name ≠ "") :
    (childLoop name items).isNull = true ↔ ∀ y ∈ items, y.name ≠ name := by
  constructor
  · intro hnull
    by_contra hex
    push_neg at hex
    have hn := (childLoop_name name items hex).1
    have h1 : (childLoop name items).name = "" := by
      have := hnull
      simp only [KDSoapValue.isNull, Bool.and_eq_true] at this
      exact (String.isEmpty_iff _).mp this.1
    rw [hn] at h1
    exact hname h1
  · intro h
    rw [childLoop_of_not_mem name items h]
    decide

/-- C14 (counterexample): a value whose text holds the two tokens `a` and `b` separated
by a tab is returned by `split` as a single value with the whole text. -/
theorem split_whitespace_counterexample :
    whitespaceTokens "a\tb" = ["a", "b"] ∧
    (exampleList "a\tb").split.items.map KDSoapValue.value = [QVariant.qstring "a\tb"] := by
  refine ⟨by decide, ?_⟩
  rw [split_items]
  decide

/-- C14 (amended): for every value whose text is a list of tokens separated by space
characters only (the text holds no tab, carriage return or line feed), `split` returns
exactly one value per token, in the order of the tokens, and the text of the i-th returned
value is the i-th token. -/
theorem split_tokens (v : KDSoapValue)
    (h : ∀ c ∈ v.value.toString.data, c.isWhitespace = true → c = ' ') :
    v.split.items.length = (whitespaceTokens v.value.toString).length ∧
    v.split.items.map KDSoapValue.value
      = (whitespaceTokens v.value.toString).map QVariant.qstring ∧
    v.split.items.map (fun x => variantToTextValue x.value x.typeNs x.type)
      = whitespaceTokens v.value.toString := by
  have hw : whitespaceTokens v.value.toString = splitSkipEmpty ' ' v.value.toString := by
    unfold whitespaceTokens splitSkipEmpty
    apply splitLoop_congr
    intro c hc
    by_cases hs : c = ' '
    · subst hs; decide
    · have h1 : c.isWhitespace = false := by
        cases hb : c.isWhitespace with
        | false => rfl
        | true => exact absurd (h c hc hb) hs
      simp [h1, hs]
  rw [hw, split_items]
  refine ⟨by simp, ?_, ?_⟩
  · rw [List.map_map]
    apply List.map_congr_left
    intro part _
    exact (setValue_fields v _).1
  · rw [List.map_map]
    conv_rhs => rw [← List.map_id (splitSkipEmpty ' ' v.value.toString)]
    apply List.map_congr_left
    intro part _
    simp only [Function.comp, (setValue_fields v _).1, id]
    rfl

/-- C14 (witness): the text `1  2 3` (two spaces after the first token) is split into the
three values `1`, `2`, `3`. -/
theorem split_tokens_witness :
    (exampleList "1  2 3").split.items.length = (whitespaceTokens "1  2 3").length ∧
    (exampleList "1  2 3").split.items.map KDSoapValue.value
      = (whitespaceTokens "1  2 3").map QVariant.qstring ∧
    (exampleList "1  2 3").split.items.map (fun x => variantToTextValue x.value x.typeNs x.type)
      = whitespaceTokens "1  2 3" :=
  split_tokens (exampleList "1  2 3") (by decide)

/-- C15: every value returned by `split` has the parent's type namespace, type name and
name. -/
theorem split_inherits (v x : KDSoapValue) (hx : x ∈ v.split.items) :
    x.typeNs = v.typeNs ∧ x.type = v.type ∧ x.name = v.name := by
  rw [split_items, List.mem_map] at hx
  obtain ⟨part, _, rfl⟩ := hx
  have := setValue_fields v (.qstring part)
  exact ⟨this.2.2.1, this.2.2.2, this.2.1⟩

/-- C15 (witness): the value `2` split off the list `1 2` keeps the name `numbers` and
the type of the list. -/
theorem split_inherits_witness :
    ((exampleList "1 2").setValue (.qstring "2")).typeNs = (exampleList "1 2").typeNs ∧
    ((exampleList "1 2").setValue (.qstring "2")).type = (exampleList "1 2").type ∧
    ((exampleList "1 2").setValue (.qstring "2")).name = (exampleList "1 2").name :=
  split_inherits (exampleList "1 2") ((exampleList "1 2").setValue (.qstring "2"))
    (by rw [split_items]; exact List.mem_map.mpr ⟨"2", by decide, rfl⟩)

/-- C16: for every value list and every name, `child` returns the first element of the
list, in list order, whose name equals the name, and a default-constructed value when no
element has that name.  `child` is a const member: it returns a value only and cannot
change the list. -/
theorem child_first (l : KDSoapValueList) (name : String) :
    l.child name = (l.items.find? (fun val => decide (val.name = name))).getD
      KDSoapValue.default ∧
    (∀ pre x post, l.items = pre ++ x :: post → x.name = name →
      (∀ y ∈ pre, y.name ≠ name) → l.child name = x) ∧
    ((∀ y ∈ l.items, y.name ≠ name) → l.child name = KDSoapValue.default) := by
  refine ⟨childLoop_eq_find name l.items, ?_, childLoop_of_not_mem name l.items⟩
  intro pre x post hl hx hpre
  unfold KDSoapValueList.child
  rw [hl]
  exact childLoop_first name pre post x hx hpre

/-- C17: for every value list and every non-empty name, `child(name).isNull()` is true
iff the list holds no element with that name; an element that is present is not reported
as null even when it is nil. -/
theorem child_isNull_iff (l : KDSoapValueList) (name : String) (hname : name ≠ "") :
    (l.child name).isNull = true ↔ ∀ y ∈ l.items, y.name ≠ name :=
  isNull_childLoop_iff l.items name hname

/-- C17 (witness): in a list holding only a nil element `foo`, `child("foo")` is not null
and `child("bar")` is null. -/
theorem child_isNull_iff_witness :
    (((KDSoapValueList.mk [KDSoapValue.ofVariant "foo" .invalid "" ""] [] ("", "")).child
        "bar").isNull = true ↔
      ∀ y ∈ (KDSoapValueList.mk [KDSoapValue.ofVariant "foo" .invalid "" ""] [] ("", "")).items,
        y.name ≠ "bar") ∧
    ((KDSoapValueList.mk [KDSoapValue.ofVariant "foo" .invalid "" ""] [] ("", "")).child
        "foo").isNull = false ∧
    (KDSoapValue.ofVariant "foo" .invalid "" "").isNil = true :=
  ⟨child_isNull_iff _ "bar" (by decide), by decide, by decide⟩

/-! ## The server object -/

theorem addArgument_items (msg : KDSoapMessage) (n : String) (v : QVariant) :
    (msg.addArgument n v).childValues.items
      = msg.childValues.items ++ [KDSoapValue.ofVariant n v "" ""] ∧
    (msg.addArgument n v).isFault = msg.isFault ∧
    (msg.addArgument n v).value.value = msg.value.value := by
  obtain ⟨val, f⟩ := msg
  cases val with
  | mk nm ns vv tns t c q nl e l =>
    cases c with
    | mk i a r =>
      simp [KDSoapMessage.addArgument, KDSoapMessage.childValues, KDSoapMessage.isFault,
        KDSoapValue.childValues, KDSoapValueList.items, KDSoapValueList.addArgument,
        KDSoapValueList.append, KDSoapValue.value]

theorem setFault_fields (msg : KDSoapMessage) (b : Bool) :
    (msg.setFault b).childValues = msg.childValues ∧ (msg.setFault b).isFault = b :=
  ⟨rfl, rfl⟩

theorem setValue_message_fields (msg : KDSoapMessage) (v : QVariant) :
    (msg.setValue v).childValues = msg.childValues ∧ (msg.setValue v).isFault = msg.isFault ∧
      (msg.setValue v).value.value = v := by
  obtain ⟨val, f⟩ := msg
  cases val
  exact ⟨rfl, rfl, rfl⟩

theorem method_getStuff (request : KDSoapMessage) (hm : request.name = "getStuff") :
    toLatin1 request.name = asciiBytes "getStuff" ∧
      asciiBytes "getStuff" ≠ asciiBytes "getEmployeeCountry" := by
  rw [hm]
  exact ⟨rfl, by decide⟩

theorem getStuff_hasFault (stuffText : QVariant → QVariant → QVariant → String)
    (self : CountryServerObject) (foo bar dateTime : QVariant) :
    (self.getStuff stuffText foo bar dateTime).1.hasFault = self.hasFault := by
  unfold CountryServerObject.getStuff
  simp only
  split
  · rfl
  · split <;> rfl

theorem isNull_child_eq (l : KDSoapValueList) (name : String) (hname : name ≠ "") :
    (l.child name).isNull = isAbsent l name := by
  have h := isNull_childLoop_iff l.items name hname
  have ha : isAbsent l name = true ↔ ∀ y ∈ l.items, y.name ≠ name := by
    simp [isAbsent, List.all_eq_true]
  unfold KDSoapValueList.child
  cases hb : isAbsent l name with
  | true => exact h.mpr (ha.mp hb)
  | false =>
    cases hc : (childLoop name l.items).isNull with
    | false => rfl
    | true =>
      have := ha.mpr (h.mp hc)
      rw [hb] at this
      exact absurd this (by decide)

/-- C18: for every `getStuff` request, `processRequest` marks the response as a fault iff
at least one of the arguments `foo`, `bar`, `dateTime` is absent from the children of the
request; it then appends the argument `faultcode` = `Server.RequiredArgumentMissing` and
the argument `faultstring` holding the absent names, in the order foo, bar, dateTime,
joined by commas. -/
theorem processRequest_getStuff_missing (stuffText : QVariant → QVariant → QVariant → String)
    (self : CountryServerObject) (request response : KDSoapMessage) (soapAction : String)
    (hm : request.name = "getStuff") :
    ((self.processRequest stuffText request response soapAction).2.isFault
      = (response.isFault ||
          (isAbsent request.childValues "foo" || isAbsent request.childValues "bar" ||
            isAbsent request.childValues "dateTime"))) ∧
    ((isAbsent request.childValues "foo" || isAbsent request.childValues "bar" ||
        isAbsent request.childValues "dateTime") = true →
      (self.processRequest stuffText request response soapAction).2.childValues.items
        = response.childValues.items ++
          [KDSoapValue.ofVariant "faultcode" (.qstring "Server.RequiredArgumentMissing") "" "",
           KDSoapValue.ofVariant "faultstring"
            (.qstring (String.intercalate ","
              (["foo", "bar", "dateTime"].filter (isAbsent request.childValues)))) "" ""]) := by
  obtain ⟨h1, h2⟩ := method_getStuff request hm
  have e1 := isNull_child_eq request.childValues "foo" (by decide)
  have e2 := isNull_child_eq request.childValues "bar" (by decide)
  have e3 := isNull_child_eq request.childValues "dateTime" (by decide)
  unfold CountryServerObject.processRequest
  simp only [h1, h2, if_false, if_true, e1, e2, e3, List.filter_cons, List.filter_nil]
  generalize isAbsent request.childValues "foo" = b1
  generalize isAbsent request.childValues "bar" = b2
  generalize isAbsent request.childValues "dateTime" = b3
  have hk : ∀ (s : CountryServerObject) (r : QVariant),
      (if (!s.hasFault) = true then (s, response.setValue r) else (s, response)).2.isFault
        = response.isFault := by
    intro s r
    split
    · exact (setValue_message_fields _ _).2.1
    · rfl
  cases b1 <;> cases b2 <;> cases b3 <;>
    simp only [Bool.or_true, Bool.or_false, Bool.true_or, Bool.or_self, if_true, if_false,
      Bool.false_eq_true, List.nil_append, List.cons_append, false_implies, true_implies,
      and_true, (addArgument_items _ _ _).1, (addArgument_items _ _ _).2.1,
      (setFault_fields _ _).1, (setFault_fields _ _).2, List.append_assoc, true_and, hk]

/-- C18 (witness): a `getStuff` request carrying only `foo` = 4 is answered by a fault with
the arguments `faultcode` = `Server.RequiredArgumentMissing` and `faultstring` =
`bar,dateTime`. -/
theorem processRequest_getStuff_missing_witness :
    ((CountryServerObject.new false false).processRequest (fun _ _ _ => "0")
        (exampleRequest "getStuff" [KDSoapValue.ofVariant "foo" (.int 4) "" ""])
        KDSoapMessage.default "MySoapAction").2.childValues.items
      = KDSoapMessage.default.childValues.items ++
        [KDSoapValue.ofVariant "faultcode" (.qstring "Server.RequiredArgumentMissing") "" "",
         KDSoapValue.ofVariant "faultstring"
          (.qstring (String.intercalate ","
            (["foo", "bar", "dateTime"].filter
              (isAbsent (exampleRequest "getStuff"
                [KDSoapValue.ofVariant "foo" (.int 4) "" ""]).childValues)))) "" ""] ∧
    String.intercalate ","
        (["foo", "bar", "dateTime"].filter
          (isAbsent (exampleRequest "getStuff"
            [KDSoapValue.ofVariant "foo" (.int 4) "" ""]).childValues)) = "bar,dateTime" :=
  ⟨(processRequest_getStuff_missing (fun _ _ _ => "0") (CountryServerObject.new false false)
    (exampleRequest "getStuff" [KDSoapValue.ofVariant "foo" (.int 4) "" ""])
    KDSoapMessage.default "MySoapAction" rfl).2 (by decide), by decide⟩

/-- C19: when authentication is required, `validateAuthentication` returns true iff the
user is `kdab`, the password is `pass42` and the path is `/` or
`/path/to/file_download.txt`; when authentication is not required it returns true for
every input. -/
theorem validateAuthentication_iff (self : CountryServerObject) (auth : KDSoapAuthentication)
    (path : String) :
    (self.m_requireAuth = true →
      (self.validateAuthentication auth path = true ↔
        auth.user = "kdab" ∧ auth.password = "pass42" ∧
          (path = "/" ∨ path = "/path/to/file_download.txt"))) ∧
    (self.m_requireAuth = false → self.validateAuthentication auth path = true) := by
  constructor
  · intro h
    unfold CountryServerObject.validateAuthentication
    simp only [h, Bool.not_true, Bool.false_eq_true, if_false]
    by_cases hp : path = "/" ∨ path = "/path/to/file_download.txt" <;>
      by_cases hu : auth.user = "kdab" <;> simp [hp, hu]
  · intro h
    unfold CountryServerObject.validateAuthentication
    simp [h]

theorem method_getEmployeeCountry (request : KDSoapMessage)
    (hm : request.name = "getEmployeeCountry") :
    toLatin1 request.name = asciiBytes "getEmployeeCountry" := by
  rw [hm]
  rfl

/-- C20: for every `getEmployeeCountry` request carrying the expected SOAP action, handled
on a request context with no fault pending: if the `employeeName` argument is a non-empty
string `s`, the response gets exactly one more argument, `employeeCountry`, whose value is
`s` followed by ` France`, and no fault is set; if `employeeName` is empty or absent, the
fault `Client.Data` with the string `Empty employee name` is set and the response is left
as it was. -/
theorem processRequest_getEmployeeCountry
    (stuffText : QVariant → QVariant → QVariant → String)
    (self : CountryServerObject) (request response : KDSoapMessage)
    (hm : request.name = "getEmployeeCountry") (hf : self.hasFault = false) :
    (∀ s, (request.childValues.child "employeeName").value = .qstring s → s ≠ "" →
      (self.processRequest stuffText request response
          "http://www.kdab.com/xml/MyWsdl/getEmployeeCountry").2.childValues.items
        = response.childValues.items ++
          [KDSoapValue.ofVariant "employeeCountry" (.qstring (s ++ " France")) "" ""] ∧
      (self.processRequest stuffText request response
          "http://www.kdab.com/xml/MyWsdl/getEmployeeCountry").2.isFault = response.isFault ∧
      (self.processRequest stuffText request response
          "http://www.kdab.com/xml/MyWsdl/getEmployeeCountry").1.hasFault = false) ∧
    (((request.childValues.child "employeeName").value = .qstring "" ∨
        ∀ y ∈ request.childValues.items, y.name ≠ "employeeName") →
      (self.processRequest stuffText request response
          "http://www.kdab.com/xml/MyWsdl/getEmployeeCountry").1.m_fault
        = some ⟨"Client.Data", "Empty employee name", "CountryServerObject",
            "Employee name must not be empty"⟩ ∧
      (self.processRequest stuffText request response
          "http://www.kdab.com/xml/MyWsdl/getEmployeeCountry").2 = response) := by
  have h1 := method_getEmployeeCountry request hm
  have hf' : (self.setResponseNamespace myWsdlNamespace).hasFault = false := hf
  constructor
  · intro s hs hne
    have hE : s.isEmpty = false := by
      rw [isEmpty_eq_decide]; simp [hne]
    unfold CountryServerObject.processRequest
    simp only [h1, if_true, ne_eq, not_true_eq_false, if_false, hs, QVariant.toString,
      CountryServerObject.getEmployeeCountry, hE, Bool.false_eq_true, hf', Bool.not_false]
    refine ⟨?_, ?_, ?_⟩
    · rw [(addArgument_items _ _ _).1, (setValue_message_fields _ _).1]
    · rw [(addArgument_items _ _ _).2.1, (setValue_message_fields _ _).2.1]
    · trivial
  · intro h
    have hname : (request.childValues.child "employeeName").value.toString = "" := by
      rcases h with h | h
      · rw [h]; rfl
      · unfold KDSoapValueList.child
        rw [childLoop_of_not_mem _ _ h]
        rfl
    unfold CountryServerObject.processRequest
    simp only [h1, if_true, ne_eq, not_true_eq_false, if_false, hname,
      CountryServerObject.getEmployeeCountry]
    exact ⟨rfl, rfl⟩

/-- C20 (witness): the request `getEmployeeCountry(employeeName = David Ä Faure)` gets the
single argument `employeeCountry` = `David Ä Faure France` and no fault. -/
theorem processRequest_getEmployeeCountry_witness :
    ((CountryServerObject.new false false).processRequest (fun _ _ _ => "0")
        (exampleRequest "getEmployeeCountry"
          [KDSoapValue.ofVariant "employeeName" (.qstring "David Ä Faure") "" ""])
        KDSoapMessage.default
        "http://www.kdab.com/xml/MyWsdl/getEmployeeCountry").2.childValues.items
      = KDSoapMessage.default.childValues.items ++
        [KDSoapValue.ofVariant "employeeCountry" (.qstring ("David Ä Faure" ++ " France"))
          "" ""] ∧
    ((CountryServerObject.new false false).processRequest (fun _ _ _ => "0")
        (exampleRequest "getEmployeeCountry"
          [KDSoapValue.ofVariant "employeeName" (.qstring "David Ä Faure") "" ""])
        KDSoapMessage.default
        "http://www.kdab.com/xml/MyWsdl/getEmployeeCountry").2.isFault
      = KDSoapMessage.default.isFault ∧
    ((CountryServerObject.new false false).processRequest (fun _ _ _ => "0")
        (exampleRequest "getEmployeeCountry"
          [KDSoapValue.ofVariant "employeeName" (.qstring "David Ä Faure") "" ""])
        KDSoapMessage.default
        "http://www.kdab.com/xml/MyWsdl/getEmployeeCountry").1.hasFault = false :=
  (processRequest_getEmployeeCountry (fun _ _ _ => "0") (CountryServerObject.new false false)
    (exampleRequest "getEmployeeCountry"
      [KDSoapValue.ofVariant "employeeName" (.qstring "David Ä Faure") "" ""])
    KDSoapMessage.default rfl rfl).1 "David Ä Faure" (by decide) (by decide)

/-! ## Claims on the order and the namespaces of what is written -/

/-- C21: for every `getEmployeeCountry` request whose SOAP action differs from
`http://www.kdab.com/xml/MyWsdl/getEmployeeCountry`, `processRequest` sets the fault
`Server.UnknownSoapAction` and nothing else: the method is not invoked (the state is the
one `setFault` leaves, whatever the employee name) and the response is returned as it
was, without value or arguments added. -/
theorem processRequest_unknownSoapAction (stuffText : QVariant → QVariant → QVariant → String)
    (self : CountryServerObject) (request response : KDSoapMessage) (soapAction : String)
    (hm : request.name = "getEmployeeCountry")
    (ha : soapAction ≠ "http://www.kdab.com/xml/MyWsdl/getEmployeeCountry") :
    (self.processRequest stuffText request response soapAction).2 = response ∧
    (self.processRequest stuffText request response soapAction).1
      = (self.setResponseNamespace myWsdlNamespace).setFault "Server.UnknownSoapAction"
          "Unknown soap action" ""
          (String.mk (soapAction.data.takeWhile (fun c => c ≠ Char.ofNat 0))) ∧
    ((self.processRequest stuffText request response soapAction).1.m_fault.map
      (fun f => (f.faultCode, f.faultString)))
      = some ("Server.UnknownSoapAction", "Unknown soap action") := by
  have h1 := method_getEmployeeCountry request hm
  have hkey : self.processRequest stuffText request response soapAction
      = ((self.setResponseNamespace myWsdlNamespace).setFault "Server.UnknownSoapAction"
          "Unknown soap action" ""
          (String.mk (soapAction.data.takeWhile (fun c => c ≠ Char.ofNat 0))), response) := by
    unfold CountryServerObject.processRequest
    simp only [h1, if_true, ne_eq, ha, not_false_eq_true]
  rw [hkey]
  exact ⟨rfl, rfl, rfl⟩

/-- C21 (witness): a `getEmployeeCountry` request with an empty employee name and the SOAP
action `urn:other` gets the fault `Server.UnknownSoapAction` (not `Client.Data`) and an
untouched response. -/
theorem processRequest_unknownSoapAction_witness :
    ((CountryServerObject.new false false).processRequest (fun _ _ _ => "0")
        (exampleRequest "getEmployeeCountry" []) KDSoapMessage.default "urn:other").2
      = KDSoapMessage.default ∧
    ((CountryServerObject.new false false).processRequest (fun _ _ _ => "0")
        (exampleRequest "getEmployeeCountry" []) KDSoapMessage.default "urn:other").1
      = ((CountryServerObject.new false false).setResponseNamespace myWsdlNamespace).setFault
          "Server.UnknownSoapAction" "Unknown soap action" ""
          (String.mk ("urn:other".data.takeWhile (fun c => c ≠ Char.ofNat 0))) ∧
    (((CountryServerObject.new false false).processRequest (fun _ _ _ => "0")
        (exampleRequest "getEmployeeCountry" []) KDSoapMessage.default "urn:other").1.m_fault.map
      (fun f => (f.faultCode, f.faultString)))
      = some ("Server.UnknownSoapAction", "Unknown soap action") :=
  processRequest_unknownSoapAction (fun _ _ _ => "0") (CountryServerObject.new false false)
    (exampleRequest "getEmployeeCountry" []) KDSoapMessage.default "urn:other" rfl (by decide)

theorem writeText_of_text (v : KDSoapValue) (hv : v.value.isNull = false)
    (ht : (variantToTextValue v.value v.typeNs v.type).isEmpty = false) :
    v.writeText = [XmlEvent.Characters (variantToTextValue v.value v.typeNs v.type)] := by
  unfold KDSoapValue.writeText
  simp [hv, ht]

/-- C22: for every value with a non-null variant whose text is non-empty,
`writeElementContents` writes the attributes, then all child elements in order, and the
text node last, so that in the output of `writeElement` the text comes after the last
child and immediately before the end tag of the element. -/
theorem writeElementContents_mixed (np : KDSoapNamespacePrefixes) (use : Use) (m : String)
    (fq : Bool) (v : KDSoapValue) (hv : v.value.isNull = false)
    (ht : (variantToTextValue v.value v.typeNs v.type).isEmpty = false) :
    v.writeElementContents np use m
      = v.writeOwnAttributes np use ++ writeAttributes false v.childValues.attributes
        ++ v.childValues.items.flatMap (fun c => c.writeElement np use m false)
        ++ [XmlEvent.Characters (variantToTextValue v.value v.typeNs v.type)] ∧
    v.writeElement np use m fq
      = [v.startElement m fq]
        ++ (v.writeOwnAttributes np use ++ writeAttributes false v.childValues.attributes)
        ++ v.childValues.items.flatMap (fun c => c.writeElement np use m false)
        ++ [XmlEvent.Characters (variantToTextValue v.value v.typeNs v.type),
            XmlEvent.EndElement] := by
  have h : v.writeElementContents np use m
      = v.writeOwnAttributes np use ++ writeAttributes false v.childValues.attributes
        ++ v.childValues.items.flatMap (fun c => c.writeElement np use m false)
        ++ [XmlEvent.Characters (variantToTextValue v.value v.typeNs v.type)] := by
    rw [writeElementContents_eq, writeChildren_eq, writeElements_eq_flatMap,
      writeText_of_text v hv ht]
    simp only [List.append_assoc]
  refine ⟨h, ?_⟩
  rw [writeElement_eq, h]
  simp only [List.append_assoc, List.cons_append, List.nil_append, List.singleton_append]

/-- C22 (witness): the response of the `getEmployeeCountry` call is written as the child
`employeeCountry` followed by the text `getEmployeeCountryResponse` and the end tag. -/
theorem writeElementContents_mixed_witness :
    exampleResponse.writeElementContents examplePrefixes Use.LiteralUse myWsdlNamespace
      = exampleResponse.writeOwnAttributes examplePrefixes Use.LiteralUse
        ++ writeAttributes false exampleResponse.childValues.attributes
        ++ exampleResponse.childValues.items.flatMap
            (fun c => c.writeElement examplePrefixes Use.LiteralUse myWsdlNamespace false)
        ++ [XmlEvent.Characters
            (variantToTextValue exampleResponse.value exampleResponse.typeNs
              exampleResponse.type)] ∧
    exampleResponse.writeElement examplePrefixes Use.LiteralUse myWsdlNamespace false
      = [exampleResponse.startElement myWsdlNamespace false]
        ++ (exampleResponse.writeOwnAttributes examplePrefixes Use.LiteralUse
          ++ writeAttributes false exampleResponse.childValues.attributes)
        ++ exampleResponse.childValues.items.flatMap
            (fun c => c.writeElement examplePrefixes Use.LiteralUse myWsdlNamespace false)
        ++ [XmlEvent.Characters
            (variantToTextValue exampleResponse.value exampleResponse.typeNs
              exampleResponse.type),
            XmlEvent.EndElement] :=
  writeElementContents_mixed examplePrefixes Use.LiteralUse myWsdlNamespace false
    exampleResponse (by decide) (by decide)

/-- C23: for every value, `writeChildren` writes one attribute event per entry of the
attribute list, in the order of that list, before any child element, and then the child
elements in the order of the child list, each exactly once as one block from its start
tag to its end tag. -/
theorem writeChildren_order (np : KDSoapNamespacePrefixes) (use : Use) (m : String)
    (fq : Bool) (v : KDSoapValue) :
    v.writeChildren np use m fq
      = v.childValues.attributes.map (fun a =>
          if a.isQualified || fq then
            XmlEvent.AttributeNs a.namespaceUri a.name
              (variantToTextValue a.value a.typeNs a.type)
          else XmlEvent.Attribute a.name (variantToTextValue a.value a.typeNs a.type))
        ++ v.childValues.items.flatMap (fun c =>
            [c.startElement m fq] ++ c.writeElementContents np use m
              ++ [XmlEvent.EndElement]) ∧
    (∀ a ∈ v.childValues.attributes,
      (if a.isQualified || fq then
          XmlEvent.AttributeNs a.namespaceUri a.name
            (variantToTextValue a.value a.typeNs a.type)
        else XmlEvent.Attribute a.name
          (variantToTextValue a.value a.typeNs a.type)).isAttribute = true) ∧
    (∀ c ∈ v.childValues.items, (c.startElement m fq).isAttribute = false) := by
  refine ⟨?_, ?_, fun c _ => startElement_not_isAttribute m fq c⟩
  · rw [writeChildren_eq, writeElements_eq_flatMap]
    congr 1
    apply List.flatMap_congr
    intro c _
    exact writeElement_eq np use m fq c
  · intro a _
    split <;> rfl

/-- C24: `addArgument(name, value, typeNs, typeName)` appends: afterwards the list is the
old list followed by one new element whose name, value, type namespace and type name are
the arguments; the attributes and the array type are unchanged, and `child(n)` for a name
already present still returns the earlier element. -/
theorem addArgument_appends (l : KDSoapValueList) (name : String) (value : QVariant)
    (typeNs typeName : String) :
    (l.addArgument name value typeNs typeName).items
      = l.items ++ [KDSoapValue.ofVariant name value typeNs typeName] ∧
    (KDSoapValue.ofVariant name value typeNs typeName).name = name ∧
    (KDSoapValue.ofVariant name value typeNs typeName).value = value ∧
    (KDSoapValue.ofVariant name value typeNs typeName).typeNs = typeNs ∧
    (KDSoapValue.ofVariant name value typeNs typeName).type = typeName ∧
    (l.addArgument name value typeNs typeName).attributes = l.attributes ∧
    (l.addArgument name value typeNs typeName).arrayTypeNs = l.arrayTypeNs ∧
    (l.addArgument name value typeNs typeName).arrayType = l.arrayType ∧
    (∀ n, (∃ y ∈ l.items, y.name = n) →
      (l.addArgument name value typeNs typeName).child n = l.child n) := by
  have hi : (l.addArgument name value typeNs typeName).items
      = l.items ++ [KDSoapValue.ofVariant name value typeNs typeName] := by
    cases l
    rfl
  refine ⟨hi, rfl, rfl, rfl, rfl, by cases l; rfl, by cases l; rfl, by cases l; rfl, ?_⟩
  intro n hex
  unfold KDSoapValueList.child
  rw [hi]
  obtain ⟨y, hy, hn⟩ := hex
  clear hi
  generalize l.items = items at hy
  induction items with
  | nil => simp at hy
  | cons x xs ih =>
    by_cases hx : x.name = n
    · simp [childLoop, hx]
    · simp only [List.cons_append, childLoop, if_neg hx]
      rcases List.mem_cons.mp hy with rfl | hy'
      · exact absurd hn hx
      · exact ih hy'

theorem encodedType_cases (np : KDSoapNamespacePrefixes) (v : KDSoapValue) :
    (v.type ≠ "" → np.resolve v.typeNs v.type ≠ "" →
      v.encodedType np = np.resolve v.typeNs v.type) ∧
    ((v.type = "" ∨ np.resolve v.typeNs v.type = "") → v.value.isNull = false →
      v.encodedType np = variantToXMLType v.value) ∧
    ((v.type = "" ∨ np.resolve v.typeNs v.type = "") → v.value.isNull = true →
      v.encodedType np = "") := by
  unfold KDSoapValue.encodedType
  simp only [isEmpty_eq_decide]
  refine ⟨?_, ?_, ?_⟩
  · intro h1 h2
    simp [h1, h2]
  · intro h hv
    rcases h with h | h
    · simp [h, hv]
    · by_cases h1 : v.type = ""
      · simp [h1, hv]
      · simp [h1, h, hv]
  · intro h hv
    rcases h with h | h
    · simp [h, hv]
    · by_cases h1 : v.type = ""
      · simp [h1, hv]
      · simp [h1, h, hv]

theorem startElement_cases (m : String) (fq : Bool) (v : KDSoapValue) :
    v.startElement m fq
        = XmlEvent.StartElementNs (if v.namespaceUri = "" then m else v.namespaceUri) v.name ∨
      v.startElement m fq = XmlEvent.StartElement v.name := by
  unfold KDSoapValue.startElement
  rw [isEmpty_eq_decide]
  by_cases he : v.namespaceUri = "" <;> by_cases hm : v.namespaceUri = m <;>
    by_cases hq : v.isQualified = true <;> cases fq <;> simp [he, hm, hq]

/-- C26: whenever `writeElement` starts a namespaced element, the namespace used is the
value's own element namespace if that is non-empty, and the enclosing message namespace
otherwise (and the local name is the value's name). -/
theorem writeElement_namespace (np : KDSoapNamespacePrefixes) (use : Use) (m : String)
    (fq : Bool) (v : KDSoapValue) (ns n : String)
    (h : (v.writeElement np use m fq).head? = some (XmlEvent.StartElementNs ns n)) :
    ns = (if v.namespaceUri = "" then m else v.namespaceUri) ∧ n = v.name := by
  rw [writeElement_eq] at h
  simp only [List.singleton_append, List.cons_append, List.head?_cons, Option.some.injEq] at h
  rcases startElement_cases m fq v with h1 | h1
  · rw [h1] at h
    simp only [XmlEvent.StartElementNs.injEq] at h
    exact ⟨h.1.symm, h.2.symm⟩
  · rw [h1] at h
    simp at h

/-- C26 (witness): the response element of the test suite, whose own namespace is the
service namespace, is started in that namespace even inside another message namespace,
and an element with no namespace of its own is started in the message namespace when
qualification is forced. -/
theorem writeElement_namespace_witness :
    (myWsdlNamespace = (if exampleResponse.namespaceUri = "" then "urn:other"
        else exampleResponse.namespaceUri) ∧ "getEmployeeCountry" = exampleResponse.name) ∧
    (exampleElement []).startElement "urn:other" true = XmlEvent.StartElementNs "urn:other" "a" :=
  ⟨writeElement_namespace examplePrefixes Use.LiteralUse "urn:other" false exampleResponse
    myWsdlNamespace "getEmployeeCountry" (by rw [writeElement_eq]; rfl), by decide⟩

/-- C27: `writeElementContents` writes every entry of the value's attribute list, in
order, after the attributes of its own: with the entry's own namespace iff its qualified
flag is set, by name only otherwise; in both cases the attribute value is the text of the
entry's variant under the entry's own type, so a byte-array entry typed xsd `hexBinary`
is written in hex. -/
theorem writeElementContents_attributes (np : KDSoapNamespacePrefixes) (use : Use)
    (m : String) (v : KDSoapValue) :
    elementAttributes (v.writeElementContents np use m)
      = v.writeOwnAttributes np use
        ++ v.childValues.attributes.map (fun a =>
            if a.isQualified = true then
              XmlEvent.AttributeNs a.namespaceUri a.name
                (variantToTextValue a.value a.typeNs a.type)
            else XmlEvent.Attribute a.name (variantToTextValue a.value a.typeNs a.type)) ∧
    v.writeChildren np use m false
      = v.childValues.attributes.map (fun a =>
            if a.isQualified = true then
              XmlEvent.AttributeNs a.namespaceUri a.name
                (variantToTextValue a.value a.typeNs a.type)
            else XmlEvent.Attribute a.name (variantToTextValue a.value a.typeNs a.type))
        ++ writeElements np use m false v.childValues.items ∧
    (∀ (b : Bytes) (name ns : String) (q : Bool),
      variantToTextValue
          (KDSoapValue.mk name ns (.qbytearray b) xmlSchema2001 "hexBinary"
            KDSoapValueList.empty q false [] []).value
          (KDSoapValue.mk name ns (.qbytearray b) xmlSchema2001 "hexBinary"
            KDSoapValueList.empty q false [] []).typeNs
          (KDSoapValue.mk name ns (.qbytearray b) xmlSchema2001 "hexBinary"
            KDSoapValueList.empty q false [] []).type
        = fromLatin1 (toHex b)) := by
  have hw : ∀ l : List KDSoapValue, writeAttributes false l
      = l.map (fun a =>
            if a.isQualified = true then
              XmlEvent.AttributeNs a.namespaceUri a.name
                (variantToTextValue a.value a.typeNs a.type)
            else XmlEvent.Attribute a.name (variantToTextValue a.value a.typeNs a.type)) := by
    intro l
    unfold writeAttributes
    apply List.map_congr_left
    intro a _
    simp only [Bool.or_false]
  refine ⟨?_, ?_, ?_⟩
  · rw [elementAttributes_writeElementContents, hw]
  · rw [writeChildren_eq, hw]
  · intro b name ns q
    show variantToTextValue (.qbytearray b) xmlSchema2001 "hexBinary" = fromLatin1 (toHex b)
    rw [variantToTextValue_qbytearray, if_pos (by decide)]

/-! ## Claims on times and on the raw-XML handler -/

theorem natDigits_length_le (n w : Nat) (hw : 1 ≤ w) (h : n < 10 ^ w) :
    (natDigits n).length ≤ w := by
  unfold natDigits
  split
  · simpa using hw
  · rename_i hn
    simp only [List.length_map, List.length_reverse]
    have h1 := Nat.base_pow_length_digits_le 10 n (by norm_num) hn
    have h2 : 10 ^ (Nat.digits 10 n).length < 10 ^ (w + 1) := by
      calc 10 ^ (Nat.digits 10 n).length ≤ 10 * n := h1
        _ < 10 * 10 ^ w := by omega
        _ = 10 ^ (w + 1) := by ring
    have h3 := (Nat.pow_lt_pow_iff_right (by norm_num : 1 < 10)).mp h2
    omega

theorem padNat_length (n w : Nat) (hw : 1 ≤ w) (h : n < 10 ^ w) :
    (padNat w n).length = w := by
  have := natDigits_length_le n w hw h
  simp only [padNat, List.length_append, List.length_replicate]
  omega

theorem parse_fold_zeros (k : Nat) (ds : List Char) :
    (List.replicate k '0' ++ ds).foldl
        (fun acc c => acc.bind (fun a => (charDigit c).map (fun d => 10 * a + d))) (some 0)
      = ds.foldl
        (fun acc c => acc.bind (fun a => (charDigit c).map (fun d => 10 * a + d))) (some 0) := by
  induction k with
  | zero => rfl
  | succ k ih =>
    rw [List.replicate_succ, List.cons_append, List.foldl_cons]
    have h0 : (some 0 : Option Nat).bind (fun a => (charDigit '0').map (fun d => 10 * a + d))
        = some 0 := by decide
    rw [h0]
    exact ih

theorem parseNat_padNat (w n : Nat) : parseNat (padNat w n) = some n := by
  have h := parseNat_natDigits n
  unfold parseNat at h ⊢
  rw [if_neg (natDigits_ne_nil n)] at h
  have hne : padNat w n ≠ [] := by
    intro h0
    have := congrArg List.length h0
    simp only [padNat, List.length_append, List.length_replicate, List.length_nil] at this
    have hl : (natDigits n).length ≠ 0 := by
      intro hz
      exact natDigits_ne_nil n (List.length_eq_zero.mp hz)
    omega
  rw [if_neg hne]
  unfold padNat
  simp only
  rw [parse_fold_zeros]
  exact h

/-- C28: for every valid time of day `h:m:s.ms`, `variantToTextValue` returns the
8-character text `HH:mm:ss` when `ms = 0` and the 12-character text `HH:mm:ss.zzz` when
`ms` is non-zero; each field is zero-padded decimal (two digits for hour, minute and
second, three for the milliseconds) and reads back as the number. -/
theorem variantToTextValue_time (h m s ms : Nat) (typeNs type : String)
    (hvalid : validTime h m s ms = true) :
    (ms = 0 →
      (variantToTextValue (.qtime h m s ms) typeNs type).data
        = padNat 2 h ++ [':'] ++ padNat 2 m ++ [':'] ++ padNat 2 s ∧
      (variantToTextValue (.qtime h m s ms) typeNs type).data.length = 8) ∧
    (ms ≠ 0 →
      (variantToTextValue (.qtime h m s ms) typeNs type).data
        = padNat 2 h ++ [':'] ++ padNat 2 m ++ [':'] ++ padNat 2 s ++ ['.'] ++ padNat 3 ms ∧
      (variantToTextValue (.qtime h m s ms) typeNs type).data.length = 12) ∧
    ((padNat 2 h).length = 2 ∧ parseNat (padNat 2 h) = some h) ∧
    ((padNat 2 m).length = 2 ∧ parseNat (padNat 2 m) = some m) ∧
    ((padNat 2 s).length = 2 ∧ parseNat (padNat 2 s) = some s) ∧
    ((padNat 3 ms).length = 3 ∧ parseNat (padNat 3 ms) = some ms) := by
  have hv := hvalid
  simp only [validTime, Bool.and_eq_true, decide_eq_true_eq] at hv
  obtain ⟨⟨⟨hh, hm⟩, hs⟩, hms⟩ := hv
  have lh := padNat_length h 2 (by norm_num) (by omega)
  have lm := padNat_length m 2 (by norm_num) (by omega)
  have ls := padNat_length s 2 (by norm_num) (by omega)
  have lms := padNat_length ms 3 (by norm_num) (by omega)
  refine ⟨?_, ?_, ⟨lh, parseNat_padNat 2 h⟩, ⟨lm, parseNat_padNat 2 m⟩,
    ⟨ls, parseNat_padNat 2 s⟩, ⟨lms, parseNat_padNat 3 ms⟩⟩
  · intro h0
    subst h0
    have e : (variantToTextValue (.qtime h m s 0) typeNs type).data
        = padNat 2 h ++ [':'] ++ padNat 2 m ++ [':'] ++ padNat 2 s := by
      simp [variantToTextValue, timeToString, hvalid]
    refine ⟨e, ?_⟩
    rw [e]
    simp only [List.length_append, List.length_cons, List.length_nil, lh, lm, ls]
  · intro h0
    have e : (variantToTextValue (.qtime h m s ms) typeNs type).data
        = padNat 2 h ++ [':'] ++ padNat 2 m ++ [':'] ++ padNat 2 s ++ ['.'] ++ padNat 3 ms := by
      simp [variantToTextValue, timeToString, hvalid, h0]
    refine ⟨e, ?_⟩
    rw [e]
    simp only [List.length_append, List.length_cons, List.length_nil, lh, lm, ls, lms]

/-- C28 (witness): the time 09:05:03.007 is written `09:05:03.007` and the time 23:59:00
is written `23:59:00`. -/
theorem variantToTextValue_time_witness :
    ((7 ≠ 0 →
      (variantToTextValue (.qtime 9 5 3 7) "" "").data
        = padNat 2 9 ++ [':'] ++ padNat 2 5 ++ [':'] ++ padNat 2 3 ++ ['.'] ++ padNat 3 7 ∧
      (variantToTextValue (.qtime 9 5 3 7) "" "").data.length = 12)) ∧
    variantToTextValue (.qtime 9 5 3 7) "" "" = "09:05:03.007" ∧
    variantToTextValue (.qtime 23 59 0 0) "" "" = "23:59:00" :=
  ⟨(variantToTextValue_time 9 5 3 7 "" "" (by decide)).2.1,
    by simp [variantToTextValue, timeToString, validTime, padNat, natDigits, digitChar],
    by simp [variantToTextValue, timeToString, validTime, padNat, natDigits, digitChar]⟩

theorem foldl_processXML (chunks : List Bytes) :
    ∀ self : CountryServerObject,
      (chunks.foldl CountryServerObject.processXML self).m_assembledXML
        = self.m_assembledXML ++ chunks.flatten ∧
      (chunks.foldl CountryServerObject.processXML self).m_useRawXML = self.m_useRawXML ∧
      (self.m_useRawXML = true →
        (chunks.foldl CountryServerObject.processXML self).m_rawXMLValid
          = self.m_rawXMLValid) := by
  induction chunks with
  | nil => intro self; simp
  | cons c cs ih =>
    intro self
    rw [List.foldl_cons]
    obtain ⟨h1, h2, h3⟩ := ih (self.processXML c)
    have e1 : (self.processXML c).m_assembledXML = self.m_assembledXML ++ c := by
      unfold CountryServerObject.processXML
      simp only
      split <;> rfl
    have e2 : (self.processXML c).m_useRawXML = self.m_useRawXML := by
      unfold CountryServerObject.processXML
      simp only
      split <;> rfl
    have e3 : self.m_useRawXML = true →
        (self.processXML c).m_rawXMLValid = self.m_rawXMLValid := by
      intro hu
      unfold CountryServerObject.processXML
      simp [hu]
    refine ⟨?_, ?_, ?_⟩
    · rw [h1, e1, List.flatten_cons, List.append_assoc]
    · rw [h2, e2]
    · intro hu
      rw [h3 (by rw [e2]; exact hu), e3 hu]

/-- C29: for every body and every way of cutting it into chunks, calling `processXML` on
the chunks in order appends exactly the body to the assembled buffer; starting from an
empty buffer the buffer is the body, so two fragmentations of the same body give the same
buffer.  While raw XML is enabled the assertion of `processXML` holds at every call. -/
theorem processXML_accumulates (self : CountryServerObject) (body : Bytes)
    (chunks1 chunks2 : List Bytes) :
    (chunks1.foldl CountryServerObject.processXML self).m_assembledXML
      = self.m_assembledXML ++ chunks1.flatten ∧
    (chunks1.flatten = body → self.m_assembledXML = [] →
      (chunks1.foldl CountryServerObject.processXML self).m_assembledXML = body) ∧
    (chunks1.flatten = body → chunks2.flatten = body →
      (chunks1.foldl CountryServerObject.processXML self).m_assembledXML
        = (chunks2.foldl CountryServerObject.processXML self).m_assembledXML) ∧
    (chunks1.foldl CountryServerObject.processXML self).processXMLAssertion
      = self.processXMLAssertion := by
  have h1 := foldl_processXML chunks1 self
  have h2 := foldl_processXML chunks2 self
  refine ⟨h1.1, ?_, ?_, h1.2.1⟩
  · intro hb he
    rw [h1.1, hb, he, List.nil_append]
  · intro hb1 hb2
    rw [h1.1, h2.1, hb1, hb2]

/-- C30: `newRequest(verb, headers)` accepts iff raw XML is enabled and the verb is
`POST`; for every accepted request followed by any sequence of `processXML` calls and then
`endRequest`, the expected XML response is written iff the headers held both
`content-type` and `soapaction` and the accumulated bytes (the buffer at `newRequest`,
empty at the start of a request, followed by the chunks) equal the expected country
request; otherwise the response written is `HTTP/1.1 400 Bad Request` with
`Content-Length: 0`; in both cases the buffer is empty after `endRequest`. -/
theorem rawXML_state_machine (self : CountryServerObject) (requestType : String)
    (httpHeaders : List (String × String)) (chunks : List Bytes) :
    ((self.newRequest requestType httpHeaders).2 = true ↔
      (self.m_useRawXML = true ∧ requestType = "POST")) ∧
    ((self.newRequest requestType httpHeaders).2 = true →
      ((CountryServerObject.endRequest
          (chunks.foldl CountryServerObject.processXML
            (self.newRequest requestType httpHeaders).1)).2
          = RawReply.writeXML (expectedCountryResponse s_longEmployeeName SoapVersion.SOAP1_1) ↔
        (headersContain httpHeaders "content-type" = true ∧
          headersContain httpHeaders "soapaction" = true ∧
          self.m_assembledXML ++ chunks.flatten
            = rawCountryMessage s_longEmployeeName SoapVersion.SOAP1_1)) ∧
      (¬ (headersContain httpHeaders "content-type" = true ∧
          headersContain httpHeaders "soapaction" = true ∧
          self.m_assembledXML ++ chunks.flatten
            = rawCountryMessage s_longEmployeeName SoapVersion.SOAP1_1) →
        (CountryServerObject.endRequest
          (chunks.foldl CountryServerObject.processXML
            (self.newRequest requestType httpHeaders).1)).2
          = RawReply.writeHTTP
              (asciiBytes "HTTP/1.1 400 Bad Request\r\nContent-Length: 0\r\n\r\n"))) ∧
    (CountryServerObject.endRequest
        (chunks.foldl CountryServerObject.processXML
          (self.newRequest requestType httpHeaders).1)).1.m_assembledXML = [] := by
  have hacc : (self.newRequest requestType httpHeaders).2 = true ↔
      (self.m_useRawXML = true ∧ requestType = "POST") := by
    unfold CountryServerObject.newRequest
    by_cases hu : self.m_useRawXML = true <;> by_cases hp : requestType = "POST" <;>
      simp [hu, hp]
    all_goals (split <;> rfl)
  refine ⟨hacc, ?_, ?_⟩
  · intro hok
    obtain ⟨hu, hp⟩ := hacc.mp hok
    have hs1 : (self.newRequest requestType httpHeaders).1.m_assembledXML
        = self.m_assembledXML := by
      unfold CountryServerObject.newRequest
      simp only [hu, hp, beq_self_eq_true, Bool.and_self, if_true]
      split <;> rfl
    have hs2 : (self.newRequest requestType httpHeaders).1.m_useRawXML = true := by
      unfold CountryServerObject.newRequest
      simp only [hu, hp, beq_self_eq_true, Bool.and_self, if_true]
      split <;> rfl
    have hs3 : (self.newRequest requestType httpHeaders).1.m_rawXMLValid
        = (headersContain httpHeaders "content-type" &&
            headersContain httpHeaders "soapaction") := by
      unfold CountryServerObject.newRequest
      simp only [hu, hp, beq_self_eq_true, Bool.and_self, if_true]
      cases headersContain httpHeaders "content-type" <;>
        cases headersContain httpHeaders "soapaction" <;> rfl
    obtain ⟨f1, _, f3⟩ := foldl_processXML chunks (self.newRequest requestType httpHeaders).1
    have f3' := f3 hs2
    rw [hs1] at f1
    rw [hs3] at f3'
    unfold CountryServerObject.endRequest
    simp only [f1, ne_eq]
    by_cases hb : self.m_assembledXML ++ chunks.flatten
        = rawCountryMessage s_longEmployeeName SoapVersion.SOAP1_1
    · simp only [hb, not_true_eq_false, if_false, f3', and_true]
      cases headersContain httpHeaders "content-type" <;>
        cases headersContain httpHeaders "soapaction" <;> simp
    · simp [hb]
  · unfold CountryServerObject.endRequest
    simp


/-! ## Inferred type and text of binary and integer values -/

theorem toBase64_length (b : Bytes) : (toBase64 b).length = 4 * ((b.length + 2) / 3) := by
  induction b using toBase64.induct with
  | case1 => rfl
  | case2 a => simp [toBase64]
  | case3 a b => simp [toBase64]
  | case4 a b c rest ih =>
    simp only [toBase64, List.length_cons, ih]
    omega

theorem toBase64_eq_nil_iff (b : Bytes) : toBase64 b = [] ↔ b = [] := by
  constructor
  · intro h
    have hl := congrArg List.length h
    rw [toBase64_length] at hl
    simp only [List.length_nil] at hl
    have : b.length = 0 := by omega
    exact List.length_eq_zero.mp this
  · rintro rfl
    rfl

theorem digitChar_ne_pad (k : Nat) (h : k < 16) : digitChar k ≠ '=' := by
  interval_cases k <;> decide

theorem toBase64_ne_toHex (b : Bytes) (hb : b ≠ []) : toBase64 b ≠ toHex b := by
  intro h
  have hl := congrArg List.length h
  rw [toBase64_length, toHex_length] at hl
  have h0 : b.length ≠ 0 := fun h0 => hb (List.length_eq_zero.mp h0)
  have hcases : b.length = 2 ∨ b.length = 4 := by omega
  rcases hcases with h2 | h4
  · match b, h2 with
    | [x, y], _ =>
      simp only [toBase64, toHex, List.flatMap_cons, List.flatMap_nil, List.cons_append,
        List.nil_append, List.cons.injEq, and_true] at h
      exact digitChar_ne_pad (y.val % 16) (Nat.mod_lt _ (by decide)) h.2.2.2.symm
  · match b, h4 with
    | [x, y, z, w], _ =>
      simp only [toBase64, toHex, List.flatMap_cons, List.flatMap_nil, List.cons_append,
        List.nil_append, List.cons.injEq, and_true] at h
      exact digitChar_ne_pad (w.val % 16) (Nat.mod_lt _ (by decide)) h.2.2.2.2.2.2.2.symm

/-- C35: for every value holding a byte array with no type set, under encoded use the
`xsi:type` attribute that `writeElementContents` computes and writes is
`xsd:base64Binary`, and the text written is the Base64 encoding of the bytes (from which
the bytes are read back), which for a non-empty byte array differs from the hexadecimal
encoding; for an empty byte array no text node is written. -/
theorem writeElementContents_binary (np : KDSoapNamespacePrefixes) (m : String)
    (v : KDSoapValue) (b : Bytes) :
    v.value = .qbytearray b → v.type = "" →
      v.encodedType np = "xsd:base64Binary" ∧
      XmlEvent.AttributeNs xmlSchemaInstance2001 "type" "xsd:base64Binary" ∈
        elementAttributes (v.writeElementContents np Use.EncodedUse m) ∧
      (∀ t, XmlEvent.AttributeNs xmlSchemaInstance2001 "type" t ∈
        v.writeOwnAttributes np Use.EncodedUse → t = "xsd:base64Binary") ∧
      variantToTextValue v.value v.typeNs v.type = fromLatin1 (toBase64 b) ∧
      v.writeText =
        (if b = [] then [] else [XmlEvent.Characters (fromLatin1 (toBase64 b))]) ∧
      fromBase64 (toLatin1 (variantToTextValue v.value v.typeNs v.type)) = b ∧
      (b ≠ [] → variantToTextValue v.value v.typeNs v.type ≠ fromLatin1 (toHex b)) := by
  intro hv ht
  have hnull : v.value.isNull = false := by rw [hv]; rfl
  have henc : v.encodedType np = "xsd:base64Binary" := by
    rw [(encodedType_cases np v).2.1 (Or.inl ht) hnull, hv]
    rfl
  have htext : variantToTextValue v.value v.typeNs v.type = fromLatin1 (toBase64 b) := by
    rw [hv, variantToTextValue_qbytearray, ht]
    simp
  have hown : XmlEvent.AttributeNs xmlSchemaInstance2001 "type" "xsd:base64Binary" ∈
      v.writeOwnAttributes np Use.EncodedUse := by
    rw [mem_writeOwnAttributes_iff]
    right; left
    rw [henc]
    exact ⟨rfl, by decide, rfl, rfl, rfl⟩
  refine ⟨henc, ?_, ?_, htext, ?_, ?_, ?_⟩
  · rw [elementAttributes_writeElementContents]
    exact List.mem_append_left _ hown
  · intro t h
    rw [mem_writeOwnAttributes_iff] at h
    rcases h with h | h | h
    · exact absurd h.2.1 (by decide)
    · rw [← henc]; exact h.2.2.2.2
    · exact absurd h.2.2.2.1 (by decide)
  · by_cases hb : b = []
    · subst hb
      unfold KDSoapValue.writeText
      simp [htext, toBase64, fromLatin1]
      intro _
      rfl
    · rw [if_neg hb, ← htext]
      apply writeText_of_text v hnull
      rw [htext, isEmpty_eq_decide]
      have : fromLatin1 (toBase64 b) ≠ "" := by
        intro h
        have h2 : toBase64 b = [] := congrArg String.data h
        exact hb ((toBase64_eq_nil_iff b).mp h2)
      simpa using this
  · rw [htext]
    exact fromBase64_toBase64 b
  · intro hb h
    rw [htext] at h
    exact toBase64_ne_toHex b hb (congrArg String.data h)

/-- C35 (witness): the three bytes 1, 2, 3 with no type set are given the type
`xsd:base64Binary` and the text `AQID`. -/
theorem writeElementContents_binary_witness :
    (KDSoapValue.ofVariant "data" (.qbytearray [1, 2, 3]) "" "").encodedType examplePrefixes
      = "xsd:base64Binary" ∧
    variantToTextValue (KDSoapValue.ofVariant "data" (.qbytearray [1, 2, 3]) "" "").value
      (KDSoapValue.ofVariant "data" (.qbytearray [1, 2, 3]) "" "").typeNs
      (KDSoapValue.ofVariant "data" (.qbytearray [1, 2, 3]) "" "").type
      = fromLatin1 (toBase64 [1, 2, 3]) ∧
    fromLatin1 (toBase64 [1, 2, 3]) = "AQID" :=
  ⟨(writeElementContents_binary examplePrefixes ""
      (KDSoapValue.ofVariant "data" (.qbytearray [1, 2, 3]) "" "") [1, 2, 3] rfl rfl).1,
    (writeElementContents_binary examplePrefixes ""
      (KDSoapValue.ofVariant "data" (.qbytearray [1, 2, 3]) "" "") [1, 2, 3]
      rfl rfl).2.2.2.1,
    by decide⟩

/-- C36 (counterexample): the 64-bit value 4294967296 with no type set is given the
inferred type `xsd:int`, and its text `4294967296` denotes a number outside
-2^31 .. 2^31-1. -/
theorem variantToXMLType_range_counterexample :
    holdsInteger (.longlong 4294967296) 4294967296 = true ∧
    variantToXMLType (.longlong 4294967296) = "xsd:int" ∧
    variantToTextValue (.longlong 4294967296) "" "" = "4294967296" ∧
    parseDecimal (variantToTextValue (.longlong 4294967296) "" "") = some 4294967296 ∧
    inValueSpace (variantToXMLType (.longlong 4294967296)) 4294967296 = false := by
  refine ⟨by decide, rfl, ?_, ?_, by decide⟩
  · simp only [variantToTextValue, QVariant.toLongLong]
    rw [wrapS64_of_range _ (by decide) (by decide)]
    simp [number, natDigits, digitChar]
  · simp only [variantToTextValue, QVariant.toLongLong]
    rw [wrapS64_of_range _ (by decide) (by decide)]
    exact parseDecimal_number _


/-- C36 (amended): for every integer value with no type set, the text produced by
`variantToTextValue` denotes exactly the number held; that number lies in the value space
of the type inferred by `variantToXMLType` for every value of kind Int, for a value of
kind LongLong or UInt (inferred `xsd:int`) exactly when it lies within -2^31 .. 2^31-1,
and for a value of kind ULongLong (inferred `xsd:unsignedInt`) exactly when it is at most
2^32-1. -/
theorem variantToXMLType_range (value : QVariant) (n : Int)
    (h : holdsInteger value n = true) :
    parseDecimal (variantToTextValue value "" "") = some n ∧
    ((∃ k, value = .int k) →
      variantToXMLType value = "xsd:int" ∧
      inValueSpace (variantToXMLType value) n = true) ∧
    ((∃ k, value = .longlong k) →
      variantToXMLType value = "xsd:int" ∧
      (inValueSpace (variantToXMLType value) n = true ↔
        -2147483648 ≤ n ∧ n ≤ 2147483647)) ∧
    ((∃ k, value = .uint k) →
      variantToXMLType value = "xsd:int" ∧
      (inValueSpace (variantToXMLType value) n = true ↔ n ≤ 2147483647)) ∧
    ((∃ k, value = .ulonglong k) →
      variantToXMLType value = "xsd:unsignedInt" ∧
      (inValueSpace (variantToXMLType value) n = true ↔ n ≤ 4294967295)) := by
  cases value with
  | int k =>
    simp only [holdsInteger, decide_eq_true_eq] at h
    obtain ⟨rfl, h1, h2⟩ := h
    refine ⟨?_, ?_, ?_, ?_, ?_⟩
    · simp only [variantToTextValue, QVariant.toLongLong]
      rw [wrapS64_of_range _ (by omega) (by omega)]
      exact parseDecimal_number _
    · intro _
      refine ⟨rfl, ?_⟩
      simp [variantToXMLType, inValueSpace, h1, h2]
    · rintro ⟨k', hk⟩; cases hk
    · rintro ⟨k', hk⟩; cases hk
    · rintro ⟨k', hk⟩; cases hk
  | longlong k =>
    simp only [holdsInteger, decide_eq_true_eq] at h
    obtain ⟨rfl, h1, h2⟩ := h
    refine ⟨?_, ?_, ?_, ?_, ?_⟩
    · simp only [variantToTextValue, QVariant.toLongLong]
      rw [wrapS64_of_range _ (by omega) (by omega)]
      exact parseDecimal_number _
    · rintro ⟨k', hk⟩; cases hk
    · intro _
      refine ⟨rfl, ?_⟩
      simp [variantToXMLType, inValueSpace]
    · rintro ⟨k', hk⟩; cases hk
    · rintro ⟨k', hk⟩; cases hk
  | uint k =>
    simp only [holdsInteger, decide_eq_true_eq] at h
    obtain ⟨rfl, h2⟩ := h
    refine ⟨?_, ?_, ?_, ?_, ?_⟩
    · simp only [variantToTextValue, QVariant.toLongLong]
      rw [wrapS64_of_range _ (by omega) (by omega)]
      exact parseDecimal_number _
    · rintro ⟨k', hk⟩; cases hk
    · rintro ⟨k', hk⟩; cases hk
    · intro _
      refine ⟨rfl, ?_⟩
      simp only [variantToXMLType, inValueSpace, if_true, decide_eq_true_eq]
      omega
    · rintro ⟨k', hk⟩; cases hk
  | ulonglong k =>
    simp only [holdsInteger, decide_eq_true_eq] at h
    obtain ⟨rfl, h2⟩ := h
    refine ⟨?_, ?_, ?_, ?_, ?_⟩
    · simp only [variantToTextValue, QVariant.toULongLong]
      rw [wrapU64_of_range _ h2]
      have := parseDecimal_number (k : Int)
      simpa [number] using this
    · rintro ⟨k', hk⟩; cases hk
    · rintro ⟨k', hk⟩; cases hk
    · rintro ⟨k', hk⟩; cases hk
    · intro _
      refine ⟨rfl, ?_⟩
      simp only [variantToXMLType, inValueSpace]
      simp
  | _ => simp [holdsInteger] at h

/-- C36 (witness): the unsigned 32-bit value 7 is written as `7` with the inferred type
`xsd:int`. -/
theorem variantToXMLType_range_witness :
    holdsInteger (.uint 7) 7 = true ∧
    parseDecimal (variantToTextValue (.uint 7) "" "") = some 7 ∧
    inValueSpace (variantToXMLType (.uint 7)) 7 = true :=
  ⟨by decide, (variantToXMLType_range (.uint 7) 7 (by decide)).1,
    ((variantToXMLType_range (.uint 7) 7 (by decide)).2.2.2.1 ⟨7, rfl⟩).2.mpr (by decide)⟩

/-! ## Tokens of `split` -/

theorem splitLoop_tokens (isSep : Char → Bool) (cs : List Char) :
    ∀ cur : List Char, (∀ c ∈ cur, isSep c = false) →
      ∀ t ∈ splitLoop isSep cs cur, t ≠ "" ∧ ∀ c ∈ t.data, isSep c = false := by
  induction cs with
  | nil =>
    intro cur hcur t ht
    unfold splitLoop at ht
    cases cur with
    | nil => simp at ht
    | cons x xs =>
      simp only [List.isEmpty_cons, Bool.false_eq_true, if_false, List.mem_singleton] at ht
      subst ht
      refine ⟨?_, ?_⟩
      · intro h
        have := congrArg String.data h
        simp at this
      · intro c hc
        exact hcur c (List.mem_reverse.mp hc)
  | cons c cs ih =>
    intro cur hcur t ht
    unfold splitLoop at ht
    by_cases hsep : isSep c = true
    · rw [if_pos hsep] at ht
      cases cur with
      | nil =>
        simp only [List.isEmpty_nil, if_true] at ht
        exact ih [] (by simp) t ht
      | cons x xs =>
        simp only [List.isEmpty_cons, Bool.false_eq_true, if_false, List.mem_cons] at ht
        rcases ht with rfl | ht
        · refine ⟨?_, ?_⟩
          · intro h
            have := congrArg String.data h
            simp at this
          · intro c' hc
            exact hcur c' (List.mem_reverse.mp hc)
        · exact ih [] (by simp) t ht
    · rw [if_neg hsep] at ht
      apply ih (c :: cur) _ t ht
      intro c' hc'
      rcases List.mem_cons.mp hc' with rfl | h
      · simpa using hsep
      · exact hcur c' h

theorem splitLoop_length (isSep : Char → Bool) (cs : List Char) :
    ∀ cur : List Char, (splitLoop isSep cs cur).length
      = countRunsFrom isSep (!cur.isEmpty) cs + (if cur.isEmpty then 0 else 1) := by
  induction cs with
  | nil =>
    intro cur
    unfold splitLoop countRunsFrom
    cases cur <;> simp
  | cons c cs ih =>
    intro cur
    unfold splitLoop countRunsFrom
    by_cases hsep : isSep c = true
    · rw [if_pos hsep, if_pos hsep]
      cases cur with
      | nil => simp [ih]
      | cons x xs => simp [ih]
    · rw [if_neg hsep, if_neg hsep, ih]
      cases cur <;> simp
      omega

theorem splitLoop_all_sep (isSep : Char → Bool) (cs : List Char)
    (h : ∀ c ∈ cs, isSep c = true) : splitLoop isSep cs [] = [] := by
  induction cs with
  | nil => rfl
  | cons c cs ih =>
    unfold splitLoop
    rw [if_pos (h c (List.mem_cons_self _ _))]
    simp only [List.isEmpty_nil, if_true]
    exact ih (fun c' hc' => h c' (List.mem_cons_of_mem _ hc'))

/-- C37: every value returned by `split` has a non-empty text that contains no space
character, the number of returned values equals the number of maximal runs of non-space
characters in the parent's text, and a parent whose value is null, or whose text is empty
or made only of spaces, yields no value. -/
theorem split_runs (v : KDSoapValue) :
    (∀ x ∈ v.split.items,
      variantToTextValue x.value x.typeNs x.type ≠ "" ∧
      ' ' ∉ (variantToTextValue x.value x.typeNs x.type).data ∧
      x.value.toString = variantToTextValue x.value x.typeNs x.type) ∧
    v.split.items.length = countRuns v.value.toString ∧
    v.split.count = countRuns v.value.toString ∧
    (v.value.isNull = true → v.split.items = []) ∧
    (v.value.toString = "" → v.split.items = []) ∧
    ((∀ c ∈ v.value.toString.data, c = ' ') → v.split.items = []) := by
  have hall : (∀ c ∈ v.value.toString.data, c = ' ') → v.split.items = [] := by
    intro h
    rw [split_items]
    unfold splitSkipEmpty
    rw [splitLoop_all_sep _ _ (by intro c hc; simp [h c hc])]
    rfl
  have hlen : v.split.items.length = countRuns v.value.toString := by
    rw [split_items, List.length_map]
    unfold splitSkipEmpty countRuns
    rw [splitLoop_length]
    simp
  refine ⟨?_, hlen, ?_, ?_, ?_, hall⟩
  · intro x hx
    rw [split_items, List.mem_map] at hx
    obtain ⟨part, hpart, rfl⟩ := hx
    have hval := (setValue_fields v (.qstring part)).1
    have htok := splitLoop_tokens _ _ [] (by simp) part hpart
    have htext : variantToTextValue (v.setValue (.qstring part)).value
        (v.setValue (.qstring part)).typeNs (v.setValue (.qstring part)).type = part := by
      rw [hval]
      rfl
    rw [htext, hval]
    refine ⟨htok.1, ?_, rfl⟩
    intro hmem
    have := htok.2 ' ' hmem
    simp at this
  · rw [← hlen]
    cases h : v.split with
    | mk items attrs arr => rfl
  · intro hnull
    apply hall
    cases hv : v.value <;> simp [hv, QVariant.isNull] at hnull
    simp [QVariant.toString]
  · intro hempty
    apply hall
    rw [hempty]
    simp

/-! ## What `split` leaves unchanged -/

theorem foldl_append_frame (f : String → KDSoapValue) (parts : List String) :
    ∀ l : KDSoapValueList,
      (parts.foldl (fun valueList part => valueList.append (f part)) l).attributes
          = l.attributes ∧
      (parts.foldl (fun valueList part => valueList.append (f part)) l).arrayType
          = l.arrayType ∧
      (parts.foldl (fun valueList part => valueList.append (f part)) l).arrayTypeNs
          = l.arrayTypeNs := by
  induction parts with
  | nil => intro l; exact ⟨rfl, rfl, rfl⟩
  | cons p ps ih =>
    intro l
    rw [List.foldl_cons]
    obtain ⟨h1, h2, h3⟩ := ih (l.append (f p))
    rw [h1, h2, h3]
    cases l
    exact ⟨rfl, rfl, rfl⟩

theorem setValue_frame (v : KDSoapValue) (value : QVariant) :
    (v.setValue value).name = v.name ∧
    (v.setValue value).namespaceUri = v.namespaceUri ∧
    (v.setValue value).typeNs = v.typeNs ∧
    (v.setValue value).type = v.type ∧
    (v.setValue value).isQualified = v.isQualified ∧
    (v.setValue value).nillable = v.nillable ∧
    (v.setValue value).childValues = v.childValues ∧
    (v.setValue value).namespaceDeclarations = v.namespaceDeclarations ∧
    (v.setValue value).environmentNamespaceDeclarations
      = v.environmentNamespaceDeclarations ∧
    (v.setValue value).setValue v.value = v := by
  cases v
  exact ⟨rfl, rfl, rfl, rfl, rfl, rfl, rfl, rfl, rfl, rfl⟩

/-- C38: each value returned by `split` holds one part of the text as a string and equals
the parent in every other field: name, element namespace, type namespace and type name,
qualified and nillable flags, child values with their attributes, local and environment
namespace declarations, so that putting the parent's value back gives the parent; the
returned list has no attribute and declares no array type.  The parent is the argument of
the function and is not modified. -/
theorem split_frame (v : KDSoapValue) :
    (∀ x ∈ v.split.items,
      (∃ part, x.value = .qstring part) ∧
      x.name = v.name ∧ x.namespaceUri = v.namespaceUri ∧
      x.typeNs = v.typeNs ∧ x.type = v.type ∧
      x.isQualified = v.isQualified ∧ x.nillable = v.nillable ∧
      x.childValues = v.childValues ∧
      x.namespaceDeclarations = v.namespaceDeclarations ∧
      x.environmentNamespaceDeclarations = v.environmentNamespaceDeclarations ∧
      x.setValue v.value = v) ∧
    v.split.attributes = [] ∧ v.split.arrayType = "" ∧ v.split.arrayTypeNs = "" := by
  refine ⟨?_, ?_⟩
  · intro x hx
    rw [split_items, List.mem_map] at hx
    obtain ⟨part, _, rfl⟩ := hx
    exact ⟨⟨part, (setValue_fields v _).1⟩, setValue_frame v _⟩
  · unfold KDSoapValue.split
    simp only
    exact foldl_append_frame _ _ KDSoapValueList.empty


/-! ## Nesting of the written events -/

theorem not_tag_of_isAttribute (e : XmlEvent) (h : e.isAttribute = true) :
    e.isStart = false ∧ e.isEnd = false := by
  cases e <;> simp [XmlEvent.isAttribute] at h <;> exact ⟨rfl, rfl⟩

theorem writeOwnAttributes_flat (np : KDSoapNamespacePrefixes) (use : Use) (v : KDSoapValue) :
    ∀ e ∈ v.writeOwnAttributes np use, e.isStart = false ∧ e.isEnd = false :=
  fun e he => not_tag_of_isAttribute e (isAttribute_of_mem_writeOwnAttributes np use v e he)

theorem writeAttributes_flat (fq : Bool) (l : List KDSoapValue) :
    ∀ e ∈ writeAttributes fq l, e.isStart = false ∧ e.isEnd = false :=
  fun e he => not_tag_of_isAttribute e (isAttribute_of_mem_writeAttributes fq l e he)

theorem writeText_cases (v : KDSoapValue) :
    (v.writeText = [] ∧
      (v.value.isNull = true ∨ variantToTextValue v.value v.typeNs v.type = "")) ∨
    (v.writeText = [XmlEvent.Characters (variantToTextValue v.value v.typeNs v.type)] ∧
      v.value.isNull = false ∧ variantToTextValue v.value v.typeNs v.type ≠ "") := by
  unfold KDSoapValue.writeText
  simp only [isEmpty_eq_decide]
  cases hn : v.value.isNull
  · by_cases ht : variantToTextValue v.value v.typeNs v.type = ""
    · left; simp [ht]
    · right; simp [ht]
  · left; simp

theorem writeText_flat (v : KDSoapValue) :
    ∀ e ∈ v.writeText, e.isStart = false ∧ e.isEnd = false := by
  intro e he
  rcases writeText_cases v with ⟨h, _⟩ | ⟨h, _⟩
  · rw [h] at he; simp at he
  · rw [h, List.mem_singleton] at he
    subst he
    exact ⟨rfl, rfl⟩

theorem startElement_isStart (m : String) (fq : Bool) (v : KDSoapValue) :
    (v.startElement m fq).isStart = true := by
  rcases startElement_cases m fq v with h | h <;> rw [h] <;> rfl

theorem balancedFrom_start (d : Nat) (e : XmlEvent) (es : List XmlEvent)
    (h : e.isStart = true) : balancedFrom d (e :: es) = balancedFrom (d + 1) es := by
  cases d <;> simp [balancedFrom, h]

theorem balancedFrom_end (d : Nat) (es : List XmlEvent) :
    balancedFrom (d + 1) (XmlEvent.EndElement :: es) = balancedFrom d es := by
  simp [balancedFrom, XmlEvent.isStart, XmlEvent.isEnd]

theorem balancedFrom_other (d : Nat) (e : XmlEvent) (es : List XmlEvent)
    (h1 : e.isStart = false) (h2 : e.isEnd = false) :
    balancedFrom d (e :: es) = balancedFrom d es := by
  cases d <;> simp [balancedFrom, h1, h2]

theorem ownEventsFrom_start (d : Nat) (e : XmlEvent) (es : List XmlEvent)
    (h : e.isStart = true) : ownEventsFrom d (e :: es) = ownEventsFrom (d + 1) es := by
  simp [ownEventsFrom, h]

theorem ownEventsFrom_end (d : Nat) (es : List XmlEvent) :
    ownEventsFrom (d + 1) (XmlEvent.EndElement :: es) = ownEventsFrom d es := by
  simp [ownEventsFrom, XmlEvent.isStart, XmlEvent.isEnd]

theorem ownEventsFrom_other (d : Nat) (e : XmlEvent) (es : List XmlEvent)
    (h1 : e.isStart = false) (h2 : e.isEnd = false) :
    ownEventsFrom d (e :: es) = (if d = 0 then [e] else []) ++ ownEventsFrom d es := by
  by_cases hd : d = 0 <;> simp [ownEventsFrom, h1, h2, hd]

theorem balancedFrom_flat_append (xs : List XmlEvent)
    (h : ∀ e ∈ xs, e.isStart = false ∧ e.isEnd = false) (d : Nat) (ys : List XmlEvent) :
    balancedFrom d (xs ++ ys) = balancedFrom d ys := by
  induction xs with
  | nil => rfl
  | cons x xs ih =>
    have hx := h x (List.mem_cons_self _ _)
    rw [List.cons_append, balancedFrom_other _ _ _ hx.1 hx.2]
    exact ih (fun e he => h e (List.mem_cons_of_mem _ he))

theorem ownEventsFrom_flat_append (xs : List XmlEvent)
    (h : ∀ e ∈ xs, e.isStart = false ∧ e.isEnd = false) (d : Nat) (ys : List XmlEvent) :
    ownEventsFrom d (xs ++ ys) = (if d = 0 then xs else []) ++ ownEventsFrom d ys := by
  induction xs with
  | nil => simp
  | cons x xs ih =>
    have hx := h x (List.mem_cons_self _ _)
    rw [List.cons_append, ownEventsFrom_other _ _ _ hx.1 hx.2,
      ih (fun e he => h e (List.mem_cons_of_mem _ he))]
    by_cases hd : d = 0 <;> simp [hd]

theorem neutralBlock_flatMap {α : Type} (f : α → List XmlEvent) (l : List α)
    (h : ∀ x ∈ l, ∀ (d : Nat) (ys : List XmlEvent),
      balancedFrom d (f x ++ ys) = balancedFrom d ys ∧
      ownEventsFrom d (f x ++ ys) = ownEventsFrom d ys) :
    ∀ (d : Nat) (ys : List XmlEvent),
      balancedFrom d (l.flatMap f ++ ys) = balancedFrom d ys ∧
      ownEventsFrom d (l.flatMap f ++ ys) = ownEventsFrom d ys := by
  induction l with
  | nil => intro d ys; exact ⟨rfl, rfl⟩
  | cons x xs ih =>
    intro d ys
    have hx := h x (List.mem_cons_self _ _)
    have hxs := ih (fun y hy => h y (List.mem_cons_of_mem _ hy))
    rw [List.flatMap_cons, List.append_assoc]
    exact ⟨(hx d _).1.trans (hxs d ys).1, (hx d _).2.trans (hxs d ys).2⟩

theorem writeElementContents_parts (np : KDSoapNamespacePrefixes) (use : Use) (m : String)
    (v : KDSoapValue) :
    v.writeElementContents np use m =
      (v.writeOwnAttributes np use ++ writeAttributes false v.childValues.attributes)
      ++ (v.childValues.items.flatMap (fun c => c.writeElement np use m false)
      ++ v.writeText) := by
  rw [writeElementContents_eq, writeChildren_eq, writeElements_eq_flatMap]
  simp only [List.append_assoc]

theorem leading_flat (np : KDSoapNamespacePrefixes) (use : Use) (v : KDSoapValue) :
    ∀ e ∈ v.writeOwnAttributes np use ++ writeAttributes false v.childValues.attributes,
      e.isStart = false ∧ e.isEnd = false := by
  intro e he
  rcases List.mem_append.mp he with h | h
  · exact writeOwnAttributes_flat np use v e h
  · exact writeAttributes_flat false _ e h

theorem writeElement_neutral (np : KDSoapNamespacePrefixes) (use : Use) (m : String)
    (v : KDSoapValue) : ∀ (fq : Bool) (d : Nat) (ys : List XmlEvent),
      balancedFrom d (v.writeElement np use m fq ++ ys) = balancedFrom d ys ∧
      ownEventsFrom d (v.writeElement np use m fq ++ ys) = ownEventsFrom d ys := by
  induction v using KDSoapValue.induct with
  | h v ih =>
    intro fq d ys
    have hkids := neutralBlock_flatMap (fun c => c.writeElement np use m false)
      v.childValues.items (fun c hc => ih c hc false)
    rw [writeElement_eq, writeElementContents_parts]
    simp only [List.append_assoc, List.singleton_append, List.cons_append, List.nil_append]
    constructor
    · rw [balancedFrom_start _ _ _ (startElement_isStart m fq v),
        ← List.append_assoc (v.writeOwnAttributes np use),
        balancedFrom_flat_append _ (leading_flat np use v), (hkids _ _).1,
        balancedFrom_flat_append _ (writeText_flat v), balancedFrom_end]
    · rw [ownEventsFrom_start _ _ _ (startElement_isStart m fq v),
        ← List.append_assoc (v.writeOwnAttributes np use),
        ownEventsFrom_flat_append _ (leading_flat np use v), (hkids _ _).2,
        ownEventsFrom_flat_append _ (writeText_flat v), ownEventsFrom_end]
      simp

theorem ownEvents_writeElementContents (np : KDSoapNamespacePrefixes) (use : Use)
    (m : String) (v : KDSoapValue) :
    ownEvents (v.writeElementContents np use m) =
      v.writeOwnAttributes np use ++ writeAttributes false v.childValues.attributes
        ++ v.writeText := by
  have hkids := neutralBlock_flatMap (fun c => c.writeElement np use m false)
    v.childValues.items (fun c _ => writeElement_neutral np use m c false)
  unfold ownEvents
  rw [writeElementContents_parts, ownEventsFrom_flat_append _ (leading_flat np use v),
    (hkids _ _).2]
  have := ownEventsFrom_flat_append _ (writeText_flat v) 0 []
  rw [List.append_nil] at this
  rw [this]
  simp [ownEventsFrom]

theorem balanced_writeElementContents (np : KDSoapNamespacePrefixes) (use : Use)
    (m : String) (v : KDSoapValue) :
    balanced (v.writeElementContents np use m) = true := by
  have hkids := neutralBlock_flatMap (fun c => c.writeElement np use m false)
    v.childValues.items (fun c _ => writeElement_neutral np use m c false)
  unfold balanced
  rw [writeElementContents_parts, balancedFrom_flat_append _ (leading_flat np use v),
    (hkids _ _).1]
  have := balancedFrom_flat_append _ (writeText_flat v) 0 []
  rw [List.append_nil] at this
  rw [this]
  rfl

/-! ## Element nodes and the name assertion -/

theorem mem_elements_self (v : KDSoapValue) : v ∈ v.elements := by
  rw [elements_eq]
  exact List.mem_cons_self _ _

theorem mem_elements_of_child (v c : KDSoapValue) (hc : c ∈ v.childValues.items) :
    c ∈ v.elements := by
  rw [elements_eq]
  exact List.mem_cons_of_mem _ ((mem_elementsOf _ c).mpr ⟨c, hc, mem_elements_self c⟩)

theorem mem_elements_trans (v : KDSoapValue) :
    ∀ w x : KDSoapValue, w ∈ v.elements → x ∈ w.elements → x ∈ v.elements := by
  induction v using KDSoapValue.induct with
  | h v ih =>
    intro w x hw hx
    rw [elements_eq, List.mem_cons] at hw
    rcases hw with rfl | hw
    · exact hx
    · obtain ⟨c, hc, hwc⟩ := (mem_elementsOf _ w).mp hw
      rw [elements_eq]
      exact List.mem_cons_of_mem _ ((mem_elementsOf _ x).mpr ⟨c, hc, ih c hc w x hwc hx⟩)

theorem mem_elements_cases (v : KDSoapValue) :
    ∀ w : KDSoapValue, w ∈ v.elements →
      w = v ∨ ∃ p ∈ v.elements, w ∈ p.childValues.items := by
  induction v using KDSoapValue.induct with
  | h v ih =>
    intro w hw
    rw [elements_eq, List.mem_cons] at hw
    rcases hw with rfl | hw
    · exact Or.inl rfl
    · right
      obtain ⟨c, hc, hwc⟩ := (mem_elementsOf _ w).mp hw
      rcases ih c hc w hwc with rfl | ⟨p, hp, hwp⟩
      · exact ⟨v, mem_elements_self v, hc⟩
      · exact ⟨p, mem_elements_trans v c p (mem_elements_of_child v c hc) hp, hwp⟩

theorem writeElementsAssert_iff (l : List KDSoapValue) :
    writeElementsAssert l = true ↔ ∀ c ∈ l, c.writeElementAsserts = true := by
  induction l with
  | nil => simp [writeElementsAssert]
  | cons x xs ih => simp [writeElementsAssert, ih]

theorem writeElementAsserts_eq (v : KDSoapValue) :
    v.writeElementAsserts = (v.nameAssertion && writeElementsAssert v.childValues.items) := by
  cases v with
  | mk n ns val tns t c q nl e l =>
    cases c with
    | mk i a r => simp [KDSoapValue.writeElementAsserts,
        KDSoapValueList.writeChildrenAsserts, KDSoapValue.nameAssertion, KDSoapValue.name,
        KDSoapValue.childValues, KDSoapValueList.items]

theorem writeElementAsserts_iff (v : KDSoapValue) :
    v.writeElementAsserts = true ↔ ∀ w ∈ v.elements, w.name ≠ "" := by
  induction v using KDSoapValue.induct with
  | h v ih =>
    rw [writeElementAsserts_eq, Bool.and_eq_true, writeElementsAssert_iff]
    have hname : v.nameAssertion = true ↔ v.name ≠ "" := by
      unfold KDSoapValue.nameAssertion
      rw [isEmpty_eq_decide]
      simp
    rw [hname]
    constructor
    · rintro ⟨h1, h2⟩ w hw
      rw [elements_eq, List.mem_cons] at hw
      rcases hw with rfl | hw
      · exact h1
      · obtain ⟨c, hc, hwc⟩ := (mem_elementsOf _ w).mp hw
        exact (ih c hc).mp (h2 c hc) w hwc
    · intro h
      refine ⟨h v (mem_elements_self v), ?_⟩
      intro c hc
      apply (ih c hc).mpr
      intro w hw
      exact h w (mem_elements_trans v c w (mem_elements_of_child v c hc) hw)

/-- C32: the assertions on the element name met during `toXml` all hold exactly when
every element node of the tree has a non-empty name, hence whenever the root and every
element of every child list have a non-empty name; the assertion fails for a
default-constructed value and for every tree that contains a child element with an empty
name. -/
theorem toXml_nameAssertion (v : KDSoapValue) :
    (v.toXmlAsserts = true ↔ ∀ w ∈ v.elements, w.name ≠ "") ∧
    ((v.name ≠ "" ∧ ∀ w ∈ v.elements, ∀ c ∈ w.childValues.items, c.name ≠ "") →
      v.toXmlAsserts = true) ∧
    KDSoapValue.default.toXmlAsserts = false ∧
    (v.name = "" → v.toXmlAsserts = false) ∧
    ((∃ w ∈ v.elements, ∃ c ∈ w.childValues.items, c.name = "") →
      v.toXmlAsserts = false) := by
  unfold KDSoapValue.toXmlAsserts
  refine ⟨writeElementAsserts_iff v, ?_, by decide, ?_, ?_⟩
  · rintro ⟨h1, h2⟩
    apply (writeElementAsserts_iff v).mpr
    intro w hw
    rcases mem_elements_cases v w hw with rfl | ⟨p, hp, hwp⟩
    · exact h1
    · exact h2 p hp w hwp
  · intro h
    cases hb : v.writeElementAsserts with
    | false => rfl
    | true => exact absurd h ((writeElementAsserts_iff v).mp hb v (mem_elements_self v))
  · rintro ⟨w, hw, c, hc, hname⟩
    cases hb : v.writeElementAsserts with
    | false => rfl
    | true =>
      exact absurd hname ((writeElementAsserts_iff v).mp hb c
        (mem_elements_trans v w c hw (mem_elements_of_child w c hc)))


/-! ## Start and end tags of the written elements -/

theorem filter_eq_nil_of_flat_start (xs : List XmlEvent)
    (h : ∀ e ∈ xs, e.isStart = false ∧ e.isEnd = false) :
    xs.filter XmlEvent.isStart = [] := by
  rw [List.filter_eq_nil_iff]
  intro e he
  simp [(h e he).1]

theorem filter_eq_nil_of_flat_end (xs : List XmlEvent)
    (h : ∀ e ∈ xs, e.isStart = false ∧ e.isEnd = false) :
    xs.filter XmlEvent.isEnd = [] := by
  rw [List.filter_eq_nil_iff]
  intro e he
  simp [(h e he).2]

theorem startElement_not_isEnd (m : String) (fq : Bool) (v : KDSoapValue) :
    (v.startElement m fq).isEnd = false := by
  rcases startElement_cases m fq v with h | h <;> rw [h] <;> rfl

theorem filter_flatMap_elementsOf (p : XmlEvent → Bool) (f : KDSoapValue → List XmlEvent)
    (g : KDSoapValue → XmlEvent) (l : List KDSoapValue)
    (h : ∀ c ∈ l, (f c).filter p = c.elements.map g) :
    (l.flatMap f).filter p = (elementsOf l).map g := by
  induction l with
  | nil => simp [elementsOf]
  | cons x xs ih =>
    rw [List.flatMap_cons, List.filter_append, h x (List.mem_cons_self _ _),
      ih (fun c hc => h c (List.mem_cons_of_mem _ hc))]
    simp [elementsOf]

theorem writeElement_starts (np : KDSoapNamespacePrefixes) (use : Use) (m : String)
    (v : KDSoapValue) :
    ∀ fq : Bool, (v.writeElement np use m fq).filter XmlEvent.isStart
      = v.startElement m fq
        :: (elementsOf v.childValues.items).map (fun w => w.startElement m false) := by
  induction v using KDSoapValue.induct with
  | h v ih =>
    intro fq
    have hkids := filter_flatMap_elementsOf XmlEvent.isStart
      (fun c => c.writeElement np use m false) (fun w => w.startElement m false)
      v.childValues.items (fun c hc => by
        simp only
        rw [ih c hc false, elements_eq, List.map_cons])
    have h1 : [v.startElement m fq].filter XmlEvent.isStart = [v.startElement m fq] := by
      simp [startElement_isStart]
    have h2 : [XmlEvent.EndElement].filter XmlEvent.isStart = [] := rfl
    rw [writeElement_eq, writeElementContents_parts]
    simp only [List.filter_append, hkids, h1, h2,
      filter_eq_nil_of_flat_start _ (leading_flat np use v),
      filter_eq_nil_of_flat_start _ (writeText_flat v)]
    simp

theorem writeElement_ends (np : KDSoapNamespacePrefixes) (use : Use) (m : String)
    (v : KDSoapValue) :
    ∀ fq : Bool, (v.writeElement np use m fq).filter XmlEvent.isEnd
      = v.elements.map (fun _ => XmlEvent.EndElement) := by
  induction v using KDSoapValue.induct with
  | h v ih =>
    intro fq
    have hkids := filter_flatMap_elementsOf XmlEvent.isEnd
      (fun c => c.writeElement np use m false) (fun _ => XmlEvent.EndElement)
      v.childValues.items (fun c hc => by
        simp only
        rw [ih c hc false])
    have h1 : [v.startElement m fq].filter XmlEvent.isEnd = [] := by
      simp [startElement_not_isEnd]
    have h2 : [XmlEvent.EndElement].filter XmlEvent.isEnd = [XmlEvent.EndElement] := rfl
    rw [writeElement_eq, writeElementContents_parts]
    simp only [List.filter_append, hkids, h1, h2,
      filter_eq_nil_of_flat_end _ (leading_flat np use v),
      filter_eq_nil_of_flat_end _ (writeText_flat v)]
    rw [elements_eq]
    simp only [List.map_cons, List.map_const', List.nil_append, List.append_nil]
    rw [← List.replicate_succ, List.replicate_succ']

theorem balanced_toXml (np : KDSoapNamespacePrefixes) (use : Use) (m : String)
    (v : KDSoapValue) : balanced (v.toXml np use m) = true := by
  unfold balanced KDSoapValue.toXml
  have hns : ∀ e ∈ np.standardNamespaces.map (fun d => XmlEvent.Namespace d.1 d.2),
      e.isStart = false ∧ e.isEnd = false := by
    intro e he
    obtain ⟨d, _, rfl⟩ := List.mem_map.mp he
    exact ⟨rfl, rfl⟩
  simp only [List.append_assoc, List.singleton_append, List.cons_append, List.nil_append]
  rw [balancedFrom_other 0 XmlEvent.StartDocument _ rfl rfl, balancedFrom_flat_append _ hns,
    (writeElement_neutral np use m v false 0 _).1]
  rfl

/-- C31: for every value tree in which every element node has a non-empty name, no name
assertion fails and `writeElement` (a total function) writes a balanced event sequence:
its start tags are, in order, one per element node of the tree (the root, then the
elements below its child list; attributes are no element nodes), its end tags are as
many; the sequence is the start tag of the value, its contents and its end tag, the
contents are balanced and hold the whole block written for each child. The document
written by `toXml` is balanced as well. -/
theorem writeElement_balanced (np : KDSoapNamespacePrefixes) (use : Use) (m : String)
    (fq : Bool) (v : KDSoapValue) (h : ∀ w ∈ v.elements, w.name ≠ "") :
    v.writeElementAsserts = true ∧
    balanced (v.writeElement np use m fq) = true ∧
    (v.writeElement np use m fq).filter XmlEvent.isStart
      = v.startElement m fq
        :: (elementsOf v.childValues.items).map (fun w => w.startElement m false) ∧
    ((v.writeElement np use m fq).filter XmlEvent.isStart).length = v.elements.length ∧
    (v.writeElement np use m fq).filter XmlEvent.isEnd
      = List.replicate v.elements.length XmlEvent.EndElement ∧
    v.writeElement np use m fq
      = v.startElement m fq :: (v.writeElementContents np use m ++ [XmlEvent.EndElement]) ∧
    balanced (v.writeElementContents np use m) = true ∧
    (∀ c ∈ v.childValues.items,
      c.writeElement np use m false <:+: v.writeElementContents np use m) ∧
    balanced (v.toXml np use m) = true := by
  refine ⟨(writeElementAsserts_iff v).mpr h, ?_, writeElement_starts np use m v fq, ?_, ?_,
    ?_, balanced_writeElementContents np use m v, ?_, balanced_toXml np use m v⟩
  · have := (writeElement_neutral np use m v fq 0 []).1
    rw [List.append_nil] at this
    unfold balanced
    rw [this]
    rfl
  · rw [writeElement_starts, elements_eq]
    simp
  · rw [writeElement_ends, List.map_const']
  · rw [writeElement_eq]
    rfl
  · intro c hc
    obtain ⟨s, t, hst⟩ :=
      infix_flatMap_of_mem (fun c => c.writeElement np use m false) _ c hc
    rw [writeElementContents_parts, ← hst]
    refine ⟨v.writeOwnAttributes np use ++ writeAttributes false v.childValues.attributes
      ++ s, t ++ v.writeText, ?_⟩
    simp only [List.append_assoc]

/-- C31 (witness): the response of the test suite, an element with one child element,
is written as a balanced sequence with two start tags and two end tags. -/
theorem writeElement_balanced_witness :
    (∀ w ∈ exampleResponse.elements, w.name ≠ "") ∧
    balanced (exampleResponse.writeElement examplePrefixes Use.LiteralUse "" false) = true ∧
    ((exampleResponse.writeElement examplePrefixes Use.LiteralUse "" false).filter
      XmlEvent.isStart).length = 2 :=
  ⟨by decide,
    (writeElement_balanced examplePrefixes Use.LiteralUse "" false exampleResponse
      (by decide)).2.1,
    (writeElement_balanced examplePrefixes Use.LiteralUse "" false exampleResponse
      (by decide)).2.2.2.1⟩

/-! ## Qualification of children -/

theorem setQualified_parts (np : KDSoapNamespacePrefixes) (use : Use) (v : KDSoapValue)
    (q : Bool) :
    (v.setQualified q).writeOwnAttributes np use = v.writeOwnAttributes np use ∧
    (v.setQualified q).childValues = v.childValues ∧
    (v.setQualified q).writeText = v.writeText ∧
    (v.setQualified q).isQualified = q ∧
    (v.setQualified q).name = v.name ∧
    (v.setQualified q).namespaceUri = v.namespaceUri := by
  cases v
  exact ⟨rfl, rfl, rfl, rfl, rfl, rfl⟩

theorem startElement_namespaced_iff (m : String) (fq : Bool) (c : KDSoapValue) :
    (∃ ns n, c.startElement m fq = XmlEvent.StartElementNs ns n) ↔
      (c.isQualified = true ∨ fq = true ∨ (c.namespaceUri ≠ "" ∧ c.namespaceUri ≠ m)) := by
  unfold KDSoapValue.startElement
  rw [isEmpty_eq_decide]
  by_cases he : c.namespaceUri = "" <;> by_cases hm : c.namespaceUri = m <;>
    cases hq : c.isQualified <;> cases fq <;> simp [he, hm]

/-- C33: `writeElementContents` passes `forceQualified = false` to `writeChildren`, so
the events written for the attributes and children of an element are the same whether
the qualified flag of the element is set or cleared, and what `writeElement` writes after
the start tag is the same whether it is called with `forceQualified` true or false; the
contents are the element's own attributes, the attribute list written with
`forceQualified = false`, each child written with `forceQualified = false`, and the text.
A child is started with a namespace exactly when its own qualified flag is set or its own
namespace is non-empty and differs from the message namespace, hence only when its
qualified flag is set or its namespace differs from the message namespace; an attribute
is written with a namespace exactly when its own qualified flag is set. -/
theorem writeChildren_not_inherited (np : KDSoapNamespacePrefixes) (use : Use) (m : String)
    (v : KDSoapValue) :
    (∀ q fq, (v.setQualified q).writeChildren np use m fq = v.writeChildren np use m fq) ∧
    (∀ q, (v.setQualified q).writeElementContents np use m
      = v.writeElementContents np use m) ∧
    (∀ q fq fq', ((v.setQualified q).writeElement np use m fq).tail
      = (v.writeElement np use m fq').tail) ∧
    v.writeElementContents np use m
      = v.writeOwnAttributes np use ++ v.writeChildren np use m false ++ v.writeText ∧
    v.writeChildren np use m false
      = writeAttributes false v.childValues.attributes
        ++ v.childValues.items.flatMap (fun c => c.writeElement np use m false) ∧
    (∀ c : KDSoapValue, (∃ ns n, c.startElement m false = XmlEvent.StartElementNs ns n) ↔
      (c.isQualified = true ∨ (c.namespaceUri ≠ "" ∧ c.namespaceUri ≠ m))) ∧
    (∀ c ∈ v.childValues.items, ∀ ns n,
      (c.writeElement np use m false).head? = some (XmlEvent.StartElementNs ns n) →
        c.isQualified = true ∨ c.namespaceUri ≠ m) ∧
    (∀ a : KDSoapValue, (∃ ns n t, writeAttributes false [a] = [XmlEvent.AttributeNs ns n t])
      ↔ a.isQualified = true) := by
  have hchildren : ∀ q fq,
      (v.setQualified q).writeChildren np use m fq = v.writeChildren np use m fq := by
    intro q fq
    rw [writeChildren_eq, writeChildren_eq, (setQualified_parts np use v q).2.1]
  have hcontents : ∀ q, (v.setQualified q).writeElementContents np use m
      = v.writeElementContents np use m := by
    intro q
    rw [writeElementContents_eq, writeElementContents_eq, hchildren,
      (setQualified_parts np use v q).1, (setQualified_parts np use v q).2.2.1]
  have hstart : ∀ c : KDSoapValue,
      (∃ ns n, c.startElement m false = XmlEvent.StartElementNs ns n) ↔
      (c.isQualified = true ∨ (c.namespaceUri ≠ "" ∧ c.namespaceUri ≠ m)) := by
    intro c
    rw [startElement_namespaced_iff]
    simp
  refine ⟨hchildren, hcontents, ?_, writeElementContents_eq np use m v, ?_, hstart, ?_, ?_⟩
  · intro q fq fq'
    rw [writeElement_eq, writeElement_eq, hcontents]
    rfl
  · rw [writeChildren_eq, writeElements_eq_flatMap]
  · intro c _ ns n hhead
    rw [writeElement_eq] at hhead
    simp only [List.singleton_append, List.cons_append, List.head?_cons,
      Option.some.injEq] at hhead
    rcases (hstart c).mp ⟨ns, n, hhead⟩ with h | h
    · exact Or.inl h
    · exact Or.inr h.2
  · intro a
    unfold writeAttributes
    cases hq : a.isQualified <;> simp [hq]

/-! ## The text node of an element -/

theorem mem_writeElement_characters (np : KDSoapNamespacePrefixes) (use : Use) (m : String)
    (v : KDSoapValue) :
    ∀ (fq : Bool) (t : String), XmlEvent.Characters t ∈ v.writeElement np use m fq →
      ∃ w ∈ v.elements, w.value.isNull = false ∧
        t = variantToTextValue w.value w.typeNs w.type ∧ t ≠ "" := by
  induction v using KDSoapValue.induct with
  | h v ih =>
    intro fq t he
    rw [writeElement_eq, writeElementContents_parts] at he
    simp only [List.mem_append, List.mem_singleton, List.mem_flatMap] at he
    rcases he with (he | (he | he) | (⟨c, hc, he⟩ | he)) | he
    · rcases startElement_cases m fq v with h | h <;> rw [h] at he <;> cases he
    · have := isAttribute_of_mem_writeOwnAttributes np use v _ he
      simp [XmlEvent.isAttribute] at this
    · have := isAttribute_of_mem_writeAttributes false _ _ he
      simp [XmlEvent.isAttribute] at this
    · obtain ⟨w, hw, hrest⟩ := ih c hc false t he
      exact ⟨w, mem_elements_trans v c w (mem_elements_of_child v c hc) hw, hrest⟩
    · rcases writeText_cases v with ⟨h, _⟩ | ⟨h, hn, ht⟩
      · rw [h] at he; simp at he
      · rw [h, List.mem_singleton] at he
        cases he
        exact ⟨v, mem_elements_self v, hn, rfl, ht⟩
    · cases he

/-- C34: at the level of the element itself (outside every child element),
`writeElementContents` writes the attributes and then a text node exactly when the value
is non-null and its text is non-empty, the text node then holding that text and being the
last event of the contents; there is at most one such text node, and no empty text node
is written anywhere by `writeElementContents` or by `writeElement`. -/
theorem writeElementContents_text (np : KDSoapNamespacePrefixes) (use : Use) (m : String)
    (v : KDSoapValue) :
    ownEvents (v.writeElementContents np use m)
      = v.writeOwnAttributes np use ++ writeAttributes false v.childValues.attributes
        ++ v.writeText ∧
    (∀ t, XmlEvent.Characters t ∈ ownEvents (v.writeElementContents np use m) ↔
      (v.value.isNull = false ∧ variantToTextValue v.value v.typeNs v.type ≠ "" ∧
        t = variantToTextValue v.value v.typeNs v.type)) ∧
    ((v.value.isNull = false ∧ variantToTextValue v.value v.typeNs v.type ≠ "") →
      (v.writeElementContents np use m).getLast?
        = some (XmlEvent.Characters (variantToTextValue v.value v.typeNs v.type))) ∧
    ((ownEvents (v.writeElementContents np use m)).filter XmlEvent.isCharacters).length ≤ 1 ∧
    XmlEvent.Characters "" ∉ v.writeElementContents np use m ∧
    (∀ fq, XmlEvent.Characters "" ∉ v.writeElement np use m fq) := by
  have hown := ownEvents_writeElementContents np use m v
  have hnochar : ∀ e ∈ v.writeOwnAttributes np use
      ++ writeAttributes false v.childValues.attributes, e.isCharacters = false := by
    intro e he
    have ha : e.isAttribute = true := by
      rcases List.mem_append.mp he with h | h
      · exact isAttribute_of_mem_writeOwnAttributes np use v e h
      · exact isAttribute_of_mem_writeAttributes false _ e h
    cases e <;> simp [XmlEvent.isAttribute] at ha <;> rfl
  have hwhole : ∀ fq, XmlEvent.Characters "" ∉ v.writeElement np use m fq := by
    intro fq he
    obtain ⟨w, _, _, _, hne⟩ := mem_writeElement_characters np use m v fq "" he
    exact hne rfl
  refine ⟨hown, ?_, ?_, ?_, ?_, hwhole⟩
  · intro t
    rw [hown, List.mem_append]
    constructor
    · rintro (he | he)
      · have := hnochar _ he
        simp [XmlEvent.isCharacters] at this
      · rcases writeText_cases v with ⟨h, _⟩ | ⟨h, hn, ht⟩
        · rw [h] at he; simp at he
        · rw [h, List.mem_singleton] at he
          cases he
          exact ⟨hn, ht, rfl⟩
    · rintro ⟨hn, ht, rfl⟩
      right
      rcases writeText_cases v with ⟨_, h | h⟩ | ⟨h, _, _⟩
      · rw [hn] at h; cases h
      · exact absurd h ht
      · rw [h]; exact List.mem_singleton.mpr rfl
  · rintro ⟨hn, ht⟩
    rcases writeText_cases v with ⟨_, h | h⟩ | ⟨h, _, _⟩
    · rw [hn] at h; cases h
    · exact absurd h ht
    · rw [writeElementContents_eq, h, List.getLast?_append]
      rfl
  · rw [hown, List.filter_append, List.length_append,
      List.filter_eq_nil_iff.mpr (fun e he => by simp [hnochar e he])]
    rcases writeText_cases v with ⟨h, _⟩ | ⟨h, _, _⟩ <;> rw [h] <;> simp [XmlEvent.isCharacters]
  · intro he
    apply hwhole false
    rw [writeElement_eq]
    simp only [List.mem_append, List.mem_singleton]
    exact Or.inl (Or.inr he)


/-! ## The chunked request of the test suite -/

theorem hexValue_digitByte (d : Nat) (hd : d < 16) :
    ∀ x ∈ asciiBytes (String.mk [digitChar d]), hexValue x.val = some d := by
  interval_cases d <;> simp [asciiBytes, toLatin1, digitChar, hexValue] <;> decide

theorem asciiBytes_map (cs : List Char) :
    asciiBytes (String.mk cs) = cs.flatMap (fun c => asciiBytes (String.mk [c])) := by
  unfold asciiBytes toLatin1
  induction cs with
  | nil => rfl
  | cons c cs ih => simp at ih ⊢; exact ih

theorem asciiBytes_length (cs : List Char) : (asciiBytes (String.mk cs)).length = cs.length := by
  unfold asciiBytes toLatin1
  simp

theorem readHex_fold (ds : List Nat) (h : ∀ d ∈ ds, d < 16) :
    (asciiBytes (String.mk (ds.reverse.map digitChar))).foldl
      (fun acc x => acc.bind (fun a => (hexValue x.val).map (fun d => 16 * a + d))) (some 0)
      = some (Nat.ofDigits 16 ds) := by
  induction ds with
  | nil => rfl
  | cons d ds ih =>
    have hd : d < 16 := h d (List.mem_cons_self _ _)
    have ht : ∀ x ∈ ds, x < 16 := fun x hx => h x (List.mem_cons_of_mem _ hx)
    have hone : ∀ a : Nat, (asciiBytes (String.mk [digitChar d])).foldl
        (fun acc x => acc.bind (fun a => (hexValue x.val).map (fun d => 16 * a + d))) (some a)
        = some (16 * a + d) := by
      intro a
      have hx := hexValue_digitByte d hd
      have hl := asciiBytes_length [digitChar d]
      match hb : asciiBytes (String.mk [digitChar d]), hl with
      | [x], _ =>
        rw [hb] at hx
        simp [hx x (List.mem_singleton.mpr rfl)]
    rw [asciiBytes_map] at ih ⊢
    simp only [List.reverse_cons, List.map_append, List.flatMap_append, List.foldl_append,
      ih ht, List.map_cons, List.map_nil, List.flatMap_cons, List.flatMap_nil,
      List.append_nil, hone, Nat.ofDigits_cons]
    congr 1
    ring

theorem readHex_numberHex (n : Nat) : readHex (numberHex n) = some n := by
  unfold readHex numberHex
  by_cases hn : n = 0
  · subst hn; decide
  · rw [if_neg hn]
    have hne : asciiBytes (String.mk ((Nat.digits 16 n).reverse.map digitChar)) ≠ [] := by
      intro h
      have := congrArg List.length h
      rw [asciiBytes_length] at this
      simp only [List.length_map, List.length_reverse, List.length_nil] at this
      exact Nat.digits_ne_nil_iff_ne_zero.mpr hn (List.length_eq_zero.mp this)
    rw [if_neg hne, readHex_fold _ (fun d hd => Nat.digits_lt_base (by norm_num) hd),
      Nat.ofDigits_digits]

theorem numberHex_length (n : Nat) (h : n < 4294967296) :
    1 ≤ (numberHex n).length ∧ (numberHex n).length ≤ 8 := by
  unfold numberHex
  rw [asciiBytes_length]
  split
  · simp
  · rename_i hn
    simp only [List.length_map, List.length_reverse]
    have h0 : Nat.digits 16 n ≠ [] := by simp [Nat.digits_ne_nil_iff_ne_zero, hn]
    have h1 := Nat.base_pow_length_digits_le 16 n (by norm_num) hn
    have h2 : 16 ^ (Nat.digits 16 n).length < 16 ^ 9 := by
      calc 16 ^ (Nat.digits 16 n).length ≤ 16 * n := h1
        _ < 16 ^ 9 := by norm_num; omega
    have h3 := (Nat.pow_lt_pow_iff_right (by norm_num : 1 < 16)).mp h2
    have h4 : 0 < (Nat.digits 16 n).length := List.length_pos.mpr h0
    omega

theorem mid_length (b : Bytes) (pos len : Nat) :
    (mid b pos len).length = min len (b.length - pos) := by
  unfold mid
  simp

theorem mid_append_drop (b : Bytes) (pos len : Nat) :
    mid b pos len ++ b.drop (pos + len) = b.drop pos := by
  unfold mid
  rw [← List.drop_drop, List.take_append_drop]

theorem fragmentLoop_spec (messagePart : Bytes) (fragmentSize : Nat) (hf : 1 ≤ fragmentSize)
    (hfi : fragmentSize ≤ intMax) (hb : 2 * messagePart.length ≤ intMax + 1) :
    ∀ fuel i : Nat, (i = 0 ∨ fragmentSize ≤ i) → messagePart.length - i < fuel →
      ∃ fragments : List Bytes,
        fragmentLoop messagePart fragmentSize fuel i = some fragments ∧
        fragments.flatten = messagePart.drop i ∧
        ∀ w ∈ fragments, w ≠ [] ∧ w.length ≤ fragmentSize := by
  intro fuel
  induction fuel with
  | zero => intro i _ h; omega
  | succ fuel ih =>
    intro i hinv h
    unfold fragmentLoop
    by_cases hi : i < messagePart.length
    · rw [if_pos hi, if_pos (by omega)]
      obtain ⟨rest, hrest, hflat, hne⟩ := ih (i + fragmentSize) (by omega) (by omega)
      refine ⟨mid messagePart i fragmentSize :: rest, by rw [hrest]; rfl, ?_, ?_⟩
      · rw [List.flatten_cons, hflat, mid_append_drop]
      · intro w hw
        rcases List.mem_cons.mp hw with rfl | hw
        · refine ⟨?_, by rw [mid_length]; omega⟩
          intro hnil
          have := congrArg List.length hnil
          rw [mid_length] at this
          simp only [List.length_nil] at this
          omega
        · exact hne w hw
    · rw [if_neg hi]
      refine ⟨[], rfl, by rw [List.drop_eq_nil_of_le (by omega)]; rfl, ?_⟩
      intro w hw
      cases hw

theorem fragmentLoop_zero_step (messagePart : Bytes) (hne : messagePart ≠ []) :
    ∀ fuel : Nat, fragmentLoop messagePart 0 fuel 0 = none := by
  have hpos : 0 < messagePart.length := List.length_pos.mpr hne
  intro fuel
  induction fuel with
  | zero => rfl
  | succ fuel ih =>
    unfold fragmentLoop
    rw [if_pos hpos, if_pos (by decide)]
    simp only [Nat.add_zero]
    rw [ih]
    rfl

theorem chunkLoop_spec (message : Bytes) (chunkSize innerFuel : Nat) (hc : 5 ≤ chunkSize)
    (hci : chunkSize ≤ intMax) (hm : message.length ≤ 1073741811)
    (hinner : message.length + 12 < innerFuel) :
    ∀ fuel pos : Nat, (pos = 0 ∨ chunkSize ≤ pos) → message.length - pos < fuel →
      ∃ (writes : List Bytes) (chunks : List Bytes),
        chunkLoop message chunkSize innerFuel fuel pos = some writes ∧
        writes.flatten
          = chunks.flatMap (fun c => numberHex c.length ++ crlf ++ c ++ crlf) ∧
        chunks.flatten = message.drop pos ∧
        (∀ c ∈ chunks, c ≠ [] ∧ c.length ≤ chunkSize) ∧
        (∀ w ∈ writes, w ≠ [] ∧ w.length ≤ chunkSize / 5) := by
  have hmax : intMax = 2147483647 := rfl
  intro fuel
  induction fuel with
  | zero => intro pos _ h; omega
  | succ fuel ih =>
    intro pos hinv h
    unfold chunkLoop
    by_cases hp : pos < message.length
    · rw [if_pos hp]
      simp only
      have hlen := mid_length message pos chunkSize
      have hhex := numberHex_length (mid message pos chunkSize).length (by omega)
      have hcrlf : crlf.length = 2 := by decide
      have hpart : (numberHex (mid message pos chunkSize).length ++ crlf
          ++ mid message pos chunkSize ++ crlf).length
          = (numberHex (mid message pos chunkSize).length).length
            + (mid message pos chunkSize).length + 4 := by
        simp only [List.length_append, hcrlf]
        omega
      have hdiv : chunkSize / 5 ≤ chunkSize := Nat.div_le_self _ _
      have hdiv1 : 1 ≤ chunkSize / 5 := by omega
      obtain ⟨fragments, hfr, hflat, hne⟩ := fragmentLoop_spec
        (numberHex (mid message pos chunkSize).length ++ crlf
          ++ mid message pos chunkSize ++ crlf) (chunkSize / 5) hdiv1 (by omega)
        (by rw [hpart]; omega) innerFuel 0 (Or.inl rfl) (by rw [hpart]; omega)
      obtain ⟨rest, chunks, hrest, hrflat, hchunks, hcs, hws⟩ :=
        ih (pos + chunkSize) (by omega) (by omega)
      rw [hfr]
      simp only
      rw [if_pos (by omega), hrest]
      refine ⟨fragments ++ rest, mid message pos chunkSize :: chunks, rfl, ?_, ?_, ?_, ?_⟩
      · rw [List.flatten_append, hflat, hrflat, List.drop_zero, List.flatMap_cons]
      · rw [List.flatten_cons, hchunks, mid_append_drop]
      · intro c hcm
        rcases List.mem_cons.mp hcm with rfl | hcm
        · refine ⟨?_, by omega⟩
          intro hnil
          have := congrArg List.length hnil
          rw [hlen] at this
          simp only [List.length_nil] at this
          omega
        · exact hcs c hcm
      · intro w hw
        rcases List.mem_append.mp hw with hw | hw
        · exact hne w hw
        · exact hws w hw
    · rw [if_neg hp]
      refine ⟨[], [], rfl, rfl, ?_, ?_, ?_⟩
      · rw [List.drop_eq_nil_of_le (by omega)]
        rfl
      · intro c hcm
        cases hcm
      · intro w hw
        cases hw

theorem chunkLoop_overflow (message : Bytes) (chunkSize innerFuel : Nat)
    (h1 : chunkSize < message.length) (h2 : intMax < chunkSize + chunkSize) :
    ∀ fuel : Nat, chunkLoop message chunkSize innerFuel fuel 0 = none := by
  have hsecond : ∀ fuel : Nat,
      chunkLoop message chunkSize innerFuel fuel (0 + chunkSize) = none := by
    intro fuel
    cases fuel with
    | zero => rfl
    | succ fuel =>
      unfold chunkLoop
      rw [if_pos (by omega)]
      simp only
      cases fragmentLoop (numberHex (mid message (0 + chunkSize) chunkSize).length ++ crlf
          ++ mid message (0 + chunkSize) chunkSize ++ crlf) (chunkSize / 5) innerFuel 0 with
      | none => rfl
      | some fragments =>
        simp only
        rw [if_neg (by omega)]
  intro fuel
  cases fuel with
  | zero => rfl
  | succ fuel =>
    unfold chunkLoop
    rw [if_pos (by omega)]
    simp only
    cases fragmentLoop (numberHex (mid message 0 chunkSize).length ++ crlf
        ++ mid message 0 chunkSize ++ crlf) (chunkSize / 5) innerFuel 0 with
    | none => rfl
    | some fragments =>
      simp only
      rw [hsecond]
      split <;> rfl

/-- C39 (counterexample): for a message of 2147483000 bytes and the chunk size 1073741825
the chunking loop has no result, whatever the fuel: after the second chunk
`pos += chunkSize` leaves the range of `int`. -/
theorem testChunkedTransferEncoding_counterexample :
    5 ≤ 1073741825 ∧ 1073741825 ≤ intMax ∧
    ∀ (fuel : Nat) (withTrailers : Bool),
      testChunkedTransferEncoding fuel (List.replicate 2147483000 0) 1073741825 withTrailers
        = none := by
  refine ⟨by decide, by decide, ?_⟩
  intro fuel withTrailers
  unfold testChunkedTransferEncoding
  rw [chunkLoop_overflow _ _ _ (by rw [List.length_replicate]; decide) (by decide)]
  rfl

/-- C39 (amended): in `testChunkedTransferEncoding`, for every message of at most
1073741811 bytes and every chunk size from 5 up to the largest `int`, the chunking loop
and the inner fragmentation loop (step `chunkSize / 5`) end with any fuel above the
message size plus 12, and the bytes written to the socket after the headers,
concatenated, are the HTTP chunked encoding of the message: for each chunk its size in
hexadecimal (which reads back as the size), CRLF, the data, CRLF, then the terminal
zero-size chunk with the trailer fields of the test. The chunks are non-empty, hold at
most `chunkSize` bytes and concatenate to the message; every write but the last is a
non-empty fragment of at most `chunkSize / 5` bytes; and for any positive fragment size
the fragments of a part concatenate to the part. -/
theorem testChunkedTransferEncoding_chunked (message : Bytes) (chunkSize fuel : Nat)
    (withTrailers : Bool) (hc : 5 ≤ chunkSize) (hci : chunkSize ≤ intMax)
    (hm : message.length ≤ 1073741811) (hfuel : message.length + 12 < fuel) :
    ∃ (writes : List Bytes) (chunks : List Bytes),
      testChunkedTransferEncoding fuel message chunkSize withTrailers = some writes ∧
      writes.flatten = chunkedEncoding chunks (testTrailers withTrailers) ∧
      chunks.flatten = message ∧
      (∀ c ∈ chunks, c ≠ [] ∧ c.length ≤ chunkSize ∧
        readHex (numberHex c.length) = some c.length) ∧
      (∀ w ∈ writes.dropLast, w ≠ [] ∧ w.length ≤ chunkSize / 5) ∧
      (∀ (part : Bytes) (fragmentSize : Nat), 1 ≤ fragmentSize → fragmentSize ≤ intMax →
        2 * part.length ≤ intMax + 1 →
        ∃ fragments : List Bytes,
          fragmentLoop part fragmentSize (part.length + 1) 0 = some fragments ∧
          fragments.flatten = part) := by
  obtain ⟨ws, chunks, hloop, hflat, hchunks, hcs, hws⟩ :=
    chunkLoop_spec message chunkSize fuel hc hci hm hfuel fuel 0 (Or.inl rfl) (by omega)
  refine ⟨ws ++ [if withTrailers then asciiBytes "0\r\nIgnore: me\r\n\r\n"
    else asciiBytes "0\r\n\r\n"], chunks, ?_, ?_, ?_, ?_, ?_, ?_⟩
  · unfold testChunkedTransferEncoding
    rw [hloop]
    rfl
  · rw [List.flatten_append, hflat]
    unfold chunkedEncoding testTrailers
    cases withTrailers <;> simp <;> decide
  · rw [hchunks, List.drop_zero]
  · intro c hcm
    exact ⟨(hcs c hcm).1, (hcs c hcm).2, readHex_numberHex _⟩
  · intro w hw
    rw [List.dropLast_concat] at hw
    exact hws w hw
  · intro part fragmentSize hf hfi hb
    obtain ⟨fragments, hfr, hfl, _⟩ :=
      fragmentLoop_spec part fragmentSize hf hfi hb (part.length + 1) 0 (Or.inl rfl)
        (by omega)
    exact ⟨fragments, hfr, by rw [hfl, List.drop_zero]⟩

/-- C39 (witness): the twelve bytes of `Hello, world` sent in chunks of 5 bytes with the
trailer. -/
theorem testChunkedTransferEncoding_chunked_witness :
    ∃ (writes : List Bytes) (chunks : List Bytes),
      testChunkedTransferEncoding 25 (asciiBytes "Hello, world") 5 true = some writes ∧
      writes.flatten = chunkedEncoding chunks (testTrailers true) ∧
      chunks.flatten = asciiBytes "Hello, world" ∧
      (∀ c ∈ chunks, c ≠ [] ∧ c.length ≤ 5 ∧
        readHex (numberHex c.length) = some c.length) ∧
      (∀ w ∈ writes.dropLast, w ≠ [] ∧ w.length ≤ 5 / 5) ∧
      (∀ (part : Bytes) (fragmentSize : Nat), 1 ≤ fragmentSize → fragmentSize ≤ intMax →
        2 * part.length ≤ intMax + 1 →
        ∃ fragments : List Bytes,
          fragmentLoop part fragmentSize (part.length + 1) 0 = some fragments ∧
          fragments.flatten = part) :=
  testChunkedTransferEncoding_chunked (asciiBytes "Hello, world") 5 25 true (by decide)
    (by decide) (by decide) (by decide)


/-! ## What the writer writes itself and what the attribute list supplies -/

theorem mem_writeOwnAttributes_cases (np : KDSoapNamespacePrefixes) (use : Use)
    (v : KDSoapValue) (e : XmlEvent) (he : e ∈ v.writeOwnAttributes np use) :
    (∃ d ∈ v.namespaceDeclarations, e = XmlEvent.Namespace d.namespaceUri d.pfx) ∨
    (e = XmlEvent.AttributeNs xmlSchemaInstance2001 "nil" "true" ∧
      v.isNil = true ∧ v.nillable = true) ∨
    (use = Use.EncodedUse ∧ v.encodedType np ≠ "" ∧
      e = XmlEvent.AttributeNs xmlSchemaInstance2001 "type" (v.encodedType np)) ∨
    (use = Use.EncodedUse ∧ v.childValues.arrayType ≠ "" ∧
      e = XmlEvent.AttributeNs soapEncoding "arrayType"
        (np.resolve v.childValues.arrayTypeNs v.childValues.arrayType ++ "["
          ++ numberU v.childValues.items.length ++ "]")) := by
  cases e with
  | AttributeNs ns n t =>
    rw [mem_writeOwnAttributes_iff] at he
    rcases he with ⟨rfl, rfl, rfl, h1, h2⟩ | ⟨hu, h, rfl, rfl, rfl⟩ | ⟨hu, h, rfl, rfl, rfl⟩
    · exact Or.inr (Or.inl ⟨rfl, h1, h2⟩)
    · refine Or.inr (Or.inr (Or.inl ⟨hu, ?_, rfl⟩))
      intro h0
      rw [h0] at h
      exact absurd h (by decide)
    · refine Or.inr (Or.inr (Or.inr ⟨hu, ?_, rfl⟩))
      intro h0
      rw [h0] at h
      exact absurd h (by decide)
  | Namespace uri pfx =>
    left
    unfold KDSoapValue.writeOwnAttributes at he
    simp only [List.mem_append, List.mem_map] at he
    rcases he with (⟨d, hd, hde⟩ | he) | he
    · exact ⟨d, hd, hde.symm⟩
    · split at he <;> simp at he
    · split at he
      · simp only [List.mem_append] at he
        rcases he with he | he <;> split at he <;> simp at he
      · simp at he
  | Attribute n t =>
    exfalso
    unfold KDSoapValue.writeOwnAttributes at he
    simp only [List.mem_append, List.mem_map] at he
    rcases he with (⟨d, hd, hde⟩ | he) | he
    · cases hde
    · split at he <;> simp at he
    · split at he
      · simp only [List.mem_append] at he
        rcases he with he | he <;> split at he <;> simp at he
      · simp at he
  | _ =>
    have := isAttribute_of_mem_writeOwnAttributes np use v _ he
    simp [XmlEvent.isAttribute] at this

theorem not_mem_writeOwnAttributes_attribute (np : KDSoapNamespacePrefixes) (use : Use)
    (v : KDSoapValue) (n t : String) :
    XmlEvent.Attribute n t ∉ v.writeOwnAttributes np use := by
  intro he
  rcases mem_writeOwnAttributes_cases np use v _ he with ⟨d, _, h⟩ | ⟨h, _⟩ | ⟨_, _, h⟩ |
    ⟨_, _, h⟩ <;> cases h

theorem isNil_no_text (np : KDSoapNamespacePrefixes) (use : Use) (m : String)
    (v : KDSoapValue) (hnil : v.isNil = true) :
    v.writeText = [] ∧ ∀ t, XmlEvent.Characters t ∉ v.writeElementContents np use m := by
  obtain ⟨hv, hi, ha⟩ := (isNil_iff_aux v).mp hnil
  have hw : v.writeText = [] := by
    simp [KDSoapValue.writeText, hv]
  refine ⟨hw, ?_⟩
  intro t ht
  rw [writeElementContents_eq, writeChildren_eq, hi, ha, writeElements_nil, hw] at ht
  simp only [writeAttributes, List.map_nil, List.append_nil] at ht
  have := isAttribute_of_mem_writeOwnAttributes np use v _ ht
  simp [XmlEvent.isAttribute] at this

/-- C3: for every value and either use, the `xsi:nil` attribute that
`writeElementContents` itself writes (before it hands the attribute list to
`writeChildren`) is `xsi:nil="true"`, and it is written iff the value is nil and its
nillable flag is set; it is then among the attributes of the element, and in that case no
text node is written. `writeElementContents` itself writes no attribute under a qualified
name, and the attributes of the element are the ones it writes itself followed by the
entries of the attribute list. -/
theorem writeElementContents_nil (np : KDSoapNamespacePrefixes) (use : Use) (m : String)
    (v : KDSoapValue) :
    (∀ t, XmlEvent.AttributeNs xmlSchemaInstance2001 "nil" t ∈ v.writeOwnAttributes np use ↔
      (t = "true" ∧ v.isNil = true ∧ v.nillable = true)) ∧
    ((v.isNil = true ∧ v.nillable = true) →
      XmlEvent.AttributeNs xmlSchemaInstance2001 "nil" "true" ∈
        elementAttributes (v.writeElementContents np use m)) ∧
    ((v.isNil = true ∧ v.nillable = true) →
      v.writeText = [] ∧ ∀ t, XmlEvent.Characters t ∉ v.writeElementContents np use m) ∧
    (∀ n t, XmlEvent.Attribute n t ∉ v.writeOwnAttributes np use) ∧
    elementAttributes (v.writeElementContents np use m)
      = v.writeOwnAttributes np use ++ writeAttributes false v.childValues.attributes := by
  have hiff : ∀ t, XmlEvent.AttributeNs xmlSchemaInstance2001 "nil" t ∈
      v.writeOwnAttributes np use ↔ (t = "true" ∧ v.isNil = true ∧ v.nillable = true) := by
    intro t
    rw [mem_writeOwnAttributes_iff]
    constructor
    · rintro (⟨_, _, h3, h1, h2⟩ | ⟨_, _, _, h, _⟩ | ⟨_, _, h, _⟩)
      · exact ⟨h3, h1, h2⟩
      · exact absurd h (by decide)
      · exact absurd h (by decide)
    · rintro ⟨h3, h1, h2⟩
      exact Or.inl ⟨rfl, rfl, h3, h1, h2⟩
  refine ⟨hiff, ?_, ?_, not_mem_writeOwnAttributes_attribute np use v,
    elementAttributes_writeElementContents np use m v⟩
  · rintro ⟨h1, h2⟩
    rw [elementAttributes_writeElementContents]
    exact List.mem_append_left _ ((hiff "true").mpr ⟨rfl, h1, h2⟩)
  · rintro ⟨hnil, _⟩
    exact isNil_no_text np use m v hnil

/-- C7: under encoded use, for every value whose child list declares a non-empty array
type, `writeElementContents` writes on the element the attribute `soap-enc:arrayType` of
value `resolve(arrayTypeNs, arrayType) ++ "[" ++ N ++ "]"`, where `N` is the decimal text
of the number of child elements (attributes not counted); this is the only
`soap-enc:arrayType` that `writeElementContents` itself writes, under encoded use only,
and when the list declares no array type it writes none. `writeElementContents` itself
writes no attribute under a qualified name, and the attributes of the element are the
ones it writes itself followed by the entries of the attribute list. -/
theorem writeElementContents_arrayType (np : KDSoapNamespacePrefixes) (m : String)
    (v : KDSoapValue) :
    (∀ use t, XmlEvent.AttributeNs soapEncoding "arrayType" t ∈ v.writeOwnAttributes np use ↔
      (use = Use.EncodedUse ∧ v.childValues.arrayType ≠ "" ∧
        t = np.resolve v.childValues.arrayTypeNs v.childValues.arrayType ++ "["
          ++ numberU v.childValues.items.length ++ "]")) ∧
    (v.childValues.arrayType ≠ "" →
      XmlEvent.AttributeNs soapEncoding "arrayType"
        (np.resolve v.childValues.arrayTypeNs v.childValues.arrayType ++ "["
          ++ numberU v.childValues.items.length ++ "]") ∈
        elementAttributes (v.writeElementContents np Use.EncodedUse m)) ∧
    (v.childValues.arrayType = "" →
      ∀ use t, XmlEvent.AttributeNs soapEncoding "arrayType" t ∉ v.writeOwnAttributes np use) ∧
    parseNat (numberU v.childValues.items.length).data = some v.childValues.items.length ∧
    canonicalNat (numberU v.childValues.items.length).data = true ∧
    (∀ use n t, XmlEvent.Attribute n t ∉ v.writeOwnAttributes np use) ∧
    (∀ use, elementAttributes (v.writeElementContents np use m)
      = v.writeOwnAttributes np use ++ writeAttributes false v.childValues.attributes) := by
  have hiff : ∀ use t, XmlEvent.AttributeNs soapEncoding "arrayType" t ∈
      v.writeOwnAttributes np use ↔
      (use = Use.EncodedUse ∧ v.childValues.arrayType ≠ "" ∧
        t = np.resolve v.childValues.arrayTypeNs v.childValues.arrayType ++ "["
          ++ numberU v.childValues.items.length ++ "]") := by
    intro use t
    rw [mem_writeOwnAttributes_iff]
    constructor
    · rintro (⟨h, _⟩ | ⟨_, _, h, _⟩ | ⟨h1, h2, _, _, h3⟩)
      · exact absurd h (by decide)
      · exact absurd h (by decide)
      · refine ⟨h1, ?_, h3⟩
        intro h0
        rw [h0] at h2
        exact absurd h2 (by decide)
    · rintro ⟨h1, h2, h3⟩
      refine Or.inr (Or.inr ⟨h1, ?_, rfl, rfl, h3⟩)
      cases hb : v.childValues.arrayType.isEmpty with
      | false => rfl
      | true => exact absurd ((String.isEmpty_iff _).mp hb) h2
  refine ⟨hiff, ?_, ?_, parseNat_natDigits _, canonicalNat_natDigits _,
    fun use => not_mem_writeOwnAttributes_attribute np use v,
    fun use => elementAttributes_writeElementContents np use m v⟩
  · intro h
    rw [elementAttributes_writeElementContents]
    exact List.mem_append_left _ ((hiff _ _).mpr ⟨rfl, h, rfl⟩)
  · intro h use t he
    exact ((hiff use t).mp he).2.1 h

/-- C25: under encoded use, the `xsi:type` that `writeElementContents` itself writes is
the text it chooses, written iff that text is non-empty and then among the attributes of
the element: the resolved type name when a type name is set and resolves to a non-empty
name, whatever the runtime kind of the value; the type inferred from the runtime kind
only when no type is set (or resolution gives an empty text) and the value is non-null;
and when no type is set (or resolution gives an empty text) and the value is null, no
`xsi:type` is written. `writeElementContents` itself writes no attribute under a
qualified name, and the attributes of the element are the ones it writes itself followed
by the entries of the attribute list. -/
theorem writeElementContents_type_choice (np : KDSoapNamespacePrefixes) (m : String)
    (v : KDSoapValue) :
    (∀ t, XmlEvent.AttributeNs xmlSchemaInstance2001 "type" t ∈
        v.writeOwnAttributes np Use.EncodedUse ↔
      (v.encodedType np ≠ "" ∧ t = v.encodedType np)) ∧
    (v.encodedType np ≠ "" →
      XmlEvent.AttributeNs xmlSchemaInstance2001 "type" (v.encodedType np) ∈
        elementAttributes (v.writeElementContents np Use.EncodedUse m)) ∧
    (v.type ≠ "" → np.resolve v.typeNs v.type ≠ "" →
      v.encodedType np = np.resolve v.typeNs v.type) ∧
    ((v.type = "" ∨ np.resolve v.typeNs v.type = "") → v.value.isNull = false →
      v.encodedType np = variantToXMLType v.value) ∧
    (v.encodedType np ≠ "" → v.encodedType np ≠ np.resolve v.typeNs v.type →
      (v.type = "" ∨ np.resolve v.typeNs v.type = "") ∧ v.value.isNull = false ∧
      v.encodedType np = variantToXMLType v.value) ∧
    ((v.type = "" ∨ np.resolve v.typeNs v.type = "") → v.value.isNull = true →
      v.encodedType np = "" ∧
      ∀ t, XmlEvent.AttributeNs xmlSchemaInstance2001 "type" t ∉
        v.writeOwnAttributes np Use.EncodedUse) ∧
    (∀ n t, XmlEvent.Attribute n t ∉ v.writeOwnAttributes np Use.EncodedUse) ∧
    elementAttributes (v.writeElementContents np Use.EncodedUse m)
      = v.writeOwnAttributes np Use.EncodedUse
        ++ writeAttributes false v.childValues.attributes := by
  have hiff : ∀ t, XmlEvent.AttributeNs xmlSchemaInstance2001 "type" t ∈
      v.writeOwnAttributes np Use.EncodedUse ↔
      (v.encodedType np ≠ "" ∧ t = v.encodedType np) := by
    intro t
    rw [mem_writeOwnAttributes_iff]
    constructor
    · rintro (⟨_, h, _⟩ | ⟨_, h2, _, _, h3⟩ | ⟨_, _, h, _⟩)
      · exact absurd h (by decide)
      · refine ⟨?_, h3⟩
        intro h0
        rw [h0] at h2
        exact absurd h2 (by decide)
      · exact absurd h (by decide)
    · rintro ⟨h1, h2⟩
      refine Or.inr (Or.inl ⟨rfl, ?_, rfl, rfl, h2⟩)
      rw [isEmpty_eq_decide]
      simp [h1]
  obtain ⟨hc1, hc2, hc3⟩ := encodedType_cases np v
  refine ⟨hiff, ?_, hc1, hc2, ?_, ?_, not_mem_writeOwnAttributes_attribute np _ v,
    elementAttributes_writeElementContents np _ m v⟩
  · intro h
    rw [elementAttributes_writeElementContents]
    exact List.mem_append_left _ ((hiff _).mpr ⟨h, rfl⟩)
  · intro hne hdiff
    by_cases ht : v.type = "" ∨ np.resolve v.typeNs v.type = ""
    · cases hn : v.value.isNull with
      | false => exact ⟨ht, rfl, hc2 ht hn⟩
      | true => exact absurd (hc3 ht hn) hne
    · have ht' : v.type ≠ "" ∧ np.resolve v.typeNs v.type ≠ "" := by
        constructor
        · intro h; exact ht (Or.inl h)
        · intro h; exact ht (Or.inr h)
      exact absurd (hc1 ht'.1 ht'.2) hdiff
  · intro ht hn
    refine ⟨hc3 ht hn, ?_⟩
    intro t he
    exact ((hiff t).mp he).1 (hc3 ht hn)

/-! ## Namespace of the start tag -/

/-- C8 (counterexample): a value whose qualified flag is set and that has no element
namespace, written inside an empty message namespace, is started with the empty
namespace: although its qualified flag is set, it is written in no namespace. -/
theorem writeElement_qualified_counterexample :
    ((exampleElement []).setQualified true).isQualified = true ∧
    (((exampleElement []).setQualified true).writeElement examplePrefixes Use.LiteralUse ""
      false).head? = some (XmlEvent.StartElementNs "" "a") ∧
    (XmlEvent.StartElementNs "" "a").isNamespacedStart = false := by
  refine ⟨rfl, ?_, by decide⟩
  rw [writeElement_eq]
  simp only [List.singleton_append, List.cons_append, List.head?_cons, Option.some.injEq]
  decide

/-- C8 (amended): for every value and message namespace, `writeElement` called with
`forceQualified = false` writes the element in a namespace iff the qualified flag is set
or the element namespace is non-empty and differs from the message namespace, and the
namespace to use (the element's own, or the message namespace when it has none) is
non-empty. It calls `writeStartElement(namespace, name)` with that namespace exactly when
the flag is set or the element namespace is non-empty and differs, and
`writeStartElement(name)` otherwise; whenever the element is not written in a namespace
it is started by name only or with the empty namespace. -/
theorem writeElement_qualified (np : KDSoapNamespacePrefixes) (use : Use) (m : String)
    (v : KDSoapValue) :
    ((v.writeElement np use m false).head?.map XmlEvent.isNamespacedStart = some true ↔
      ((v.isQualified = true ∨ (v.namespaceUri ≠ "" ∧ v.namespaceUri ≠ m)) ∧
        (v.namespaceUri ≠ "" ∨ m ≠ ""))) ∧
    (∀ ns, (v.writeElement np use m false).head? = some (XmlEvent.StartElementNs ns v.name) ↔
      ((v.isQualified = true ∨ (v.namespaceUri ≠ "" ∧ v.namespaceUri ≠ m)) ∧
        ns = (if v.namespaceUri = "" then m else v.namespaceUri))) ∧
    ((v.writeElement np use m false).head? = some (XmlEvent.StartElement v.name) ↔
      ¬ (v.isQualified = true ∨ (v.namespaceUri ≠ "" ∧ v.namespaceUri ≠ m))) ∧
    ((v.writeElement np use m false).head?.map XmlEvent.isNamespacedStart ≠ some true →
      (v.writeElement np use m false).head? = some (XmlEvent.StartElement v.name) ∨
      (v.writeElement np use m false).head? = some (XmlEvent.StartElementNs "" v.name)) := by
  rw [writeElement_eq]
  simp only [List.singleton_append, List.cons_append, List.head?_cons, Option.some.injEq,
    Option.map_some']
  unfold KDSoapValue.startElement
  rw [isEmpty_eq_decide v.namespaceUri]
  by_cases hq : v.isQualified = true <;> by_cases he : v.namespaceUri = "" <;>
    by_cases hm : v.namespaceUri = m <;> by_cases hm0 : m = "" <;>
    simp [hq, he, hm, hm0, XmlEvent.isNamespacedStart, isEmpty_eq_decide] <;>
    try (intro ns; exact eq_comm)

/-! ## Encoding annotations under literal use -/

theorem isAttribute_of_isAttributeNamed (ns l : String) (e : XmlEvent)
    (h : e.isAttributeNamed ns l = true) : e.isAttribute = true := by
  cases e <;> simp [XmlEvent.isAttributeNamed] at h <;> rfl

theorem hasLocalName_prefixed (p l : String) : hasLocalName (p ++ ":" ++ l) l = true := by
  unfold hasLocalName
  rw [List.isSuffixOf_iff_suffix]
  refine ⟨p.data, ?_⟩
  simp [String.data_append]

theorem writeAttributes_named (ns l : String) (attrs : List KDSoapValue) :
    (∃ e ∈ writeAttributes false attrs, e.isAttributeNamed ns l = true) ↔
      ∃ a ∈ attrs, a.isAttributeNamed ns l = true := by
  unfold writeAttributes
  simp only [List.mem_map, Bool.or_false]
  constructor
  · rintro ⟨e, ⟨a, ha, rfl⟩, he⟩
    refine ⟨a, ha, ?_⟩
    cases hq : a.isQualified <;>
      simpa [hq, XmlEvent.isAttributeNamed, KDSoapValue.isAttributeNamed] using he
  · rintro ⟨a, ha, hn⟩
    refine ⟨_, ⟨a, ha, rfl⟩, ?_⟩
    cases hq : a.isQualified <;>
      simpa [hq, XmlEvent.isAttributeNamed, KDSoapValue.isAttributeNamed] using hn

theorem mem_writeElement_attribute (np : KDSoapNamespacePrefixes) (use : Use) (m : String)
    (v : KDSoapValue) :
    ∀ (fq : Bool) (e : XmlEvent), e ∈ v.writeElement np use m fq → e.isAttribute = true →
      ∃ w ∈ v.elements, e ∈ w.writeOwnAttributes np use ∨
        e ∈ writeAttributes false w.childValues.attributes := by
  induction v using KDSoapValue.induct with
  | h v ih =>
    intro fq e he hattr
    rw [writeElement_eq, writeElementContents_parts] at he
    simp only [List.mem_append, List.mem_singleton, List.mem_flatMap] at he
    rcases he with (he | (he | he) | (⟨c, hc, he⟩ | he)) | he
    · rw [he, startElement_not_isAttribute] at hattr
      cases hattr
    · exact ⟨v, mem_elements_self v, Or.inl he⟩
    · exact ⟨v, mem_elements_self v, Or.inr he⟩
    · obtain ⟨w, hw, hrest⟩ := ih c hc false e he hattr
      exact ⟨w, mem_elements_trans v c w (mem_elements_of_child v c hc) hw, hrest⟩
    · rcases writeText_cases v with ⟨h, _⟩ | ⟨h, _, _⟩
      · rw [h] at he; cases he
      · rw [h, List.mem_singleton] at he
        rw [he] at hattr
        cases hattr
    · rw [he] at hattr
      cases hattr

theorem mem_writeElement_of_elements (np : KDSoapNamespacePrefixes) (use : Use) (m : String)
    (v w : KDSoapValue) (fq : Bool) (hw : w ∈ v.elements) (e : XmlEvent)
    (he : e ∈ w.writeOwnAttributes np use ∨
      e ∈ writeAttributes false w.childValues.attributes) :
    e ∈ v.writeElement np use m fq := by
  obtain ⟨fq', hin⟩ := writeElement_infix_of_mem_elements np use m v fq w hw
  apply hin.subset
  rw [writeElement_eq, writeElementContents_parts]
  simp only [List.mem_append, List.mem_singleton]
  rcases he with he | he
  · exact Or.inl (Or.inr (Or.inl (Or.inl he)))
  · exact Or.inl (Or.inr (Or.inl (Or.inr he)))

theorem writeOwnAttributes_literal_named (np : KDSoapNamespacePrefixes) (v : KDSoapValue)
    (ns l : String)
    (hnil : (XmlEvent.AttributeNs xmlSchemaInstance2001 "nil" "true").isAttributeNamed ns l
      = false) :
    ∀ e ∈ v.writeOwnAttributes np Use.LiteralUse, e.isAttributeNamed ns l = false := by
  intro e he
  rcases mem_writeOwnAttributes_cases np _ v e he with ⟨d, _, rfl⟩ | ⟨rfl, _⟩ | ⟨h, _⟩ | ⟨h, _⟩
  · rfl
  · exact hnil
  · cases h
  · cases h

theorem writeElement_literal_named (np : KDSoapNamespacePrefixes) (m : String)
    (v : KDSoapValue) (ns l : String)
    (hnil : (XmlEvent.AttributeNs xmlSchemaInstance2001 "nil" "true").isAttributeNamed ns l
      = false) (fq : Bool) :
    (∃ e ∈ v.writeElement np Use.LiteralUse m fq, e.isAttributeNamed ns l = true) ↔
      ∃ w ∈ v.elements, ∃ a ∈ w.childValues.attributes, a.isAttributeNamed ns l = true := by
  constructor
  · rintro ⟨e, he, hn⟩
    obtain ⟨w, hw, h | h⟩ := mem_writeElement_attribute np _ m v fq e he
      (isAttribute_of_isAttributeNamed ns l e hn)
    · rw [writeOwnAttributes_literal_named np w ns l hnil e h] at hn
      cases hn
    · exact ⟨w, hw, (writeAttributes_named ns l _).mp ⟨e, h, hn⟩⟩
  · rintro ⟨w, hw, ha⟩
    obtain ⟨e, he, hn⟩ := (writeAttributes_named ns l _).mpr ha
    exact ⟨e, mem_writeElement_of_elements np _ m v w fq hw e (Or.inr he), hn⟩

theorem toXml_named (np : KDSoapNamespacePrefixes) (use : Use) (m : String)
    (v : KDSoapValue) (ns l : String) :
    (∃ e ∈ v.toXml np use m, e.isAttributeNamed ns l = true) ↔
      ∃ e ∈ v.writeElement np use m false, e.isAttributeNamed ns l = true := by
  unfold KDSoapValue.toXml
  constructor
  · rintro ⟨e, he, hn⟩
    simp only [List.mem_append, List.mem_singleton, List.mem_map] at he
    rcases he with ((rfl | ⟨d, _, rfl⟩) | he) | rfl
    · cases hn
    · cases hn
    · exact ⟨e, he, hn⟩
    · cases hn
  · rintro ⟨e, he, hn⟩
    refine ⟨e, ?_, hn⟩
    simp only [List.mem_append]
    exact Or.inl (Or.inr he)

theorem elementAttributes_literal_named (np : KDSoapNamespacePrefixes) (m : String)
    (w : KDSoapValue) (ns l : String)
    (hnil : (XmlEvent.AttributeNs xmlSchemaInstance2001 "nil" "true").isAttributeNamed ns l
      = false) :
    (∃ e ∈ elementAttributes (w.writeElementContents np Use.LiteralUse m),
        e.isAttributeNamed ns l = true) ↔
      ∃ a ∈ w.childValues.attributes, a.isAttributeNamed ns l = true := by
  rw [elementAttributes_writeElementContents, ← writeAttributes_named]
  constructor
  · rintro ⟨e, he, hn⟩
    rcases List.mem_append.mp he with h | h
    · rw [writeOwnAttributes_literal_named np w ns l hnil e h] at hn
      cases hn
    · exact ⟨e, h, hn⟩
  · rintro ⟨e, he, hn⟩
    exact ⟨e, List.mem_append_right _ he, hn⟩

/-- C4 (counterexample): under literal use, a value whose attribute list holds the
qualified attribute `type` in the xsi namespace is written with an `xsi:type` attribute,
and so is a value whose attribute list holds the unqualified attribute named
`xsi:type`. -/
theorem toXml_literal_counterexample :
    XmlEvent.AttributeNs xmlSchemaInstance2001 "type" "xsd:int" ∈
      (exampleElement [exampleAttribute xmlSchemaInstance2001 "type" "xsd:int" true]).toXml
        examplePrefixes Use.LiteralUse "" ∧
    XmlEvent.Attribute "xsi:type" "xsd:int" ∈
      (exampleElement [exampleAttribute "" "xsi:type" "xsd:int" false]).toXml
        examplePrefixes Use.LiteralUse "" := by
  constructor
  · unfold KDSoapValue.toXml
    rw [writeElement_eq, writeElementContents_eq, writeChildren_eq]
    simp only [List.mem_append]
    refine Or.inl (Or.inr (Or.inl (Or.inr (Or.inl (Or.inr (Or.inl ?_))))))
    rw [mem_writeAttributes_iff]
    exact ⟨exampleAttribute xmlSchemaInstance2001 "type" "xsd:int" true, by
      simp [exampleElement, KDSoapValue.childValues, KDSoapValueList.attributes],
      rfl, rfl, rfl, rfl⟩
  · unfold KDSoapValue.toXml
    rw [writeElement_eq, writeElementContents_eq, writeChildren_eq]
    simp only [List.mem_append]
    refine Or.inl (Or.inr (Or.inl (Or.inr (Or.inl (Or.inr (Or.inl ?_))))))
    unfold writeAttributes
    rw [List.mem_map]
    exact ⟨exampleAttribute "" "xsi:type" "xsd:int" false, by
      simp [exampleElement, KDSoapValue.childValues, KDSoapValueList.attributes], rfl⟩

/-- C4 (amended): under literal use the writer adds no encoding annotation of its own:
for every value tree, what `writeElementContents` itself writes on an element is never
an `xsi:type` or `soap-enc:arrayType` attribute, and the output of `writeElement`, of
`toXml`, and the attributes of each element hold an attribute reading `xsi:type` (or
`soap-enc:arrayType`) exactly when the attribute list of an element of the tree (of that
element) holds an entry so named, which `writeChildren` writes as given: a qualified
entry with that namespace and local name, or an entry whose name is a prefix, a colon and
that local name. A tree without such an entry is written with no such attribute, in
either form. -/
theorem toXml_literal (np : KDSoapNamespacePrefixes) (m : String) (v : KDSoapValue) :
    (∀ w ∈ v.elements, ∀ e ∈ w.writeOwnAttributes np Use.LiteralUse,
      e.isAttributeNamed xmlSchemaInstance2001 "type" = false ∧
      e.isAttributeNamed soapEncoding "arrayType" = false) ∧
    (∀ fq, (∃ e ∈ v.writeElement np Use.LiteralUse m fq,
        e.isAttributeNamed xmlSchemaInstance2001 "type" = true) ↔
      ∃ w ∈ v.elements, ∃ a ∈ w.childValues.attributes,
        a.isAttributeNamed xmlSchemaInstance2001 "type" = true) ∧
    (∀ fq, (∃ e ∈ v.writeElement np Use.LiteralUse m fq,
        e.isAttributeNamed soapEncoding "arrayType" = true) ↔
      ∃ w ∈ v.elements, ∃ a ∈ w.childValues.attributes,
        a.isAttributeNamed soapEncoding "arrayType" = true) ∧
    ((∃ e ∈ v.toXml np Use.LiteralUse m,
        e.isAttributeNamed xmlSchemaInstance2001 "type" = true) ↔
      ∃ w ∈ v.elements, ∃ a ∈ w.childValues.attributes,
        a.isAttributeNamed xmlSchemaInstance2001 "type" = true) ∧
    ((∃ e ∈ v.toXml np Use.LiteralUse m,
        e.isAttributeNamed soapEncoding "arrayType" = true) ↔
      ∃ w ∈ v.elements, ∃ a ∈ w.childValues.attributes,
        a.isAttributeNamed soapEncoding "arrayType" = true) ∧
    (∀ w ∈ v.elements,
      ((∃ e ∈ elementAttributes (w.writeElementContents np Use.LiteralUse m),
          e.isAttributeNamed xmlSchemaInstance2001 "type" = true) ↔
        ∃ a ∈ w.childValues.attributes,
          a.isAttributeNamed xmlSchemaInstance2001 "type" = true) ∧
      ((∃ e ∈ elementAttributes (w.writeElementContents np Use.LiteralUse m),
          e.isAttributeNamed soapEncoding "arrayType" = true) ↔
        ∃ a ∈ w.childValues.attributes,
          a.isAttributeNamed soapEncoding "arrayType" = true)) ∧
    ((∀ w ∈ v.elements, ∀ a ∈ w.childValues.attributes,
        a.isAttributeNamed xmlSchemaInstance2001 "type" = false ∧
        a.isAttributeNamed soapEncoding "arrayType" = false) →
      ∀ (p t : String),
        XmlEvent.AttributeNs xmlSchemaInstance2001 "type" t ∉ v.toXml np Use.LiteralUse m ∧
        XmlEvent.AttributeNs soapEncoding "arrayType" t ∉ v.toXml np Use.LiteralUse m ∧
        XmlEvent.Attribute (p ++ ":" ++ "type") t ∉ v.toXml np Use.LiteralUse m ∧
        XmlEvent.Attribute (p ++ ":" ++ "arrayType") t ∉ v.toXml np Use.LiteralUse m) := by
  have hnil1 : (XmlEvent.AttributeNs xmlSchemaInstance2001 "nil" "true").isAttributeNamed
      xmlSchemaInstance2001 "type" = false := by decide
  have hnil2 : (XmlEvent.AttributeNs xmlSchemaInstance2001 "nil" "true").isAttributeNamed
      soapEncoding "arrayType" = false := by decide
  have ht := fun fq => writeElement_literal_named np m v _ _ hnil1 fq
  have ha := fun fq => writeElement_literal_named np m v _ _ hnil2 fq
  have htx := (toXml_named np Use.LiteralUse m v xmlSchemaInstance2001 "type").trans
    (ht false)
  have hax := (toXml_named np Use.LiteralUse m v soapEncoding "arrayType").trans (ha false)
  refine ⟨?_, ht, ha, htx, hax, ?_, ?_⟩
  · intro w _ e he
    exact ⟨writeOwnAttributes_literal_named np w _ _ hnil1 e he,
      writeOwnAttributes_literal_named np w _ _ hnil2 e he⟩
  · intro w _
    exact ⟨elementAttributes_literal_named np m w _ _ hnil1,
      elementAttributes_literal_named np m w _ _ hnil2⟩
  · intro hno p t
    have hnone1 : ∀ e ∈ v.toXml np Use.LiteralUse m,
        e.isAttributeNamed xmlSchemaInstance2001 "type" = true → False := by
      intro e he hn
      obtain ⟨w, hw, a, ha', hna⟩ := htx.mp ⟨e, he, hn⟩
      rw [(hno w hw a ha').1] at hna
      cases hna
    have hnone2 : ∀ e ∈ v.toXml np Use.LiteralUse m,
        e.isAttributeNamed soapEncoding "arrayType" = true → False := by
      intro e he hn
      obtain ⟨w, hw, a, ha', hna⟩ := hax.mp ⟨e, he, hn⟩
      rw [(hno w hw a ha').2] at hna
      cases hna
    refine ⟨fun he => hnone1 _ he ?_, fun he => hnone2 _ he ?_,
      fun he => hnone1 _ he ?_, fun he => hnone2 _ he ?_⟩
    · simp [XmlEvent.isAttributeNamed]
    · simp [XmlEvent.isAttributeNamed]
    · exact hasLocalName_prefixed p "type"
    · exact hasLocalName_prefixed p "arrayType"

end KDSoap
